import Mathlib

/-!
Verification of the IPython task scheduler
(src/IPython/parallel/controller/scheduler.py).

The scheduler's mutable state is embedded shallowly: Python sets of task /
engine identifiers become `List Nat` (identifiers are opaque strings in the
source; we number them), Python dicts become association lists
`List (Nat × _)`, and the mutually recursive handler cluster
(fail_unreachable / update_graph / maybe_run) becomes a single fuel-indexed
executor `execF` so that every run is computable.  Dict/list accesses that
raise `KeyError` / `ValueError` / `IndexError` in Python are modelled with
`Except Err`.  Messages sent on the client and engine streams are recorded in
an output trace `Sched.out`.
-/

set_option maxHeartbeats 1000000

namespace Scheduler

abbrev TaskId := Nat
abbrev EngineId := Nat

/-! ### Python sets, modelled as lists of identifiers -/

/-- Membership in a Python set modelled as a list. -/
def smem (x : Nat) (s : List Nat) : Bool := s.contains x

/-- Python `set.add` (iteration order of Python sets is unspecified; we append). -/
def sinsert (x : Nat) (s : List Nat) : List Nat := if smem x s then s else s ++ [x]

/-- Python `set.difference`. -/
def sdiff (a b : List Nat) : List Nat := a.filter (fun x => !smem x b)

/-- Python `set.union`. -/
def sunion (a b : List Nat) : List Nat := a ++ sdiff b a

/-- Python `set.intersection`. -/
def sinter (a b : List Nat) : List Nat := a.filter (fun x => smem x b)

/-- Python `set.issubset`. -/
def ssub (a b : List Nat) : Bool := a.all (fun x => smem x b)

/-- Python set equality (extensional). -/
def seqv (a b : List Nat) : Bool := ssub a b && ssub b a

/-- Removal used to implement `set.remove` / `set.discard`. -/
def serase (x : Nat) (s : List Nat) : List Nat := s.filter (fun y => y != x)

/-! ### Python dicts, modelled as association lists -/

/-- Python dict lookup, as an `Option` (first matching key). -/
def alookup : List (Nat × α) → Nat → Option α
  | [], _ => none
  | p :: t, k => if p.1 == k then some p.2 else alookup t k

/-- Python `k in d`. -/
def amem : List (Nat × α) → Nat → Bool
  | [], _ => false
  | p :: t, k => p.1 == k || amem t k

/-- Python `d[k] = v`: replace in place if the key exists, else append. -/
def aset (l : List (Nat × α)) (k : Nat) (v : α) : List (Nat × α) :=
  if amem l k then l.map (fun p => if p.1 == k then (k, v) else p) else l ++ [(k, v)]

/-- Python `d.pop(k, ...)` (the removal part). -/
def aerase : List (Nat × α) → Nat → List (Nat × α)
  | [], _ => []
  | p :: t, k => if p.1 == k then aerase t k else p :: aerase t k

/-- Python `d.keys()`. -/
def akeys (l : List (Nat × α)) : List Nat := l.map (·.1)

/-! ### The Dependency predicate

The `Dependency` class lives in `IPython/parallel/controller/dependency.py`,
which is not part of the sources under review (the scheduler only imports it).
Its semantics is therefore modelled from the spec. -/

/-- A DepSpec: a set of task ids plus the three flags. -/
structure Dep where
  ids : List TaskId
  all : Bool
  success : Bool
  failure : Bool
deriving DecidableEq

/-- Modelled from the spec: `Dependency.check` of dependency.py (not under
src/), per the truth table of spec section 4.1 (S = success, F = failure,
A = all; D = ids, C = completed, X = failed), with the empty DepSpec
trivially met:
S1 F0 A0: D inter C nonempty; S0 F1 A0: D inter X nonempty;
S1 F1 A0: D inter (C union X) nonempty; S1 F0 A1: D sub C;
S0 F1 A1: D sub X; S1 F1 A1: D sub (C union X). -/
def Dep.check (d : Dep) (C X : List TaskId) : Bool :=
  if d.ids.isEmpty then true
  else
    let rel := (if d.success then C else []) ++ (if d.failure then X else [])
    if d.all then ssub d.ids rel else !(sinter d.ids rel).isEmpty

/-- Modelled from the spec: `Dependency.unreachable` of dependency.py (not
under src/), per the truth table of spec section 4.1; never unreachable when
both flags are set or the id set is empty:
S1 F0 A0: D sub X; S0 F1 A0: D sub C; S1 F0 A1: D inter X nonempty;
S0 F1 A1: D inter C nonempty. -/
def Dep.unreachable (d : Dep) (C X : List TaskId) : Bool :=
  if d.ids.isEmpty then false
  else if d.success && d.failure then false
  else
    let opp := if d.success then X else if d.failure then C else []
    if d.all then !(sinter d.ids opp).isEmpty else ssub d.ids opp

/-- The module-level empty-dependency sentinel `MET = Dependency([])`
(ids empty; the Dependency defaults are all=True, success=True,
failure=False). -/
def MET : Dep := ⟨[], true, true, false⟩

/-! ### Load policy: leastload (scheduler.py lines 110-117) -/

/-- Python `min` over a list of loads (the source applies it only to
non-empty lists; `min([])` raises ValueError, callers guard). -/
def listMin : List Int → Int
  | [] => 0
  | h :: t => t.foldl min h

/-- `leastload(loads) = loads.index(min(loads))`: first index holding the
minimum load. -/
def leastload (loads : List Int) : Nat :=
  loads.findIdx (fun x => x == listMin loads)

/-! ### Engine registry primitives (scheduler.py lines 647-659) -/

/-- `add_job(idx)`: increment `loads[idx]`, then for both `targets` and
`loads` do `lis.append(lis.pop(idx))` (move position idx to the tail). -/
def add_job (targets : List EngineId) (loads : List Int) (idx : Nat) :
    List EngineId × List Int :=
  let loads1 := loads.set idx (loads.getD idx 0 + 1)
  (targets.eraseIdx idx ++ [targets.getD idx 0],
   loads1.eraseIdx idx ++ [loads1.getD idx 0])

/-- `finish_job(idx)`: decrement `loads[idx]`; no rotation. -/
def finish_job (loads : List Int) (idx : Nat) : List Int :=
  loads.set idx (loads.getD idx 0 - 1)

/-! ### Scheduler state

One field per mutable attribute of TaskScheduler that the dispatch logic
reads or writes (streams, logging and the clients map are I/O boundary and
are represented by the output trace `out`).  `retries` maps msg_id to retries
remaining; `depending` and the per-engine `pending` dicts hold task records;
`hwm` is the high-water mark (0 disables it). -/

/-- A task record: the (targets, after, follow, timeout) part of the tuples
stored in `depending` and `pending` (the raw message is opaque and only
needed to build replies, which we emit as trace events). -/
structure TaskRec where
  targs : List EngineId
  after : Dep
  follow : Dep
  timeout : Option Int
deriving DecidableEq

/-- Observable messages: a reply relayed/synthesized to the client for a task
(with its success flag), or a task dispatched to an engine. -/
inductive Ev
  | reply (m : TaskId) (ok : Bool)
  | dispatch (m : TaskId) (e : EngineId)
deriving DecidableEq

/-- Errors: a Python KeyError / ValueError / IndexError on a dict or list
access, or exhaustion of the recursion fuel of the executor. -/
inductive Err
  | keyError
  | fuelOut
deriving DecidableEq

structure Sched where
  graph : List (TaskId × List TaskId)
  retries : List (TaskId × Int)
  depending : List (TaskId × TaskRec)
  pending : List (EngineId × List (TaskId × TaskRec))
  completed : List (EngineId × List TaskId)
  failed : List (EngineId × List TaskId)
  destinations : List (TaskId × EngineId)
  targets : List EngineId
  loads : List Int
  all_completed : List TaskId
  all_failed : List TaskId
  all_done : List TaskId
  all_ids : List TaskId
  blacklist : List (TaskId × List TaskId)
  hwm : Int
  out : List Ev
deriving DecidableEq

/-- The tasks pending on an engine (empty when the engine has no entry). -/
def pendOf (s : Sched) (e : EngineId) : List (TaskId × TaskRec) :=
  (alookup s.pending e).getD []

/-- The blacklist set of a task (empty when absent). -/
def blD (s : Sched) (m : TaskId) : List EngineId :=
  (alookup s.blacklist m).getD []

/-! ### Non-recursive helpers of the dispatcher -/

/-- Python `set.remove`: raises KeyError when the element is absent
(used on the sets stored in `graph`). -/
def sremoveE (s : List Nat) (x : Nat) : Except Err (List Nat) :=
  if smem x s then .ok (serase x s) else .error .keyError

/-- The scrub loop of fail_unreachable (lines 406-408) and of the dispatch
branch of update_graph (lines 639-641):
for mid in deps: if mid in graph: graph[mid].remove(msg_id). -/
def scrubGraph : List TaskId → TaskId → List (TaskId × List TaskId) →
    Except Err (List (TaskId × List TaskId))
  | [], _, g => .ok g
  | mid :: rest, m, g =>
    match alookup g mid with
    | none => scrubGraph rest m g
    | some v =>
      match sremoveE v m with
      | .error e => .error e
      | .ok v2 => scrubGraph rest m (aset g mid v2)

/-- The dests loop of maybe_run (lines 459-460):
for m in follow.intersection(relevant): dests.add(self.destinations[m]);
raises KeyError when a destination is unknown. -/
def destsOf : List TaskId → List (TaskId × EngineId) → Except Err (List EngineId)
  | [], _ => .ok []
  | t :: rest, dmap =>
    match alookup dmap t with
    | none => .error .keyError
    | some e =>
      match destsOf rest dmap with
      | .error err => .error err
      | .ok ds => .ok (sinsert e ds)

/-- The index submit_task sends to: the load policy (the default scheme,
leastload, per _scheme_default) applied to the load sub-vector of the
eligible subset, mapped back through that subset. -/
def submitIdx (s : Sched) (indices : Option (List Nat)) : Nat :=
  match indices with
  | some is => is.getD (leastload (is.map (fun i => s.loads.getD i 0))) 0
  | none => leastload s.loads

/-- submit_task (lines 488-508): pick an index with the load policy, send the
task to that engine (dispatch event), add_job, and store the record in
pending[target] with its after replaced by MET. -/
def submit_taskF (s : Sched) (m : TaskId) (rec : TaskRec)
    (indices : Option (List Nat)) : Except Err Sched :=
  match s.targets.get? (submitIdx s indices) with
  | none => .error .keyError
  | some target =>
    .ok { s with
      targets := (add_job s.targets s.loads (submitIdx s indices)).1,
      loads := (add_job s.targets s.loads (submitIdx s indices)).2,
      pending := aset s.pending target (aset (pendOf s target) m { rec with after := MET }),
      out := s.out ++ [Ev.dispatch m target] }

/-- save_unmet (lines 479-486): store the record in depending and register
msg_id under every dependency id of after union follow not yet done. -/
def save_unmetF (s : Sched) (m : TaskId) (rec : TaskRec) : Sched :=
  let deps := sdiff (sunion rec.after.ids rec.follow.ids) s.all_done
  { s with
    depending := aset s.depending m rec,
    graph := deps.foldl
      (fun g d =>
        if amem g d then aset g d (sinsert m ((alookup g d).getD []))
        else g ++ [(d, [m])]) s.graph }

/-- The can_run filter predicate of maybe_run (lines 433-445), over an engine
index: not at the HWM, not blacklisted, inside the explicit target set when
one is given, and satisfying the follow dependency against the engine's
completed/failed sets.  (Live engines always have completed/failed entries,
created at registration; the lookups default to the empty set.) -/
def canRunB (s : Sched) (bl : List EngineId) (rec : TaskRec) (idx : Nat) : Bool :=
  (!(decide (s.hwm ≠ 0) && (s.loads.getD idx 0 == s.hwm))) &&
  (let target := s.targets.getD idx 0
   !(smem target bl) &&
   (rec.targs.isEmpty || smem target rec.targs) &&
   rec.follow.check ((alookup s.completed target).getD []) ((alookup s.failed target).getD []))

/-! ### The recursive handler cluster

fail_unreachable, update_graph and maybe_run are mutually recursive
(fail_unreachable ends in update_graph; update_graph can fail candidates and
can dispatch via maybe_run; maybe_run can fail its task).  They are embedded
as one fuel-indexed executor, structurally recursive on the fuel, so that
concrete runs compute.  Results are uniformly `Sched × Bool × List EngineId`:
the Bool is maybe_run's return value (dummy `false` for the other calls), and
the list is the task's current explicit target set as maybe_run leaves it —
`targets.difference_update(blacklist)` mutates the stored set in place in the
source, so callers receiving `false` must re-save the returned set. -/

inductive Call
  | failUn (m : TaskId)
  | update (d : Option TaskId) (success : Bool)
  | loop (jobs : List TaskId)
  | maybe (m : TaskId) (rec : TaskRec)

/-- One executor for the recursive cluster; each constructor follows the
corresponding source function (fail_unreachable lines 399-426, update_graph
lines 605-641 with its per-candidate loop, maybe_run lines 428-477). -/
def execF : Nat → Sched → Call → Except Err (Sched × Bool × List EngineId)
  | 0, _, _ => .error .fuelOut
  | fuel + 1, s, c =>
    match c with
    | .failUn m =>
      -- if msg_id not in depending: log and return
      match alookup s.depending m with
      | none => .ok (s, false, [])
      | some rec =>
        -- pop from depending, scrub graph entries of follow.union(after)
        let s1 := { s with depending := aerase s.depending m }
        match scrubGraph (sunion rec.follow.ids rec.after.ids) m s1.graph with
        | .error e => .error e
        | .ok g2 =>
          -- record failure, reply to client, then update_graph(msg_id, False)
          let s2 := { s1 with
            graph := g2,
            all_done := sinsert m s1.all_done,
            all_failed := sinsert m s1.all_failed,
            out := s1.out ++ [Ev.reply m false] }
          match execF fuel s2 (.update (some m) false) with
          | .error e => .error e
          | .ok r => .ok (r.1, false, [])
    | .update d _succ =>
      -- jobs = graph.pop(dep_id, []); rescan all of depending when dep_id is
      -- None or hwm is on and some engine just left the high-water mark
      let jobs0 :=
        match d with
        | some dep => (alookup s.graph dep).getD []
        | none => []
      let s1 :=
        match d with
        | some dep => { s with graph := aerase s.graph dep }
        | none => s
      let jobs :=
        if d.isNone || (decide (s1.hwm ≠ 0) && s1.loads.any (fun l => l == s1.hwm - 1))
        then akeys s1.depending else jobs0
      match execF fuel s1 (.loop jobs) with
      | .error e => .error e
      | .ok r => .ok (r.1, false, [])
    | .loop [] => .ok (s, false, [])
    | .loop (m :: rest) =>
      -- the source looks depending[msg_id] up without re-checking membership
      match alookup s.depending m with
      | none => .error .keyError
      | some rec =>
        if rec.after.unreachable s.all_completed s.all_failed
            || rec.follow.unreachable s.all_completed s.all_failed then
          match execF fuel s (.failUn m) with
          | .error e => .error e
          | .ok r => execF fuel r.1 (.loop rest)
        else if rec.after.check s.all_completed s.all_failed then
          -- maybe_run is called with MET in the after position
          match execF fuel s (.maybe m { rec with after := MET }) with
          | .error e => .error e
          | .ok (s1, true, _) =>
            -- ran: pop from depending, scrub graph by the original deps
            let s2 := { s1 with depending := aerase s1.depending m }
            match scrubGraph (sunion rec.follow.ids rec.after.ids) m s2.graph with
            | .error e => .error e
            | .ok g2 => execF fuel { s2 with graph := g2 } (.loop rest)
          | .ok (s1, false, t2) =>
            -- did not run: the in-place difference_update is visible in the
            -- record still stored in depending
            let dep2 :=
              match alookup s1.depending m with
              | some r2 => aset s1.depending m { r2 with targs := t2 }
              | none => s1.depending
            execF fuel { s1 with depending := dep2 } (.loop rest)
        else execF fuel s (.loop rest)
    | .maybe m rec =>
      -- blacklist.setdefault(msg_id, set())
      let bl := blD s m
      let s0 :=
        if amem s.blacklist m then s
        else { s with blacklist := s.blacklist ++ [(m, [])] }
      if !rec.follow.ids.isEmpty || !rec.targs.isEmpty || !bl.isEmpty
          || decide (s0.hwm ≠ 0) then
        let indices := (List.range s0.targets.length).filter (canRunB s0 bl rec)
        if indices.isEmpty then
          -- couldn't run: check follow impossibility, then blacklist+targets
          let relevant :=
            if rec.follow.all then
              sunion (if rec.follow.success then s0.all_completed else [])
                (if rec.follow.failure then s0.all_failed else [])
            else []
          match (if rec.follow.all
                 then destsOf (sinter rec.follow.ids relevant) s0.destinations
                 else .ok []) with
          | .error e => .error e
          | .ok dests =>
            if rec.follow.all && decide (dests.length > 1) then
              let s1 := { s0 with depending := aset s0.depending m rec }
              match execF fuel s1 (.failUn m) with
              | .error e => .error e
              | .ok r => .ok (r.1, false, rec.targs)
            else if !rec.targs.isEmpty then
              -- targets.difference_update(blacklist)
              let t2 := sdiff rec.targs bl
              if t2.isEmpty || (sinter t2 s0.targets).isEmpty then
                let s1 := { s0 with depending := aset s0.depending m { rec with targs := t2 } }
                match execF fuel s1 (.failUn m) with
                | .error e => .error e
                | .ok r => .ok (r.1, false, t2)
              else .ok (s0, false, t2)
            else .ok (s0, false, rec.targs)
        else
          match submit_taskF s0 m rec (some indices) with
          | .error e => .error e
          | .ok s1 => .ok (s1, true, rec.targs)
      else
        match submit_taskF s0 m rec none with
        | .error e => .error e
        | .ok s1 => .ok (s1, true, rec.targs)

/-- fail_unreachable as a state transformer. -/
def fail_unreachableF (fuel : Nat) (s : Sched) (m : TaskId) : Except Err Sched :=
  (execF fuel s (.failUn m)).map (·.1)

/-- update_graph as a state transformer. -/
def update_graphF (fuel : Nat) (s : Sched) (d : Option TaskId) (success : Bool) :
    Except Err Sched :=
  (execF fuel s (.update d success)).map (·.1)

/-- maybe_run as a state transformer returning its Bool and the task's
target set after the possible in-place difference_update. -/
def maybe_runF (fuel : Nat) (s : Sched) (m : TaskId) (rec : TaskRec) :
    Except Err (Sched × Bool × List EngineId) :=
  execF fuel s (.maybe m rec)

/-! ### Top-level handlers -/

/-- handle_unmet_dependency (lines 573-601): blacklist the engine, pop the
record from pending[engine]; fail unreachable if the blacklist now equals the
explicit target set, else retry via maybe_run and re-save on failure; finally
the HWM wakeup. -/
def handle_unmetF (fuel : Nat) (s : Sched) (engine : EngineId) (m : TaskId) :
    Except Err Sched :=
  let bl := sinsert engine (blD s m)
  let s0 := { s with blacklist := aset s.blacklist m bl }
  match alookup (pendOf s0 engine) m with
  | none => .error .keyError
  | some rec =>
    let s1 := { s0 with pending := aset s0.pending engine (aerase (pendOf s0 engine) m) }
    let after2 :=
      if seqv bl rec.targs then
        fail_unreachableF fuel { s1 with depending := aset s1.depending m rec } m
      else
        match maybe_runF fuel s1 m rec with
        | .error e => .error e
        | .ok (sa, true, _) => .ok sa
        | .ok (sa, false, t2) =>
          if smem m sa.all_failed then .ok sa
          else .ok (save_unmetF sa m { rec with targs := t2 })
    match after2 with
    | .error e => .error e
    | .ok s2 =>
      if s2.hwm ≠ 0 then
        match s2.targets.indexOf? engine with
        | none => .ok s2
        | some idx =>
          if s2.loads.getD idx 0 == s2.hwm - 1 then update_graphF fuel s2 none true
          else .ok s2
      else .ok s2

/-- handle_result (lines 549-571): relay the reply to the client, clear the
blacklist entry, pop from pending, record the outcome in the per-engine and
global sets and in destinations, then update_graph. -/
def handle_resultF (fuel : Nat) (s : Sched) (engine : EngineId) (m : TaskId)
    (success : Bool) : Except Err Sched :=
  let s0 := { s with out := s.out ++ [Ev.reply m success] }
  let s1 := { s0 with blacklist := aerase s0.blacklist m }
  match alookup (pendOf s1 engine) m with
  | none => .error .keyError
  | some _ =>
    let s2 := { s1 with pending := aset s1.pending engine (aerase (pendOf s1 engine) m) }
    let s3 :=
      if success then
        { s2 with
          completed := aset s2.completed engine (sinsert m ((alookup s2.completed engine).getD [])),
          all_completed := sinsert m s2.all_completed }
      else
        { s2 with
          failed := aset s2.failed engine (sinsert m ((alookup s2.failed engine).getD [])),
          all_failed := sinsert m s2.all_failed }
    let s4 := { s3 with
      all_done := sinsert m s3.all_done,
      destinations := aset s3.destinations m engine }
    update_graphF fuel s4 (some m) success

/-- dispatch_result (lines 514-547): finish_job for still-registered engines,
then either the location-miss path (dependencies_met false), the retry path
(status error with retries remaining), or finalization via handle_result. -/
def dispatch_resultF (fuel : Nat) (s : Sched) (engine : EngineId) (m : TaskId)
    (ok : Bool) (deps_met : Bool) : Except Err Sched :=
  let s0 :=
    match s.targets.indexOf? engine with
    | none => s
    | some idx => { s with loads := finish_job s.loads idx }
  if deps_met then
    match (alookup s0.retries m : Option Int) with
    | none => .error .keyError
    | some r =>
      if !ok && decide (r > 0) then
        handle_unmetF fuel { s0 with retries := aset s0.retries m (r - 1) } engine m
      else
        handle_resultF fuel { s0 with retries := aerase s0.retries m } engine m ok
  else handle_unmetF fuel s0 engine m

/-- The after-dependency reduction of dispatch_submission (lines 333-345):
drop already-finished ids for all+success / all+failure specs, then collapse
to MET when already satisfied. -/
def submAfter1 (s0 : Sched) (afterIn : Dep) : Dep :=
  if afterIn.ids.isEmpty then MET
  else
    let a1 :=
      if afterIn.all && afterIn.success
      then { afterIn with ids := sdiff afterIn.ids s0.all_completed } else afterIn
    let a2 :=
      if a1.all && a1.failure
      then { a1 with ids := sdiff a1.ids s0.all_failed } else a1
    if a2.check s0.all_completed s0.all_failed then MET else a2

/-- The InvalidDependency test of dispatch_submission (lines 352-360): the
task depends on itself or on an unknown msg_id. -/
def invalidDepB (s0 : Sched) (m : TaskId) (dep : Dep) : Bool :=
  smem m dep.ids || !(sdiff dep.ids s0.all_ids).isEmpty

/-- The ImpossibleDependency test of dispatch_submission (lines 361-366). -/
def unreachDepB (s0 : Sched) (dep : Dep) : Bool :=
  dep.unreachable s0.all_completed s0.all_failed

/-- The bookkeeping writes at the top of dispatch_submission (lines 320-331):
record the msg_id and its retries budget. -/
def submState (s : Sched) (m : TaskId) (r : Int) : Sched :=
  { s with all_ids := sinsert m s.all_ids, retries := aset s.retries m r }

/-- dispatch_submission (lines 304-387): record the id and retries, build and
reduce the after dependency, validate both dependencies, then run or park the
task. -/
def dispatch_submissionF (fuel : Nat) (s : Sched) (m : TaskId)
    (targs : List EngineId) (afterIn followIn : Dep) (r : Int)
    (timeout : Option Int) : Except Err Sched :=
  let s0 := submState s m r
  let after1 := submAfter1 s0 afterIn
  let rec0 : TaskRec := ⟨targs, after1, followIn, timeout⟩
  if !after1.ids.isEmpty && invalidDepB s0 m after1 then
    fail_unreachableF fuel { s0 with depending := aset s0.depending m rec0 } m
  else if !after1.ids.isEmpty && unreachDepB s0 after1 then
    fail_unreachableF fuel { s0 with depending := aset s0.depending m rec0 } m
  else if !followIn.ids.isEmpty && invalidDepB s0 m followIn then
    fail_unreachableF fuel { s0 with depending := aset s0.depending m rec0 } m
  else if !followIn.ids.isEmpty && unreachDepB s0 followIn then
    fail_unreachableF fuel { s0 with depending := aset s0.depending m rec0 } m
  else if after1.check s0.all_completed s0.all_failed then
    match maybe_runF fuel s0 m rec0 with
    | .error e => .error e
    | .ok (s1, true, _) => .ok s1
    | .ok (s1, false, t2) =>
      if smem m s1.all_failed then .ok s1
      else .ok (save_unmetF s1 m { rec0 with targs := t2 })
  else .ok (save_unmetF s0 m rec0)

/-- _register_engine (lines 230-243): head insertion into targets/loads,
fresh per-engine sets, then a full rescan. -/
def register_engineF (fuel : Nat) (s : Sched) (uid : EngineId) : Except Err Sched :=
  update_graphF fuel
    { s with
      targets := uid :: s.targets,
      loads := 0 :: s.loads,
      completed := aset s.completed uid [],
      failed := aset s.failed uid [],
      pending := aset s.pending uid [] } none true

/-- _unregister_engine (lines 245-270): remove from targets/loads; when the
engine has no pending work, drop its completed/failed sets now (otherwise
handle_stranded_tasks runs after the grace delay, modelled as its own
operation). -/
def unregister_engineF (s : Sched) (uid : EngineId) : Except Err Sched :=
  match s.targets.indexOf? uid with
  | none => .error .keyError
  | some idx =>
    let s1 := { s with targets := s.targets.eraseIdx idx, loads := s.loads.eraseIdx idx }
    if (pendOf s1 uid).isEmpty then
      .ok { s1 with completed := aerase s1.completed uid, failed := aerase s1.failed uid }
    else .ok s1

/-- The loop of handle_stranded_tasks: for each task still pending on the
dead engine, feed a synthetic status-error reply (dependencies_met true)
through dispatch_result; tolerate entries disappearing mid-iteration. -/
def strandLoop (fuel : Nat) (engine : EngineId) :
    List TaskId → Sched → Except Err Sched
  | [], s => .ok s
  | m :: rest, s =>
    if amem (pendOf s engine) m then
      match dispatch_resultF fuel s engine m false true with
      | .error e => .error e
      | .ok s1 => strandLoop fuel engine rest s1
    else strandLoop fuel engine rest s

/-- handle_stranded_tasks (lines 273-298). -/
def handle_strandedF (fuel : Nat) (s : Sched) (engine : EngineId) :
    Except Err Sched :=
  match strandLoop fuel engine (akeys (pendOf s engine)) s with
  | .error e => .error e
  | .ok s1 =>
    .ok { s1 with completed := aerase s1.completed engine, failed := aerase s1.failed engine }

/-- The loop of audit_timeouts (lines 389-397): snapshot of depending's keys,
membership re-check, fail expired entries as TaskTimeout. -/
def auditLoop (fuel : Nat) (now : Int) :
    List TaskId → Sched → Except Err Sched
  | [], s => .ok s
  | m :: rest, s =>
    match alookup s.depending m with
    | none => auditLoop fuel now rest s
    | some rec =>
      match rec.timeout with
      | some t =>
        if t < now then
          match fail_unreachableF fuel s m with
          | .error e => .error e
          | .ok s1 => auditLoop fuel now rest s1
        else auditLoop fuel now rest s
      | none => auditLoop fuel now rest s

/-- audit_timeouts as a state transformer. -/
def audit_timeoutsF (fuel : Nat) (s : Sched) (now : Int) : Except Err Sched :=
  auditLoop fuel now (akeys s.depending) s

/-- The top-level event-loop operations (one per handler invocation). -/
inductive Op
  | submission (m : TaskId) (targs : List EngineId) (afterIn followIn : Dep)
      (r : Int) (timeout : Option Int)
  | result (engine : EngineId) (m : TaskId) (ok deps_met : Bool)
  | register (uid : EngineId)
  | unregister (uid : EngineId)
  | stranded (engine : EngineId)
  | audit (now : Int)

/-- Run one handler. -/
def applyOp (fuel : Nat) (op : Op) (s : Sched) : Except Err Sched :=
  match op with
  | .submission m targs a f r t => dispatch_submissionF fuel s m targs a f r t
  | .result e m ok dm => dispatch_resultF fuel s e m ok dm
  | .register u => register_engineF fuel s u
  | .unregister u => unregister_engineF s u
  | .stranded e => handle_strandedF fuel s e
  | .audit now => audit_timeoutsF fuel s now




/-- Run a sequence of handler invocations. -/
def runOps (fuel : Nat) : List Op → Sched → Except Err Sched
  | [], s => .ok s
  | op :: rest, s =>
    match applyOp fuel op s with
    | .error e => .error e
    | .ok s1 => runOps fuel rest s1

/-! ### State invariants (claims C3, C4, C5)

The conjuncts below are Bool-valued so that concrete states can be checked
by evaluation.  `inPendB` is task membership in any engine's pending dict;
`dnodup` is duplicate-freeness; `replyIds` projects the reply events out of
the trace. -/

/-- Task m is pending on some engine. -/
def inPendB (s : Sched) (m : TaskId) : Bool := s.pending.any (fun e => amem e.2 m)

/-- No duplicates. -/
def dnodup : List Nat → Bool
  | [] => true
  | x :: t => !smem x t && dnodup t

/-- The msg_ids of the reply events of a trace, in order. -/
def replyIds : List Ev → List TaskId
  | [] => []
  | Ev.reply m _ :: t => m :: replyIds t
  | Ev.dispatch _ _ :: t => replyIds t

/-- How many replies the trace holds for task m. -/
def countReply (m : TaskId) (out : List Ev) : Nat := (replyIds out).count m

/-- all_done equals all_completed union all_failed (as sets). -/
def unionOK (s : Sched) : Bool := seqv s.all_done (sunion s.all_completed s.all_failed)

/-- all_completed and all_failed are disjoint. -/
def disjOK (s : Sched) : Bool := (sinter s.all_completed s.all_failed).isEmpty

/-- No task waiting in depending is already finished. -/
def depFresh (s : Sched) : Bool := s.depending.all (fun p => !smem p.1 s.all_done)

/-- No task pending on an engine is already finished. -/
def pendFresh (s : Sched) : Bool :=
  s.pending.all (fun e => e.2.all (fun q => !smem q.1 s.all_done))

/-- No task is both pending on an engine and waiting in depending. -/
def dpDisj (s : Sched) : Bool :=
  s.pending.all (fun e => e.2.all (fun q => !amem s.depending q.1))

/-- dpDisj with a single task exempted (transient state while maybe_run has
dispatched a task that update_graph has not yet popped from depending). -/
def dpDisjX (s : Sched) (m : TaskId) : Bool :=
  s.pending.all (fun e => e.2.all (fun q => (q.1 == m) || !amem s.depending q.1))

/-- Entries of different engines hold disjoint task sets. -/
def ppDisj (P : List (EngineId × List (TaskId × TaskRec))) : Bool :=
  P.all (fun e1 => P.all (fun e2 => (e1.1 == e2.1) || e1.2.all (fun q => !amem e2.2 q.1)))

/-- The engine keys of pending are duplicate-free. -/
def pendKND (s : Sched) : Bool := dnodup (akeys s.pending)

/-- Each engine's pending dict has duplicate-free task keys. -/
def pendND (s : Sched) : Bool := s.pending.all (fun e => dnodup (akeys e.2))

/-- The engine list is duplicate-free. -/
def targsND (s : Sched) : Bool := dnodup s.targets

/-- loads and targets run in parallel. -/
def loadLen (s : Sched) : Bool := s.loads.length == s.targets.length

/-- Each engine's load equals the number of tasks pending on it. -/
def loadsOK (s : Sched) : Bool :=
  (s.targets.zip s.loads).all (fun p => p.2 == ((pendOf s p.1).length : Int))

/-- loadsOK, except that the entry of one engine has already been
decremented by finish_job while its pending dict still holds the task
(the state between dispatch_result's finish_job and the pop in
handle_result / handle_unmet_dependency). -/
def loadsOK2 (s : Sched) (engine : EngineId) : Bool :=
  (s.targets.zip s.loads).all (fun p =>
    p.2 == (if p.1 == engine then ((pendOf s p.1).length : Int) - 1
            else ((pendOf s p.1).length : Int)))

/-- The reply trace has no duplicate msg_id. -/
def repND (s : Sched) : Bool := dnodup (replyIds s.out)

/-- Every finished task has a reply in the trace. -/
def doneRep (s : Sched) : Bool := s.all_done.all (fun m => smem m (replyIds s.out))

/-- Every reply in the trace is for a finished task. -/
def repDone (s : Sched) : Bool := (replyIds s.out).all (fun m => smem m s.all_done)

/-- The quiescent-state invariant of the dispatch tables (claims C3-C5). -/
structure Inv (s : Sched) : Prop where
  uOK : unionOK s = true
  dOK : disjOK s = true
  dF : depFresh s = true
  pF : pendFresh s = true
  dp : dpDisj s = true
  pp : ppDisj s.pending = true
  pkn : pendKND s = true
  pnd : pendND s = true
  tnd : targsND s = true
  lLen : loadLen s = true
  lOK : loadsOK s = true
  rnd : repND s = true
  dr : doneRep s = true
  rd : repDone s = true

/-- One evaluable check for the whole invariant. -/
def invB (s : Sched) : Bool :=
  unionOK s && disjOK s && depFresh s && pendFresh s && dpDisj s &&
  ppDisj s.pending && pendKND s && pendND s && targsND s && loadLen s &&
  loadsOK s && repND s && doneRep s && repDone s

/-- Handler freshness: a submitted msg_id is new (not finished, not pending,
not parked), and a registering engine's uid is not already a target. -/
def opOKB : Op → Sched → Bool
  | .submission m _ _ _ _ _, s =>
    !smem m s.all_done && !inPendB s m && !amem s.depending m
  | .register uid, s => !smem uid s.targets
  | _, _ => true

/-- Freshness along a whole run. -/
def runOKB (fuel : Nat) : List Op → Sched → Bool
  | [], _ => true
  | op :: rest, s =>
    opOKB op s &&
    (match applyOp fuel op s with
     | .error _ => true
     | .ok s1 => runOKB fuel rest s1)

/-- The loads adjustment dispatch_result applies before delegating
(finish_job at the engine's index, when the engine is still registered). -/
def decAt (s : Sched) (engine : EngineId) : Sched :=
  match s.targets.indexOf? engine with
  | none => s
  | some idx => { s with loads := finish_job s.loads idx }

/-! ### Concrete states for the explicit-input theorems -/

deriving instance DecidableEq for Except

/-- A follow dependency with the Dependency defaults (all, success). -/
def followDflt : Dep := ⟨[], true, true, false⟩

/-- A task record with no explicit targets and no dependencies. -/
def plainRec : TaskRec := ⟨[], MET, followDflt, none⟩

/-- State for the C1 counterexample: one engine (1), task 0 dispatched to it
(load 1), one retry remaining, empty blacklist. -/
def c1State : Sched :=
  { graph := [], retries := [(0, 1)], depending := [],
    pending := [(1, [(0, plainRec)])],
    completed := [(1, [])], failed := [(1, [])], destinations := [],
    targets := [1], loads := [1],
    all_completed := [], all_failed := [], all_done := [], all_ids := [0],
    blacklist := [], hwm := 0, out := [] }

/-- The state after the C1 counterexample run. -/
def c1After : Sched :=
  match dispatch_resultF 10 c1State 1 0 false true with
  | .ok s => s
  | .error _ => c1State

/-- Claim C1 counterexample: engine 1 replies status-error for task 0 while
retries[0] = 1 > 0.  The scheduler retries (retries drops to 0, no failure is
surfaced: the task is re-parked in depending with no reply emitted), but the
replying engine IS added to blacklist[0] — refuting "without automatically
adding the replying engine to blacklist". -/
theorem claim_C1_counterexample :
    (dispatch_resultF 10 c1State 1 0 false true).map
      (fun s => (alookup s.retries 0, blD s 0, amem s.depending 0,
                 smem 0 s.all_failed, s.out)) =
    .ok (some 0, [1], true, false, []) := by decide

/-- State for the C2 counterexample: one engine (1), task 0 dispatched to it,
with an empty explicit target set. -/
def c2State : Sched :=
  { graph := [], retries := [], depending := [],
    pending := [(1, [(0, plainRec)])],
    completed := [(1, [])], failed := [(1, [])], destinations := [],
    targets := [1], loads := [1],
    all_completed := [], all_failed := [], all_done := [], all_ids := [0],
    blacklist := [], hwm := 0, out := [] }

/-- Claim C2 counterexample: a location miss (dependencies_met false) from
engine 1 for task 0, whose explicit target set is empty.  Afterwards
blacklist[0] = {1} is a superset of the (empty) explicit target set, yet the
task is NOT failed as unreachable: it is re-saved in depending, all_failed
stays empty and no reply is emitted — refuting "failed ... exactly when
blacklist[msg_id] is a superset of the task's explicit target set". -/
theorem claim_C2_counterexample :
    (dispatch_resultF 10 c2State 1 0 false false).map
      (fun s => (ssub plainRec.targs (blD s 0), blD s 0, smem 0 s.all_failed,
                 amem s.depending 0, s.out)) =
    .ok (true, [1], false, true, []) := by decide

/-- State for the C3 counterexample: one engine (1), task 0 already pending
on it with load 1. -/
def c3State : Sched :=
  { graph := [], retries := [(0, 0)], depending := [],
    pending := [(1, [(0, plainRec)])],
    completed := [(1, [])], failed := [(1, [])], destinations := [],
    targets := [1], loads := [1],
    all_completed := [], all_failed := [], all_done := [], all_ids := [0],
    blacklist := [], hwm := 0, out := [] }

/-- Claim C3 counterexample: in c3State the relation loads[i] =
|pending[targets[i]]| holds (1 = 1).  Re-submitting the already-pending
msg_id 0 (no deps, no targets) dispatches it to engine 1 again: the dict
entry pending[1][0] is overwritten (size stays 1) while add_job increments
the load to 2, so the submission handler returns with loads[0] = 2 but
|pending[targets[0]]| = 1 — the relation is not restored. -/
theorem claim_C3_counterexample :
    (c3State.loads.getD 0 0 = ((pendOf c3State (c3State.targets.getD 0 0)).length : Int)) ∧
    (dispatch_submissionF 10 c3State 0 [] ⟨[], true, true, false⟩ followDflt 0 none).map
      (fun s => (s.targets, s.loads, (pendOf s 1).length)) =
    .ok ([1], [2], 1) := by constructor <;> decide

/-- State for the C4 counterexample: task 0 already finished as failed
(all_failed = all_done = {0}), and — after a re-submission of the same
msg_id — dispatched again to engine 1. -/
def c4State : Sched :=
  { graph := [], retries := [(0, 0)], depending := [],
    pending := [(1, [(0, plainRec)])],
    completed := [(1, [])], failed := [(1, [])], destinations := [],
    targets := [1], loads := [1],
    all_completed := [], all_failed := [0], all_done := [0], all_ids := [0],
    blacklist := [], hwm := 0, out := [Ev.reply 0 false] }

/-- Claim C4 counterexample: in c4State the sets are fine (all_done =
all_completed union all_failed, disjoint).  Engine 1 then reports status ok
for the re-submitted task 0: handle_result adds 0 to all_completed and
all_done, while 0 is already in all_failed — afterwards 0 is in BOTH
all_completed and all_failed, so the disjointness half of the invariant is
not preserved under re-submission of an already-finished msg_id. -/
theorem claim_C4_counterexample :
    (smem 0 c4State.all_failed = true ∧ smem 0 c4State.all_completed = false) ∧
    (dispatch_resultF 10 c4State 1 0 true true).map
      (fun s => (smem 0 s.all_completed, smem 0 s.all_failed, smem 0 s.all_done)) =
    .ok (true, true, true) := by constructor <;> decide

/-- A record for task 1 of the C6 scenario (no deps). -/
def c6Rec1 : TaskRec := ⟨[], MET, followDflt, none⟩

/-- Record for task 2 of the C6 scenario: after = {1} with all+success. -/
def c6Rec2 : TaskRec := ⟨[], ⟨[1], true, true, false⟩, followDflt, none⟩

/-- Record for task 3 of the C6 scenario: after = {1, 2} with all+success. -/
def c6Rec3 : TaskRec := ⟨[], ⟨[1, 2], true, true, false⟩, followDflt, none⟩

/-- State for the C6 failing input: task 1 dispatched to engine 5; tasks 2
and 3 wait in depending, 2 on {1} and 3 on {1, 2}; the reverse index is
graph = {1: {2, 3}, 2: {3}}. -/
def c6State : Sched :=
  { graph := [(1, [2, 3]), (2, [3])], retries := [(1, 0)],
    depending := [(2, c6Rec2), (3, c6Rec3)],
    pending := [(5, [(1, c6Rec1)])],
    completed := [(5, [])], failed := [(5, [])], destinations := [],
    targets := [5], loads := [1],
    all_completed := [], all_failed := [], all_done := [], all_ids := [1, 2, 3],
    blacklist := [], hwm := 0, out := [] }

/-- Claim C6 (code bug): engine 5 reports failure for task 1 (no retries).
handle_result records the failure and calls update_graph(1): the candidate
set is graph.pop(1) = {2, 3}.  Failing candidate 2 cascades (via
update_graph(2)) into failing candidate 3, which removes 3 from depending;
when the outer loop then reaches candidate 3 it evaluates depending[3]
without re-checking membership — a KeyError, contradicting the claim that
candidates are processed only if still present and the lookup never fails.
(Python set iteration order is arbitrary; the claim must hold for every
order, and this order crashes.) -/
theorem claim_C6_keyerror :
    dispatch_resultF 20 c6State 5 1 false true = .error .keyError := by decide


/-! ### Basic lemmas about the list-set and assoc-list operations -/

theorem smem_iff_mem {x : Nat} {s : List Nat} : smem x s = true ↔ x ∈ s := by
  simp [smem, List.contains]

theorem smem_sinsert_self {x : Nat} {s : List Nat} : smem x (sinsert x s) = true := by
  by_cases h : smem x s
  · simpa [sinsert, h]
  · simp only [sinsert, h]
    simp only [Bool.false_eq_true, if_false]
    rw [smem_iff_mem]
    simp

theorem smem_sinsert_of {x y : Nat} {s : List Nat} (h : smem y s = true) :
    smem y (sinsert x s) = true := by
  by_cases hx : smem x s
  · simpa [sinsert, hx]
  · simp only [sinsert, hx]
    simp only [Bool.false_eq_true, if_false]
    rw [smem_iff_mem] at h ⊢
    simp [h]

theorem ssub_iff {a b : List Nat} : ssub a b = true ↔ ∀ x ∈ a, x ∈ b := by
  simp only [ssub, List.all_eq_true]
  constructor
  · intro h x hx; exact smem_iff_mem.1 (h x hx)
  · intro h x hx; exact smem_iff_mem.2 (h x hx)

theorem alookup_map_repl {l : List (Nat × α)} {k : Nat} {v : α} (k' : Nat) :
    alookup (l.map (fun p => if p.1 == k then (k, v) else p)) k' =
      if k' = k then (if amem l k then some v else none) else alookup l k' := by
  induction l with
  | nil => by_cases h : k' = k <;> simp [alookup, amem, h]
  | cons p t ih =>
    by_cases hp : p.1 = k
    · have hp2 : (p.1 == k) = true := by simpa using hp
      by_cases hk : k' = k
      · have hkk : (k == k') = true := by simpa using hk.symm
        simp [alookup, amem, hp2, hkk, hk]
      · have hkk : (k == k') = false := by simpa using (fun hco => hk hco.symm)
        simp only [List.map_cons, hp2, if_pos, alookup, hkk, Bool.false_eq_true, if_false, ih,
          if_neg hk]
        have hp3 : (p.1 == k') = false := by
          rw [hp]; exact hkk
        simp [alookup, hp3]
    · have hp2 : (p.1 == k) = false := by simpa using hp
      by_cases hpk : p.1 = k'
      · have hp3 : (p.1 == k') = true := by simpa using hpk
        have hkk : ¬ k' = k := by rw [← hpk]; exact hp
        simp [alookup, hp2, hp3, hkk]
      · have hp3 : (p.1 == k') = false := by simpa using hpk
        simp only [List.map_cons, hp2, Bool.false_eq_true, if_false, alookup, hp3, amem,
          Bool.false_or]
        exact ih

theorem alookup_append_single {l : List (Nat × α)} {k : Nat} {v : α} (k' : Nat) :
    alookup (l ++ [(k, v)]) k' =
      match alookup l k' with
      | some w => some w
      | none => if k == k' then some v else none := by
  induction l with
  | nil => simp [alookup]
  | cons p t ih =>
    by_cases hp : p.1 = k'
    · have hp2 : (p.1 == k') = true := by simpa using hp
      simp [alookup, hp2]
    · have hp2 : (p.1 == k') = false := by simpa using hp
      simp [alookup, hp2, ih]

theorem amem_iff_alookup {l : List (Nat × α)} {k : Nat} :
    amem l k = true ↔ (alookup l k).isSome = true := by
  induction l with
  | nil => simp [amem, alookup]
  | cons p t ih =>
    by_cases hp : p.1 = k
    · have hp2 : (p.1 == k) = true := by simpa using hp
      simp [amem, alookup, hp2]
    · have hp2 : (p.1 == k) = false := by simpa using hp
      simp [amem, alookup, hp2, ih]

theorem alookup_aset {l : List (Nat × α)} {k k' : Nat} {v : α} :
    alookup (aset l k v) k' = if k' = k then some v else alookup l k' := by
  by_cases hm : amem l k
  · rw [aset, if_pos hm, alookup_map_repl k', if_pos hm]
  · rw [aset, if_neg hm, alookup_append_single k']
    by_cases hk : k' = k
    · subst hk
      have : alookup l k' = none := by
        cases ha : alookup l k' with
        | none => rfl
        | some w =>
          exact absurd (amem_iff_alookup.2 (by simp [ha])) hm
      simp [this]
    · have hkk : (k == k') = false := by simpa using (fun hco => hk hco.symm)
      cases ha : alookup l k' <;> simp [ha, hkk, hk]

theorem alookup_aerase {l : List (Nat × α)} {k k' : Nat} :
    alookup (aerase l k) k' = if k' = k then none else alookup l k' := by
  induction l with
  | nil => simp [aerase, alookup]
  | cons p t ih =>
    by_cases hp : p.1 = k
    · have hp2 : (p.1 == k) = true := by simpa using hp
      by_cases hk : k' = k
      · subst hk
        simp [aerase, hp2, ih]
      · simp only [aerase, hp2, if_pos, ih, if_neg hk]
        have hp3 : (p.1 == k') = false := by
          have : ¬ p.1 = k' := by rw [hp]; exact fun hco => hk hco.symm
          simpa using this
        simp [alookup, hp3]
    · have hp2 : (p.1 == k) = false := by simpa using hp
      by_cases hpk : p.1 = k'
      · have hp3 : (p.1 == k') = true := by simpa using hpk
        have hkk : ¬ k' = k := by rw [← hpk]; exact hp
        simp [aerase, hp2, alookup, hp3, hkk]
      · have hp3 : (p.1 == k') = false := by simpa using hpk
        simp [aerase, hp2, alookup, hp3, ih]

/-! ### Frame facts about the recursive cluster

Across fail_unreachable / update_graph / maybe_run: `retries` and
`all_completed` are never touched, `all_failed` only grows, and blacklist
entries only gain members (setdefault can add an empty entry, which does not
change the defaulted view `blD`). -/

/-- The frame relation preserved by every cluster call. -/
def Frame (s t : Sched) : Prop :=
  t.retries = s.retries ∧ t.all_completed = s.all_completed ∧
  (∀ x, smem x s.all_failed = true → smem x t.all_failed = true) ∧
  (∀ x e, smem e (blD s x) = true → smem e (blD t x) = true)

theorem Frame.frame_rfl (s : Sched) : Frame s s :=
  ⟨rfl, rfl, fun _ hx => hx, fun _ _ he => he⟩

theorem Frame.trans {s t u : Sched} (h1 : Frame s t) (h2 : Frame t u) : Frame s u :=
  ⟨h2.1.trans h1.1, h2.2.1.trans h1.2.1,
   fun x hx => h2.2.2.1 x (h1.2.2.1 x hx),
   fun x e he => h2.2.2.2 x e (h1.2.2.2 x e he)⟩

theorem blD_setdefault_eq {s : Sched} {m : TaskId} (hm : ¬ amem s.blacklist m = true) :
    ∀ x, blD { s with blacklist := s.blacklist ++ [(m, [])] } x = blD s x := by
  intro x
  unfold blD
  show (alookup (s.blacklist ++ [(m, [])]) x).getD [] = _
  rw [alookup_append_single x]
  cases ha : alookup s.blacklist x with
  | some w => simp
  | none =>
    by_cases hx : m = x
    · subst hx
      simp
    · have : (m == x) = false := by simpa using hx
      simp [this]

theorem submit_frame {s : Sched} {m : TaskId} {rec : TaskRec}
    {i : Option (List Nat)} {s1 : Sched} (h : submit_taskF s m rec i = .ok s1) :
    Frame s s1 := by
  unfold submit_taskF at h
  split at h
  · cases h
  · cases h
    exact ⟨rfl, rfl, fun _ hx => hx, fun _ _ he => he⟩

/-- Frame preservation for the body of the maybe branch of the executor
(after blacklist.setdefault has resolved to a state s0 and a blacklist view
bl). -/
theorem maybe_tail_frame {fuel : Nat}
    (ih : ∀ s c r, execF fuel s c = .ok r → Frame s r.1)
    {s0 : Sched} {m : TaskId} {rec : TaskRec} {bl : List EngineId}
    {r : Sched × Bool × List EngineId}
    (h : (if !rec.follow.ids.isEmpty || !rec.targs.isEmpty || !bl.isEmpty
            || decide (s0.hwm ≠ 0) then
        if (List.filter (canRunB s0 bl rec) (List.range s0.targets.length)).isEmpty then
          match (if rec.follow.all then
                   destsOf (sinter rec.follow.ids
                     (if rec.follow.all then
                        sunion (if rec.follow.success then s0.all_completed else [])
                          (if rec.follow.failure then s0.all_failed else [])
                      else [])) s0.destinations
                 else Except.ok []) with
          | Except.error e => Except.error e
          | Except.ok dests =>
            if rec.follow.all && decide (dests.length > 1) then
              match execF fuel { s0 with depending := aset s0.depending m rec }
                  (Call.failUn m) with
              | Except.error e => Except.error e
              | Except.ok r => Except.ok (r.1, false, rec.targs)
            else if !rec.targs.isEmpty then
              if (sdiff rec.targs bl).isEmpty
                  || (sinter (sdiff rec.targs bl) s0.targets).isEmpty then
                match execF fuel { s0 with depending := aset s0.depending m { rec with targs := sdiff rec.targs bl } } (Call.failUn m) with
                | Except.error e => Except.error e
                | Except.ok r => Except.ok (r.1, false, sdiff rec.targs bl)
              else Except.ok (s0, false, sdiff rec.targs bl)
            else Except.ok (s0, false, rec.targs)
        else
          match submit_taskF s0 m rec
              (some (List.filter (canRunB s0 bl rec) (List.range s0.targets.length))) with
          | Except.error e => Except.error e
          | Except.ok s1 => Except.ok (s1, true, rec.targs)
      else
        match submit_taskF s0 m rec none with
        | Except.error e => Except.error e
        | Except.ok s1 => Except.ok (s1, true, rec.targs)) = Except.ok r) :
    Frame s0 r.1 := by
  split at h
  · split at h
    · split at h
      · cases h
      · rename_i dests hdest
        split at h
        · split at h
          · cases h
          · rename_i r' hrec
            cases h
            have h2 := ih _ _ _ hrec
            exact Frame.trans ⟨rfl, rfl, fun _ hx => hx, fun _ _ he => he⟩ h2
        · split at h
          · split at h
            · split at h
              · cases h
              · rename_i r' hrec
                cases h
                have h2 := ih _ _ _ hrec
                exact Frame.trans ⟨rfl, rfl, fun _ hx => hx, fun _ _ he => he⟩ h2
            · cases h
              exact Frame.frame_rfl _
          · cases h
            exact Frame.frame_rfl _
    · split at h
      · cases h
      · rename_i s1 hsub
        cases h
        exact submit_frame hsub
  · split at h
    · cases h
    · rename_i s1 hsub
      cases h
      exact submit_frame hsub

theorem exec_frame : ∀ fuel s c r, execF fuel s c = .ok r → Frame s r.1 := by
  intro fuel
  induction fuel with
  | zero => intro s c r h; simp [execF] at h
  | succ fuel ih =>
    intro s c r h
    cases c with
    | failUn m =>
      simp only [execF] at h
      split at h
      · cases h; exact Frame.frame_rfl s
      · rename_i rec hdep
        split at h
        · cases h
        · rename_i g2 hscrub
          split at h
          · cases h
          · rename_i r' hrec
            cases h
            have hf := ih _ _ _ hrec
            refine Frame.trans ?_ hf
            exact ⟨rfl, rfl, fun x hx => smem_sinsert_of hx, fun _ _ he => he⟩
    | update d succ =>
      simp only [execF] at h
      split at h
      · cases h
      · rename_i r' hrec
        cases h
        have hf := ih _ _ _ hrec
        cases d with
        | none => exact hf
        | some dep => exact Frame.trans ⟨rfl, rfl, fun _ hx => hx, fun _ _ he => he⟩ hf
    | loop jobs =>
      cases jobs with
      | nil => simp only [execF] at h; cases h; exact Frame.frame_rfl s
      | cons m rest =>
        simp only [execF] at h
        split at h
        · cases h
        · rename_i rec hdep
          split at h
          · -- unreachable branch
            split at h
            · cases h
            · rename_i r' hrec
              exact Frame.trans (ih _ _ _ hrec) (ih _ _ _ h)
          · split at h
            · -- after met: maybe_run
              split at h
              · cases h
              · rename_i s1 t2 hmay
                split at h
                · cases h
                · rename_i g2 hscrub
                  have h1 := ih _ _ _ hmay
                  have h2 := ih _ _ _ h
                  exact h1.trans (Frame.trans ⟨rfl, rfl, fun _ hx => hx, fun _ _ he => he⟩ h2)
              · rename_i s1 t2 hmay
                have h1 := ih _ _ _ hmay
                have h2 := ih _ _ _ h
                exact h1.trans (Frame.trans ⟨rfl, rfl, fun _ hx => hx, fun _ _ he => he⟩ h2)
            · exact ih _ _ _ h
    | maybe m rec =>
      simp only [execF] at h
      by_cases hbm : amem s.blacklist m = true
      · rw [if_pos hbm] at h
        exact maybe_tail_frame ih h
      · rw [if_neg hbm] at h
        refine Frame.trans ?_ (maybe_tail_frame ih h)
        exact ⟨rfl, rfl, fun _ hx => hx,
          fun x e he => by rw [blD_setdefault_eq hbm]; exact he⟩


/-- Frame fact for the fail_unreachable wrapper. -/
theorem fail_frame {fuel : Nat} {s : Sched} {m : TaskId} {t : Sched}
    (h : fail_unreachableF fuel s m = .ok t) : Frame s t := by
  unfold fail_unreachableF at h
  cases hex : execF fuel s (Call.failUn m) with
  | error e => rw [hex] at h; cases h
  | ok r =>
    rw [hex] at h
    simp only [Except.map] at h
    cases h
    exact exec_frame fuel s _ r hex

/-- Frame fact for the update_graph wrapper. -/
theorem update_frame {fuel : Nat} {s : Sched} {d : Option TaskId} {b : Bool} {t : Sched}
    (h : update_graphF fuel s d b = .ok t) : Frame s t := by
  unfold update_graphF at h
  cases hex : execF fuel s (Call.update d b) with
  | error e => rw [hex] at h; cases h
  | ok r =>
    rw [hex] at h
    simp only [Except.map] at h
    cases h
    exact exec_frame fuel s _ r hex

/-- Frame fact for the maybe_run wrapper. -/
theorem maybe_frame {fuel : Nat} {s : Sched} {m : TaskId} {rec : TaskRec}
    {r : Sched × Bool × List EngineId}
    (h : maybe_runF fuel s m rec = .ok r) : Frame s r.1 :=
  exec_frame fuel s _ r h

/-- The state handle_unmet_dependency reaches after blacklisting the engine
and popping the pending record changes nothing the Frame relation tracks
except the blacklist entry of m, which only grows. -/
theorem mid_frame_pop (s : Sched) (engine : EngineId) (m : TaskId) :
    Frame s { s with blacklist := aset s.blacklist m (sinsert engine (blD s m)), pending := aset s.pending engine (aerase (pendOf s engine) m) } := by
  refine ⟨rfl, rfl, fun _ hx => hx, fun x e he => ?_⟩
  show smem e ((alookup (aset s.blacklist m (sinsert engine (blD s m))) x).getD []) = true
  rw [alookup_aset]
  by_cases hx : x = m
  · subst hx
    rw [if_pos rfl]
    exact smem_sinsert_of he
  · rw [if_neg hx]
    exact he

/-- In that same state, blacklist[m] is exactly the old set plus the engine. -/
theorem blD_pop_self (s : Sched) (engine : EngineId) (m : TaskId) :
    blD { s with blacklist := aset s.blacklist m (sinsert engine (blD s m)), pending := aset s.pending engine (aerase (pendOf s engine) m) } m = sinsert engine (blD s m) := by
  show (alookup (aset s.blacklist m (sinsert engine (blD s m))) m).getD [] = _
  rw [alookup_aset, if_pos rfl]
  rfl

/-- After a location miss handled by handle_unmet_dependency: retries are
untouched and the replying engine is in blacklist[msg_id]. -/
theorem handle_unmet_props {fuel : Nat} {s : Sched} {engine : EngineId}
    {m : TaskId} {s' : Sched} (h : handle_unmetF fuel s engine m = .ok s') :
    s'.retries = s.retries ∧ smem engine (blD s' m) = true := by
  simp only [handle_unmetF] at h
  split at h
  · cases h
  · rename_i rec hrec
    split at h
    · cases h
    · rename_i s2 hafter2
      have getbl : smem engine (blD { s with blacklist := aset s.blacklist m (sinsert engine (blD s m)), pending := aset s.pending engine (aerase (pendOf s engine) m) } m) = true := by
        rw [blD_pop_self]
        exact smem_sinsert_self
      have hfr2 : Frame s s2 ∧ smem engine (blD s2 m) = true := by
        split at hafter2
        · have hff := fail_frame hafter2
          exact ⟨Frame.trans (mid_frame_pop s engine m) hff, hff.2.2.2 m engine getbl⟩
        · split at hafter2
          · cases hafter2
          · rename_i sa t2 hmay
            cases hafter2
            have hmf := maybe_frame hmay
            exact ⟨Frame.trans (mid_frame_pop s engine m) hmf, hmf.2.2.2 m engine getbl⟩
          · rename_i sa t2 hmay
            have hmf := maybe_frame hmay
            split at hafter2
            · cases hafter2
              exact ⟨Frame.trans (mid_frame_pop s engine m) hmf, hmf.2.2.2 m engine getbl⟩
            · cases hafter2
              refine ⟨Frame.trans (Frame.trans (mid_frame_pop s engine m) hmf)
                ⟨rfl, rfl, fun _ hx => hx, fun _ _ he => he⟩, ?_⟩
              exact hmf.2.2.2 m engine getbl
      have tail : Frame s2 s' := by
        split at h
        · split at h
          · cases h; exact Frame.frame_rfl _
          · split at h
            · exact update_frame h
            · cases h; exact Frame.frame_rfl _
        · cases h; exact Frame.frame_rfl _
      exact ⟨(tail.1).trans hfr2.1.1, tail.2.2.2 m engine hfr2.2⟩

/-- Claim C1 (amended): when an engine reply carries status error
(dependencies_met true) and retries[msg_id] = r > 0, dispatch_result
decrements the retry count and handles the reply as a location miss via
handle_unmet_dependency, which DOES add the replying engine to
blacklist[msg_id]; the reply itself is not finalized (handle_result is not
reached on this path). -/
theorem claim_C1 {fuel : Nat} {s : Sched} {engine : EngineId} {m : TaskId}
    {r : Int} {s' : Sched}
    (hr : alookup s.retries m = some r) (hpos : 0 < r)
    (hrun : dispatch_resultF fuel s engine m false true = .ok s') :
    alookup s'.retries m = some (r - 1) ∧ smem engine (blD s' m) = true := by
  have hdec : (!false && decide (r > 0)) = true := by simp [hpos]
  simp only [dispatch_resultF] at hrun
  have main : ∀ s0 : Sched, s0.retries = s.retries →
      handle_unmetF fuel { s0 with retries := aset s0.retries m (r - 1) } engine m = .ok s' →
      alookup s'.retries m = some (r - 1) ∧ smem engine (blD s' m) = true := by
    intro s0 hs0 hh
    obtain ⟨h1, h2⟩ := handle_unmet_props hh
    refine ⟨?_, h2⟩
    rw [h1]
    show alookup (aset s0.retries m (r - 1)) m = some (r - 1)
    rw [alookup_aset, if_pos rfl]
  cases hidx : List.indexOf? engine s.targets with
  | none =>
    rw [hidx] at hrun
    simp only [if_pos rfl] at hrun
    rw [show alookup s.retries m = some r from hr] at hrun
    simp only [hdec, if_pos rfl] at hrun
    exact main s rfl hrun
  | some idx =>
    rw [hidx] at hrun
    simp only [if_pos rfl] at hrun
    rw [show alookup ({ s with loads := finish_job s.loads idx } : Sched).retries m = some r from hr] at hrun
    simp only [hdec, if_pos rfl] at hrun
    exact main { s with loads := finish_job s.loads idx } rfl hrun

/-- The state after the C1 witness run. -/
def c1WitAfter : Sched :=
  match dispatch_resultF 10 c1State 1 0 false true with
  | .ok s => s
  | .error _ => c1State

/-- Witness for claim_C1 at the concrete C1 scenario. -/
theorem claim_C1_witness :
    alookup c1State.retries 0 = some 1 ∧ (0 : Int) < 1 ∧
    dispatch_resultF 10 c1State 1 0 false true = .ok c1WitAfter ∧
    (alookup c1WitAfter.retries 0 = some (1 - 1) ∧ smem 1 (blD c1WitAfter 0) = true) :=
  ⟨by decide, by decide, by decide,
   @claim_C1 10 c1State 1 0 1 c1WitAfter (by decide) (by decide) (by decide)⟩

/-- The defaulted blacklist view of a state whose blacklist was just written
at key m. -/
theorem blD_aset_self {bl : List (Nat × List Nat)} {m : TaskId} {v : List Nat}
    (s : Sched) (h : s.blacklist = aset bl m v) : blD s m = v := by
  unfold blD
  rw [h, alookup_aset, if_pos rfl]
  rfl

/-- amem after aset is true at the written key. -/
theorem amem_aset_self {l : List (Nat × α)} {k : Nat} {v : α} :
    amem (aset l k v) k = true := by
  rw [amem_iff_alookup, alookup_aset, if_pos rfl]
  rfl

/-- A blacklist-covered set difference is empty. -/
theorem sdiff_nil_of_ssub {a b : List Nat} (h : ssub a b = true) : sdiff a b = [] := by
  rw [sdiff, List.filter_eq_nil_iff]
  intro x hx
  simp [ssub_iff.1 h x hx, smem_iff_mem]

/-- fail_unreachable on a task present in depending marks it failed. -/
theorem fail_adds_exec {fuel : Nat} {s : Sched} {m : TaskId}
    {r : Sched × Bool × List EngineId}
    (hdep : amem s.depending m = true)
    (h : execF fuel s (.failUn m) = .ok r) : smem m r.1.all_failed = true := by
  cases fuel with
  | zero => simp [execF] at h
  | succ fuel =>
    simp only [execF] at h
    split at h
    · rename_i heq
      rw [amem_iff_alookup, heq] at hdep
      simp at hdep
    · rename_i rec hdl
      split at h
      · cases h
      · rename_i g2 hscrub
        split at h
        · cases h
        · rename_i r' hrec
          cases h
          have hfr := exec_frame fuel _ _ _ hrec
          apply hfr.2.2.1 m
          exact smem_sinsert_self

/-- fail_unreachable on a task present in depending marks it failed. -/
theorem fail_adds {fuel : Nat} {s : Sched} {m : TaskId} {t : Sched}
    (hdep : amem s.depending m = true)
    (h : fail_unreachableF fuel s m = .ok t) : smem m t.all_failed = true := by
  unfold fail_unreachableF at h
  cases hex : execF fuel s (Call.failUn m) with
  | error e => rw [hex] at h; cases h
  | ok r =>
    rw [hex] at h
    simp only [Except.map] at h
    cases h
    exact fail_adds_exec hdep hex

/-- maybe_run on a task whose non-empty explicit target set is covered by its
blacklist cannot place it and fails it as unreachable. -/
theorem maybe_cov_fails {fuel : Nat} {s1 : Sched} {m : TaskId} {rec : TaskRec}
    {res : Sched × Bool × List EngineId}
    (hbm : amem s1.blacklist m = true)
    (hne : rec.targs ≠ [])
    (hcov : ssub rec.targs (blD s1 m) = true)
    (hrun : maybe_runF fuel s1 m rec = .ok res) :
    res.2.1 = false ∧ smem m res.1.all_failed = true := by
  cases fuel with
  | zero => simp [maybe_runF, execF] at hrun
  | succ fuel =>
    simp only [maybe_runF, execF] at hrun
    rw [if_pos hbm] at hrun
    have hte : rec.targs.isEmpty = false := List.isEmpty_eq_false.2 hne
    have hcond : (!rec.follow.ids.isEmpty || !rec.targs.isEmpty || !(blD s1 m).isEmpty
        || decide (s1.hwm ≠ 0)) = true := by
      simp [hte]
    rw [if_pos hcond] at hrun
    have hfilter : List.filter (canRunB s1 (blD s1 m) rec) (List.range s1.targets.length) = [] := by
      rw [List.filter_eq_nil_iff]
      intro idx _ hco
      cases hmem : smem (s1.targets[idx]?.getD 0) rec.targs with
      | false =>
        simp [canRunB, hmem, hte, List.getD] at hco
      | true =>
        have hbl : smem (s1.targets[idx]?.getD 0) (blD s1 m) = true :=
          smem_iff_mem.2 (ssub_iff.1 hcov _ (smem_iff_mem.1 hmem))
        simp [canRunB, hbl, List.getD] at hco
    rw [if_pos (show (List.filter (canRunB s1 (blD s1 m) rec) (List.range s1.targets.length)).isEmpty = true from by rw [hfilter]; rfl)] at hrun
    split at hrun
    · cases hrun
    · rename_i dests hdest
      split at hrun
      · split at hrun
        · cases hrun
        · rename_i r' hrec
          cases hrun
          have hfa := fail_adds_exec amem_aset_self hrec
          exact ⟨rfl, hfa⟩
      · rw [if_pos (show (!rec.targs.isEmpty) = true from by simp [hte])] at hrun
        rw [sdiff_nil_of_ssub hcov] at hrun
        rw [if_pos (show (([] : List Nat).isEmpty || (sinter ([] : List Nat) s1.targets).isEmpty) = true from rfl)] at hrun
        split at hrun
        · cases hrun
        · rename_i r' hrec
          cases hrun
          have hfa := fail_adds_exec amem_aset_self hrec
          exact ⟨rfl, hfa⟩

/-- Claim C2 (amended): on a location miss, after the rejecting engine is
added to blacklist[msg_id] and the record popped from pending[engine], a task
whose explicit target set is NON-EMPTY and covered by the blacklist is failed
as unreachable (the immediate check fires only on set equality; a strict
superset still fails inside maybe_run via targets.difference_update).  With
an empty target set, trivial coverage does not fail the task (see the
counterexample). -/
theorem claim_C2 {fuel : Nat} {s : Sched} {engine : EngineId} {m : TaskId}
    {rec : TaskRec} {s' : Sched}
    (hrec : alookup (pendOf s engine) m = some rec)
    (hne : rec.targs ≠ [])
    (hcov : ssub rec.targs (sinsert engine (blD s m)) = true)
    (hrun : handle_unmetF fuel s engine m = .ok s') :
    smem m s'.all_failed = true := by
  simp only [handle_unmetF] at hrun
  split at hrun
  · rename_i heq
    exact absurd (hrec.symm.trans heq) (by simp)
  · rename_i rec2 hdl
    have hr2 : (some rec : Option TaskRec) = some rec2 := hrec.symm.trans hdl
    injection hr2 with hr2e
    subst hr2e
    split at hrun
    · cases hrun
    · rename_i s2 hafter2
      have key : smem m s2.all_failed = true := by
        split at hafter2
        · exact fail_adds amem_aset_self hafter2
        · split at hafter2
          · cases hafter2
          · rename_i sa t2 hmay
            have hcf := maybe_cov_fails (by exact amem_aset_self) hne
              (by rw [blD_aset_self _ rfl]; exact hcov) hmay
            exact absurd hcf.1 (by simp)
          · rename_i sa t2 hmay
            have hcf := maybe_cov_fails (by exact amem_aset_self) hne
              (by rw [blD_aset_self _ rfl]; exact hcov) hmay
            split at hafter2
            · cases hafter2
              exact hcf.2
            · rename_i hsm
              exact absurd hcf.2 hsm
      have tail : Frame s2 s' := by
        split at hrun
        · split at hrun
          · cases hrun; exact Frame.frame_rfl _
          · split at hrun
            · exact update_frame hrun
            · cases hrun; exact Frame.frame_rfl _
        · cases hrun; exact Frame.frame_rfl _
      exact tail.2.2.1 m key

/-- State for the C2 witness: two engines, task 0 pending on engine 1 with
explicit targets {1, 2}, engine 2 already blacklisted for it. -/
def c2WitState : Sched :=
  { graph := [], retries := [(0, 0)], depending := [],
    pending := [(1, [(0, ⟨[1, 2], MET, followDflt, none⟩)]), (2, [])],
    completed := [(1, []), (2, [])], failed := [(1, []), (2, [])],
    destinations := [],
    targets := [1, 2], loads := [1, 0],
    all_completed := [], all_failed := [], all_done := [], all_ids := [0],
    blacklist := [(0, [2])], hwm := 0, out := [] }

/-- The state after the C2 witness run. -/
def c2WitAfter : Sched :=
  match handle_unmetF 10 c2WitState 1 0 with
  | .ok s => s
  | .error _ => c2WitState

/-- Witness for claim_C2: engine 1 also rejects task 0; the blacklist
{2, 1} now covers the explicit target set {1, 2} and the task is failed. -/
theorem claim_C2_witness :
    alookup (pendOf c2WitState 1) 0 = some ⟨[1, 2], MET, followDflt, none⟩ ∧
    ([1, 2] : List EngineId) ≠ [] ∧
    ssub [1, 2] (sinsert 1 (blD c2WitState 0)) = true ∧
    handle_unmetF 10 c2WitState 1 0 = .ok c2WitAfter ∧
    smem 0 c2WitAfter.all_failed = true :=
  ⟨by decide, by decide, by decide, by decide,
   @claim_C2 10 c2WitState 1 0 ⟨[1, 2], MET, followDflt, none⟩ c2WitAfter
     (by decide) (by decide) (by decide) (by decide)⟩

/-- maybe_run when nothing fits but the shrunken target set stays viable:
no dispatch, no failure, and the returned target set is
targets.difference_update(blacklist). -/
theorem maybe_nofit_saves {fuel : Nat} {s1 : Sched} {m : TaskId} {rec : TaskRec}
    {bl : List EngineId} {res : Sched × Bool × List EngineId}
    (hbm : amem s1.blacklist m = true)
    (hblv : blD s1 m = bl)
    (hne : rec.targs ≠ [])
    (hfa : rec.follow.all = false)
    (hfilter : List.filter (canRunB s1 bl rec) (List.range s1.targets.length) = [])
    (ht2ne : (sdiff rec.targs bl).isEmpty = false)
    (htlive : (sinter (sdiff rec.targs bl) s1.targets).isEmpty = false)
    (hrun : maybe_runF fuel s1 m rec = .ok res) :
    res = (s1, false, sdiff rec.targs bl) := by
  cases fuel with
  | zero => simp [maybe_runF, execF] at hrun
  | succ fuel =>
    simp only [maybe_runF, execF] at hrun
    rw [hblv] at hrun
    rw [if_pos hbm] at hrun
    have hte : rec.targs.isEmpty = false := List.isEmpty_eq_false.2 hne
    rw [if_pos (show (!rec.follow.ids.isEmpty || !rec.targs.isEmpty || !bl.isEmpty
        || decide (s1.hwm ≠ 0)) = true from by simp [hte])] at hrun
    rw [if_pos (show (List.filter (canRunB s1 bl rec) (List.range s1.targets.length)).isEmpty = true from by rw [hfilter]; rfl)] at hrun
    rw [hfa] at hrun
    rw [if_neg (show ¬ (false = true) from by simp)] at hrun
    split at hrun
    · rename_i heq
      simp at heq
    · rename_i dests heq
      have hdn : dests = [] := by
        simp at heq
        exact heq
      subst hdn
      rw [if_neg (show ¬ ((false && decide (([] : List EngineId).length > 1)) = true) from by simp)] at hrun
      rw [if_pos (show (!rec.targs.isEmpty) = true from by simp [hte])] at hrun
      rw [if_neg (show ¬ (((sdiff rec.targs bl).isEmpty
          || (sinter (sdiff rec.targs bl) s1.targets).isEmpty) = true) from by
        simp [ht2ne, htlive])] at hrun
      cases hrun
      rfl

/-- Claim C10: when handle_unmet_dependency re-runs maybe_run for a task with
a non-empty explicit target set, no eligible engine, no follow-all conflict,
and a shrunken target set that still meets live engines, the task is re-saved
in depending holding targets.difference_update(blacklist): the record that
depending ends up with carries the shrunken set sdiff targets blacklist, not
the submitted one. -/
theorem claim_C10 {fuel : Nat} {s : Sched} {engine : EngineId} {m : TaskId}
    {rec : TaskRec} {s' : Sched}
    (hrec : alookup (pendOf s engine) m = some rec)
    (hne : rec.targs ≠ [])
    (hneq : seqv (sinsert engine (blD s m)) rec.targs = false)
    (hfa : rec.follow.all = false)
    (hfilter : List.filter (canRunB s (sinsert engine (blD s m)) rec)
      (List.range s.targets.length) = [])
    (ht2ne : (sdiff rec.targs (sinsert engine (blD s m))).isEmpty = false)
    (htlive : (sinter (sdiff rec.targs (sinsert engine (blD s m))) s.targets).isEmpty = false)
    (hnf : smem m s.all_failed = false)
    (hhwm : s.hwm = 0)
    (hrun : handle_unmetF fuel s engine m = .ok s') :
    alookup s'.depending m
      = some { rec with targs := sdiff rec.targs (sinsert engine (blD s m)) } := by
  simp only [handle_unmetF] at hrun
  split at hrun
  · rename_i heq
    exact absurd (hrec.symm.trans heq) (by simp)
  · rename_i rec2 hdl
    have hr2 : (some rec : Option TaskRec) = some rec2 := hrec.symm.trans hdl
    injection hr2 with hr2e
    subst hr2e
    split at hrun
    · cases hrun
    · rename_i s2 hafter2
      split at hafter2
      · rename_i hsq
        exact absurd hsq (by simpa using hneq)
      · split at hafter2
        · cases hafter2
        · rename_i sa t2 hmay
          have hres := maybe_nofit_saves (by exact amem_aset_self)
            (by exact blD_aset_self _ rfl) hne hfa
            (by exact hfilter) (by exact ht2ne) (by exact htlive) hmay
          exact absurd (congrArg (fun p => p.2.1) hres) (by simp)
        · rename_i sa t2 hmay
          have hres := maybe_nofit_saves (by exact amem_aset_self)
            (by exact blD_aset_self _ rfl) hne hfa
            (by exact hfilter) (by exact ht2ne) (by exact htlive) hmay
          have hsa := congrArg (fun p => p.1) hres
          have ht2 := congrArg (fun p => p.2.2) hres
          simp only at hsa ht2
          split at hafter2
          · rename_i hsm
            rw [hsa] at hsm
            exact absurd hsm (by simpa using hnf)
          · cases hafter2
            have hhwm2 : (save_unmetF sa m { rec with targs := t2 }).hwm = 0 := by
              show sa.hwm = 0
              rw [hsa]
              exact hhwm
            split at hrun
            · rename_i hco
              exact absurd hhwm2 hco
            · cases hrun
              show alookup (aset sa.depending m { rec with targs := t2 }) m = _
              rw [alookup_aset, if_pos rfl]
              rw [ht2]

/-- The record for the C10 witness: explicit targets {1, 2}, a follow
dependency on task 7 (any-mode, success) that no engine satisfies yet. -/
def c10Rec : TaskRec := ⟨[1, 2], MET, ⟨[7], false, true, false⟩, none⟩

/-- State for the C10 witness: two engines, task 0 pending on engine 1. -/
def c10State : Sched :=
  { graph := [], retries := [(0, 0)], depending := [],
    pending := [(1, [(0, c10Rec)]), (2, [])],
    completed := [(1, []), (2, [])], failed := [(1, []), (2, [])],
    destinations := [],
    targets := [1, 2], loads := [1, 0],
    all_completed := [], all_failed := [], all_done := [], all_ids := [0, 7],
    blacklist := [], hwm := 0, out := [] }

/-- The state after the C10 witness run. -/
def c10After : Sched :=
  match handle_unmetF 10 c10State 1 0 with
  | .ok s => s
  | .error _ => c10State

/-- Witness for claim_C10: engine 1 rejects task 0; engine 2 is kept out by
the unmet follow dependency, so the task is re-saved with its stored target
set shrunk from {1, 2} to {2}. -/
theorem claim_C10_witness :
    alookup (pendOf c10State 1) 0 = some c10Rec ∧
    c10Rec.targs ≠ [] ∧
    seqv (sinsert 1 (blD c10State 0)) c10Rec.targs = false ∧
    c10Rec.follow.all = false ∧
    List.filter (canRunB c10State (sinsert 1 (blD c10State 0)) c10Rec)
      (List.range c10State.targets.length) = [] ∧
    (sdiff c10Rec.targs (sinsert 1 (blD c10State 0))).isEmpty = false ∧
    (sinter (sdiff c10Rec.targs (sinsert 1 (blD c10State 0))) c10State.targets).isEmpty = false ∧
    smem 0 c10State.all_failed = false ∧
    c10State.hwm = 0 ∧
    handle_unmetF 10 c10State 1 0 = .ok c10After ∧
    alookup c10After.depending 0
      = some { c10Rec with targs := sdiff c10Rec.targs (sinsert 1 (blD c10State 0)) } :=
  ⟨by decide, by decide, by decide, by decide, by decide, by decide, by decide,
   by decide, by decide, by decide,
   @claim_C10 10 c10State 1 0 c10Rec c10After (by decide) (by decide) (by decide)
     (by decide) (by decide) (by decide) (by decide) (by decide) (by decide) (by decide)⟩

/-! ### Re-scan idempotence support lemmas -/

/-- States that agree on everything update_graph's no-op re-scan can observe
(everything except the raw blacklist representation, which is only read
through the defaulted view blD). -/
structure CoreEq (a b : Sched) : Prop where
  graphE : a.graph = b.graph
  dependingE : a.depending = b.depending
  pendingE : a.pending = b.pending
  targetsE : a.targets = b.targets
  loadsE : a.loads = b.loads
  completedE : a.completed = b.completed
  failedE : a.failed = b.failed
  destE : a.destinations = b.destinations
  acE : a.all_completed = b.all_completed
  afE : a.all_failed = b.all_failed
  hwmE : a.hwm = b.hwm
  outE : a.out = b.out
  blE : ∀ x, blD a x = blD b x

theorem CoreEq.core_rfl (s : Sched) : CoreEq s s :=
  ⟨rfl, rfl, rfl, rfl, rfl, rfl, rfl, rfl, rfl, rfl, rfl, rfl, fun _ => rfl⟩

/-- canRunB only reads the core fields. -/
theorem canRunB_congr {a b : Sched} (h : CoreEq a b) (bl : List EngineId)
    (rec : TaskRec) : canRunB a bl rec = canRunB b bl rec := by
  funext idx
  unfold canRunB
  rw [h.hwmE, h.loadsE, h.targetsE, h.completedE, h.failedE]

/-- A successful lookup means the pair is in the list. -/
theorem alookup_mem {l : List (Nat × α)} {k : Nat} {v : α}
    (h : alookup l k = some v) : (k, v) ∈ l := by
  induction l with
  | nil => simp [alookup] at h
  | cons p t ih =>
    by_cases hp : p.1 = k
    · have hp2 : (p.1 == k) = true := by simpa using hp
      simp only [alookup, hp2, if_pos] at h
      injection h with h
      exact List.mem_cons.2 (Or.inl (by rw [← h, ← hp]))
    · have hp2 : (p.1 == k) = false := by simpa using hp
      simp only [alookup, hp2, Bool.false_eq_true, if_false] at h
      exact List.mem_cons_of_mem _ (ih h)

/-- Replacing key k in a list without key k changes nothing. -/
theorem map_repl_id_of_not_amem {l : List (Nat × α)} {k : Nat} {v : α}
    (h : ¬ amem l k = true) :
    l.map (fun p => if p.1 == k then (k, v) else p) = l := by
  induction l with
  | nil => rfl
  | cons p t ih =>
    have hp : (p.1 == k) = false := by
      by_contra hco
      exact h (by simp [amem, show (p.1 == k) = true by simpa using hco])
    have ht : ¬ amem t k = true := by
      intro hco
      exact h (by simp [amem, hco])
    simp only [List.map_cons, hp, Bool.false_eq_true, if_false, ih ht]

/-- Writing back the value already stored under a key (with no duplicate
keys) leaves the dict unchanged. -/
theorem aset_self_of_lookup {l : List (Nat × α)} {k : Nat} {v : α}
    (hnd : (akeys l).Nodup) (h : alookup l k = some v) : aset l k v = l := by
  induction l with
  | nil => simp [alookup] at h
  | cons p t ih =>
    have hmem : amem (p :: t) k = true :=
      amem_iff_alookup.2 (by simp [h])
    rw [aset, if_pos hmem, List.map_cons]
    by_cases hp : p.1 = k
    · have hp2 : (p.1 == k) = true := by simpa using hp
      have hv : v = p.2 := by
        simp only [alookup, hp2, if_pos] at h
        injection h with h
        exact h.symm
      have hnd' : (p.1 :: akeys t).Nodup := hnd
      have hknot : ¬ amem t k = true := by
        intro hco
        rw [amem_iff_alookup] at hco
        cases ha : alookup t k with
        | none => rw [ha] at hco; simp at hco
        | some w =>
          have hkin : k ∈ akeys t := List.mem_map.2 ⟨(k, w), alookup_mem ha, rfl⟩
          have hout : p.1 ∉ akeys t := (List.nodup_cons.1 hnd').1
          rw [hp] at hout
          exact hout hkin
      rw [hp2, if_pos rfl, hv, map_repl_id_of_not_amem hknot]
      have hpe : (k, p.2) = p := by rw [← hp]
      rw [hpe]
    · have hp2 : (p.1 == k) = false := by simpa using hp
      have hlt : alookup t k = some v := by
        simpa [alookup, hp2] using h
      have hmt : amem t k = true := amem_iff_alookup.2 (by simp [hlt])
      have hnd' : (p.1 :: akeys t).Nodup := hnd
      have ihr := ih (List.nodup_cons.1 hnd').2 hlt
      rw [aset, if_pos hmt] at ihr
      rw [hp2]
      simp only [Bool.false_eq_true, if_false, ihr]

/-- maybe_run under re-scan quiescence: with the constraint filter active but
empty, no follow-all conflict, and a stable viable target set, maybe_run
returns False, changes nothing observable, and hands back the unchanged
target set. -/
theorem maybe_quiet {fuel : Nat} {sb s : Sched} {m : TaskId} {rec : TaskRec}
    {res : Sched × Bool × List EngineId}
    (hc : CoreEq sb s)
    (hactive : (!rec.follow.ids.isEmpty || !rec.targs.isEmpty || !(blD s m).isEmpty
      || decide (s.hwm ≠ 0)) = true)
    (hfil : List.filter (canRunB s (blD s m) { rec with after := MET })
      (List.range s.targets.length) = [])
    (hdests : rec.follow.all = true →
      (match destsOf (sinter rec.follow.ids (sunion
          (if rec.follow.success then s.all_completed else [])
          (if rec.follow.failure then s.all_failed else []))) s.destinations with
        | .ok ds => decide (ds.length ≤ 1)
        | .error _ => false) = true)
    (htS : rec.targs ≠ [] → sdiff rec.targs (blD s m) = rec.targs
      ∧ (sinter rec.targs s.targets).isEmpty = false)
    (hrun : execF fuel sb (.maybe m { rec with after := MET }) = .ok res) :
    CoreEq res.1 s ∧ res.2.1 = false ∧ res.2.2 = rec.targs := by
  cases fuel with
  | zero => simp [execF] at hrun
  | succ fuel =>
    simp only [execF] at hrun
    generalize hG : (if amem sb.blacklist m = true then sb
      else { sb with blacklist := sb.blacklist ++ [(m, [])] }) = s0 at hrun
    have hc0 : CoreEq s0 s := by
      rw [← hG]
      by_cases hbm : amem sb.blacklist m = true
      · rw [if_pos hbm]; exact hc
      · rw [if_neg hbm]
        exact ⟨hc.graphE, hc.dependingE, hc.pendingE, hc.targetsE, hc.loadsE,
          hc.completedE, hc.failedE, hc.destE, hc.acE, hc.afE, hc.hwmE, hc.outE,
          fun x => (blD_setdefault_eq hbm x).trans (hc.blE x)⟩
    rw [hc.blE m] at hrun
    rw [hc0.hwmE] at hrun
    rw [hc0.targetsE] at hrun
    rw [canRunB_congr hc0 (blD s m) { rec with after := MET }] at hrun
    rw [if_pos hactive] at hrun
    rw [if_pos (show (List.filter (canRunB s (blD s m) { rec with after := MET })
      (List.range s.targets.length)).isEmpty = true from by rw [hfil]; rfl)] at hrun
    rw [hc0.acE, hc0.afE, hc0.destE] at hrun
    cases hfa : rec.follow.all with
    | true =>
      rw [hfa] at hrun
      rw [if_pos rfl] at hrun
      rw [if_pos rfl] at hrun
      split at hrun
      · rename_i e heq
        have hd := hdests hfa
        rw [heq] at hd
        simp at hd
      · rename_i ds heq
        have hd := hdests hfa
        rw [heq] at hd
        simp only [decide_eq_true_eq] at hd
        rw [if_neg (show ¬ ((true && decide (ds.length > 1)) = true) from by
          simp only [Bool.true_and, decide_eq_true_eq]
          omega)] at hrun
        cases hte : rec.targs.isEmpty with
        | true =>
          rw [hte] at hrun
          rw [if_neg (show ¬ ((!true) = true) from by simp)] at hrun
          cases hrun
          exact ⟨hc0, rfl, rfl⟩
        | false =>
          have hne' : rec.targs ≠ [] := List.isEmpty_eq_false.1 hte
          obtain ⟨hdiffEq, hint⟩ := htS hne'
          rw [hte] at hrun
          rw [if_pos (show (!false) = true from rfl)] at hrun
          rw [hdiffEq] at hrun
          rw [if_neg (show ¬ ((rec.targs.isEmpty || (sinter rec.targs s.targets).isEmpty) = true) from by
            simp [hte, hint])] at hrun
          cases hrun
          exact ⟨hc0, rfl, rfl⟩
    | false =>
      rw [hfa] at hrun
      rw [if_neg (show ¬ ((false : Bool) = true) from by simp)] at hrun
      split at hrun
      · rename_i e heq
        cases heq
      · rename_i ds heq
        have hdn : ds = [] := by
          cases heq
          rfl
        subst hdn
        rw [if_neg (show ¬ ((false && decide (([] : List EngineId).length > 1)) = true) from by simp)] at hrun
        cases hte : rec.targs.isEmpty with
        | true =>
          rw [hte] at hrun
          rw [if_neg (show ¬ ((!true) = true) from by simp)] at hrun
          cases hrun
          exact ⟨hc0, rfl, rfl⟩
        | false =>
          have hne' : rec.targs ≠ [] := List.isEmpty_eq_false.1 hte
          obtain ⟨hdiffEq, hint⟩ := htS hne'
          rw [hte] at hrun
          rw [if_pos (show (!false) = true from rfl)] at hrun
          rw [hdiffEq] at hrun
          rw [if_neg (show ¬ ((rec.targs.isEmpty || (sinter rec.targs s.targets).isEmpty) = true) from by
            simp [hte, hint])] at hrun
          cases hrun
          exact ⟨hc0, rfl, rfl⟩

/-- Quiescence of a single depending record: its dependencies are not
unreachable, and if its after set is met then maybe_run cannot place it (the
constraint clause is active, the can_run filter is empty, follow.all finds at
most one destination, and the explicit target set survives the blacklist
difference and still meets the engine pool, so nothing is failed and the
stored target set is unchanged). -/
def quietRec (s : Sched) (m : TaskId) (rec : TaskRec) : Prop :=
  rec.after.unreachable s.all_completed s.all_failed = false ∧
  rec.follow.unreachable s.all_completed s.all_failed = false ∧
  (rec.after.check s.all_completed s.all_failed = true →
    ((!rec.follow.ids.isEmpty || !rec.targs.isEmpty || !(blD s m).isEmpty
       || decide (s.hwm ≠ 0)) = true
     ∧ List.filter (canRunB s (blD s m) { rec with after := MET })
         (List.range s.targets.length) = []
     ∧ (rec.follow.all = true →
         (match destsOf (sinter rec.follow.ids (sunion
             (if rec.follow.success then s.all_completed else [])
             (if rec.follow.failure then s.all_failed else []))) s.destinations with
           | .ok ds => decide (ds.length ≤ 1)
           | .error _ => false) = true)
     ∧ (rec.targs ≠ [] → sdiff rec.targs (blD s m) = rec.targs
         ∧ (sinter rec.targs s.targets).isEmpty = false)))

theorem amem_of_mem_akeys {l : List (Nat × α)} {k : Nat}
    (h : k ∈ akeys l) : amem l k = true := by
  induction l with
  | nil => simp [akeys] at h
  | cons p t ih =>
    rw [akeys, List.map_cons] at h
    rcases List.mem_cons.1 h with h | h
    · simp [amem, h]
    · simp [amem, ih h]

/-- The per-candidate loop of update_graph, run over quiescent records only,
keeps all core fields (graph, depending, pending, loads, out, ...) equal to
the starting state. -/
theorem c7loop (s : Sched)
    (hnd : (akeys s.depending).Nodup)
    (hq : ∀ m rec, alookup s.depending m = some rec → quietRec s m rec) :
    ∀ (fuel : Nat) (jobs : List TaskId) (sb : Sched)
      (res : Sched × Bool × List EngineId),
    CoreEq sb s →
    (∀ m ∈ jobs, amem s.depending m = true) →
    execF fuel sb (.loop jobs) = .ok res →
    CoreEq res.1 s := by
  intro fuel
  induction fuel with
  | zero =>
    intro jobs sb res _ _ hrun
    simp [execF] at hrun
  | succ fuel ih =>
    intro jobs sb res hc hjobs hrun
    cases jobs with
    | nil =>
      simp only [execF] at hrun
      cases hrun
      exact hc
    | cons m rest =>
      simp only [execF] at hrun
      rw [hc.dependingE, hc.acE, hc.afE] at hrun
      have hmem : amem s.depending m = true := hjobs m (List.mem_cons_self m rest)
      split at hrun
      · rename_i heq
        rw [amem_iff_alookup, heq] at hmem
        simp at hmem
      · rename_i rec hrec
        obtain ⟨hau, hfu, hcheck⟩ := hq m rec hrec
        rw [hau, hfu] at hrun
        rw [if_neg (by simp)] at hrun
        cases hch : rec.after.check s.all_completed s.all_failed with
        | false =>
          rw [hch] at hrun
          rw [if_neg (by simp)] at hrun
          exact ih rest sb res hc (fun x hx => hjobs x (List.mem_cons_of_mem m hx)) hrun
        | true =>
          rw [hch] at hrun
          rw [if_pos rfl] at hrun
          obtain ⟨hactive, hfil, hdests, htS⟩ := hcheck hch
          split at hrun
          · rename_i e heq
            simp at hrun
          · rename_i s1 x heq
            have hmq := maybe_quiet hc hactive hfil hdests htS heq
            obtain ⟨_, hb, _⟩ := hmq
            simp at hb
          · rename_i s1 t2 heq
            have hmq := maybe_quiet hc hactive hfil hdests htS heq
            obtain ⟨hc1, _, ht2⟩ := hmq
            subst ht2
            split at hrun
            · rename_i r2 heq2
              rw [hc1.dependingE, hrec] at heq2
              injection heq2 with h2
              subst h2
              refine ih rest _ res ?_
                (fun x hx => hjobs x (List.mem_cons_of_mem m hx)) hrun
              refine ⟨hc1.graphE, ?_, hc1.pendingE, hc1.targetsE, hc1.loadsE,
                hc1.completedE, hc1.failedE, hc1.destE, hc1.acE, hc1.afE,
                hc1.hwmE, hc1.outE, hc1.blE⟩
              show aset s1.depending m rec = s.depending
              rw [hc1.dependingE]
              exact aset_self_of_lookup hnd hrec
            · rename_i heq2
              rw [hc1.dependingE, hrec] at heq2
              exact Option.noConfusion heq2

/-- C7: update_graph(None) in a quiescent state (every depending record
quiet in the sense of quietRec, depending keys without duplicates)
dispatches nothing and leaves graph, depending and the output trace
unchanged. -/
theorem claim_C7 {fuel : Nat} {s s' : Sched}
    (hnd : (akeys s.depending).Nodup)
    (hq : ∀ m rec, alookup s.depending m = some rec → quietRec s m rec)
    (hrun : update_graphF fuel s none true = .ok s') :
    s'.graph = s.graph ∧ s'.depending = s.depending ∧ s'.out = s.out := by
  cases fuel with
  | zero => simp [update_graphF, execF, Except.map] at hrun
  | succ fuel =>
    unfold update_graphF at hrun
    have hstep : execF (fuel + 1) s (.update none true) =
        (match execF fuel s (.loop (akeys s.depending)) with
          | .error e => .error e
          | .ok r => .ok (r.1, false, ([] : List EngineId))) := rfl
    rw [hstep] at hrun
    cases hl : execF fuel s (.loop (akeys s.depending)) with
    | error e =>
      rw [hl] at hrun
      simp [Except.map] at hrun
    | ok r =>
      rw [hl] at hrun
      have hs' : r.1 = s' := by simpa [Except.map] using hrun
      have hcr := c7loop s hnd hq fuel (akeys s.depending) s r (CoreEq.core_rfl s)
        (fun m hm => amem_of_mem_akeys hm) hl
      rw [← hs']
      exact ⟨hcr.graphE, hcr.dependingE, hcr.outE⟩

theorem alookup_single {k m : Nat} {v w : α}
    (h : alookup [(k, v)] m = some w) : m = k ∧ w = v := by
  cases hkb : (k == m) with
  | true =>
    simp [alookup, hkb] at h
    exact ⟨(Nat.eq_of_beq_eq_true (by simpa using hkb)).symm, h.symm⟩
  | false =>
    simp [alookup, hkb] at h

/-- Record for the C7 witness: explicit targets {4}, after met, follow on
the unfinished task 9. -/
def c7Rec : TaskRec := ⟨[4], MET, ⟨[9], false, true, false⟩, none⟩

/-- Quiescent state for the C7 witness: task 7 waits in depending; engine 3
is blacklisted for it, engine 4 is held back by the unmet follow. -/
def c7WState : Sched :=
  { graph := [(9, [7])], retries := [], depending := [(7, c7Rec)],
    pending := [(1, [])],
    completed := [(3, []), (4, [])], failed := [(3, []), (4, [])],
    destinations := [],
    targets := [3, 4], loads := [0, 0],
    all_completed := [], all_failed := [], all_done := [], all_ids := [7, 9],
    blacklist := [(7, [3])], hwm := 0, out := [] }

/-- The state after the C7 witness re-scan. -/
def c7WAfter : Sched :=
  match update_graphF 10 c7WState none true with
  | .ok s => s
  | .error _ => c7WState

/-- Witness for claim_C7: the re-scan over the quiescent one-task state
succeeds and leaves graph, depending and the output trace unchanged. -/
theorem claim_C7_witness :
    (akeys c7WState.depending).Nodup ∧
    quietRec c7WState 7 c7Rec ∧
    update_graphF 10 c7WState none true = .ok c7WAfter ∧
    (c7WAfter.graph = c7WState.graph ∧ c7WAfter.depending = c7WState.depending ∧
     c7WAfter.out = c7WState.out) :=
  ⟨by decide, by unfold quietRec; decide, by decide,
   @claim_C7 10 c7WState c7WAfter (by decide)
     (fun m rec h => by
       have h2 : alookup [(7, c7Rec)] m = some rec := h
       obtain ⟨hm, hv⟩ := alookup_single h2
       subst hm
       subst hv
       unfold quietRec
       decide)
     (by decide)⟩

/-! ### Element-wise kit for the invariant development -/

theorem smem_eq_decide {x : Nat} {s : List Nat} : smem x s = decide (x ∈ s) := by
  cases hs : smem x s with
  | true => exact (decide_eq_true (smem_iff_mem.1 hs)).symm
  | false =>
    have hn : ¬ x ∈ s := fun hc => by rw [smem_iff_mem.2 hc] at hs; cases hs
    exact (decide_eq_false hn).symm

theorem smem_false_iff {x : Nat} {s : List Nat} : smem x s = false ↔ x ∉ s := by
  rw [smem_eq_decide]
  simp

theorem mem_sinsert {x y : Nat} {s : List Nat} :
    x ∈ sinsert y s ↔ x = y ∨ x ∈ s := by
  unfold sinsert
  by_cases hy : smem y s = true
  · rw [if_pos hy]
    exact ⟨fun h => Or.inr h, fun h => h.elim (fun hxy => hxy ▸ smem_iff_mem.1 hy) id⟩
  · rw [if_neg hy]
    simp [List.mem_append, or_comm]

theorem mem_sunion {x : Nat} {a b : List Nat} :
    x ∈ sunion a b ↔ x ∈ a ∨ x ∈ b := by
  unfold sunion sdiff
  simp only [List.mem_append, List.mem_filter]
  constructor
  · rintro (h | ⟨h, _⟩)
    · exact Or.inl h
    · exact Or.inr h
  · rintro (h | h)
    · exact Or.inl h
    · by_cases ha : x ∈ a
      · exact Or.inl ha
      · exact Or.inr ⟨h, by simp [smem_false_iff.2 ha]⟩

theorem mem_sinter {x : Nat} {a b : List Nat} :
    x ∈ sinter a b ↔ x ∈ a ∧ x ∈ b := by
  unfold sinter
  simp [List.mem_filter, smem_iff_mem]

theorem mem_sdiff {x : Nat} {a b : List Nat} :
    x ∈ sdiff a b ↔ x ∈ a ∧ x ∉ b := by
  unfold sdiff
  simp [List.mem_filter, smem_false_iff]

theorem seqv_iff {a b : List Nat} : seqv a b = true ↔ ∀ x, x ∈ a ↔ x ∈ b := by
  unfold seqv
  rw [Bool.and_eq_true, ssub_iff, ssub_iff]
  constructor
  · exact fun h x => ⟨fun hx => h.1 x hx, fun hx => h.2 x hx⟩
  · exact fun h => ⟨fun x hx => (h x).1 hx, fun x hx => (h x).2 hx⟩

theorem isEmpty_iff_forall {l : List Nat} :
    l.isEmpty = true ↔ ∀ x, x ∉ l := by
  cases l with
  | nil => simp
  | cons y t =>
    simp only [List.isEmpty_cons]
    constructor
    · intro h; cases h
    · intro h; exact absurd (List.mem_cons_self y t) (h y)

theorem amem_iff_mem_akeys {l : List (Nat × α)} {k : Nat} :
    amem l k = true ↔ k ∈ akeys l := by
  induction l with
  | nil => simp [amem, akeys]
  | cons p t ih =>
    rw [akeys, List.map_cons, List.mem_cons]
    show (p.1 == k || amem t k) = true ↔ _
    rw [Bool.or_eq_true, ih]
    constructor
    · rintro (h | h)
      · exact Or.inl (by simpa using (Nat.eq_of_beq_eq_true (by simpa using h)).symm)
      · exact Or.inr h
    · rintro (h | h)
      · exact Or.inl (by simpa using h.symm)
      · exact Or.inr h

theorem amem_of_mem {l : List (Nat × α)} {q : Nat × α} (h : q ∈ l) :
    amem l q.1 = true :=
  amem_iff_mem_akeys.2 (List.mem_map.2 ⟨q, h, rfl⟩)

theorem amem_false_forall {l : List (Nat × α)} {k : Nat} (h : amem l k = false) :
    ∀ q ∈ l, q.1 ≠ k := by
  intro q hq hk
  rw [← hk] at h
  rw [amem_of_mem hq] at h
  cases h

theorem nat_eq_of_beq {a b : Nat} (h : (a == b) = true) : a = b := by
  simpa using h

theorem nat_ne_of_beq_false {a b : Nat} (h : (a == b) = false) : a ≠ b := by
  simpa using h

theorem beq_false_of_ne {a b : Nat} (h : a ≠ b) : (a == b) = false := by
  simpa using h

theorem band_true {a b : Bool} (h : (a && b) = true) : a = true ∧ b = true := by
  rw [Bool.and_eq_true] at h
  exact h

theorem bor_true {a b : Bool} (h : (a || b) = true) : a = true ∨ b = true := by
  rw [Bool.or_eq_true] at h
  exact h

theorem bor_false {a b : Bool} (h : (a || b) = false) : a = false ∧ b = false := by
  cases a <;> cases b <;> simp_all

theorem bnot_true {a : Bool} (h : (!a) = true) : a = false := by
  cases a with
  | false => rfl
  | true => cases h

theorem bool_false_of_not {a : Bool} (h : ¬ a = true) : a = false := by
  cases a with
  | false => rfl
  | true => exact absurd rfl h

theorem mem_aset {l : List (Nat × α)} {k : Nat} {v : α} {q : Nat × α}
    (h : q ∈ aset l k v) : (q ∈ l ∧ (q.1 == k) = false) ∨ q = (k, v) := by
  unfold aset at h
  by_cases hm : amem l k = true
  · rw [if_pos hm] at h
    obtain ⟨p, hp, hpe⟩ := List.mem_map.1 h
    by_cases hpk : (p.1 == k) = true
    · rw [if_pos hpk] at hpe
      exact Or.inr hpe.symm
    · rw [if_neg hpk] at hpe
      refine Or.inl ⟨hpe ▸ hp, ?_⟩
      rw [← hpe]
      exact bool_false_of_not hpk
  · rw [if_neg hm] at h
    rcases List.mem_append.1 h with h | h
    · refine Or.inl ⟨h, ?_⟩
      have hq := amem_false_forall (bool_false_of_not hm) q h
      exact beq_false_of_ne hq
    · exact Or.inr (by simpa using h)

theorem self_mem_aset {l : List (Nat × α)} {k : Nat} {v : α} :
    (k, v) ∈ aset l k v := by
  unfold aset
  by_cases hm : amem l k = true
  · rw [if_pos hm]
    rw [amem_iff_mem_akeys] at hm
    obtain ⟨p, hp, hpe⟩ := List.mem_map.1 hm
    refine List.mem_map.2 ⟨p, hp, ?_⟩
    rw [if_pos (by simpa using hpe)]
  · rw [if_neg hm]
    exact List.mem_append.2 (Or.inr (List.mem_cons_self _ _))

theorem mem_aerase {l : List (Nat × α)} {k : Nat} {q : Nat × α}
    (h : q ∈ aerase l k) : q ∈ l ∧ (q.1 == k) = false := by
  induction l with
  | nil => simp [aerase] at h
  | cons p t ih =>
    rw [aerase] at h
    by_cases hpk : (p.1 == k) = true
    · rw [if_pos hpk] at h
      exact ⟨List.mem_cons_of_mem _ (ih h).1, (ih h).2⟩
    · rw [if_neg hpk] at h
      rcases List.mem_cons.1 h with h | h
      · subst h
        exact ⟨List.mem_cons_self _ _, bool_false_of_not hpk⟩
      · exact ⟨List.mem_cons_of_mem _ (ih h).1, (ih h).2⟩

theorem amem_aerase_self {l : List (Nat × α)} {k : Nat} :
    amem (aerase l k) k = false := by
  cases hm : amem (aerase l k) k with
  | false => rfl
  | true =>
    rw [amem_iff_mem_akeys] at hm
    obtain ⟨q, hq, hqe⟩ := List.mem_map.1 hm
    have h2 := (mem_aerase hq).2
    rw [hqe] at h2
    simp at h2

theorem amem_aerase_sub {l : List (Nat × α)} {k k' : Nat}
    (h : amem (aerase l k) k' = true) : amem l k' = true := by
  rw [amem_iff_mem_akeys] at h
  obtain ⟨q, hq, hqe⟩ := List.mem_map.1 h
  exact hqe ▸ amem_of_mem (mem_aerase hq).1

theorem aerase_of_not_amem {l : List (Nat × α)} {k : Nat}
    (h : amem l k = false) : aerase l k = l := by
  induction l with
  | nil => rfl
  | cons q u ih =>
    have hb := bor_false (show (q.1 == k || amem u k) = false from h)
    rw [aerase, if_neg (by simp [hb.1]), ih hb.2]

theorem akeys_aerase {l : List (Nat × α)} {k : Nat} :
    akeys (aerase l k) = (akeys l).filter (fun x => !(x == k)) := by
  induction l with
  | nil => rfl
  | cons p t ih =>
    rw [aerase]
    by_cases hpk : (p.1 == k) = true
    · rw [if_pos hpk]
      show akeys (aerase t k) = (akeys (p :: t)).filter (fun x => !(x == k))
      rw [show akeys (p :: t) = p.1 :: akeys t from rfl, List.filter_cons,
        if_neg (by simp [hpk]), ih]
    · rw [if_neg hpk]
      show p.1 :: akeys (aerase t k) = (akeys (p :: t)).filter (fun x => !(x == k))
      rw [show akeys (p :: t) = p.1 :: akeys t from rfl, List.filter_cons,
        if_pos (by simp [bool_false_of_not hpk]), ih]

theorem akeys_aset_of_amem {l : List (Nat × α)} {k : Nat} {v : α}
    (h : amem l k = true) : akeys (aset l k v) = akeys l := by
  unfold aset
  rw [if_pos h]
  unfold akeys
  rw [List.map_map]
  apply List.map_congr_left
  intro p _
  by_cases hpk : (p.1 == k) = true
  · simp only [Function.comp, hpk, if_pos]
    exact (nat_eq_of_beq hpk).symm
  · simp only [Function.comp, hpk]
    rw [if_neg (by simpa using hpk)]

theorem akeys_aset_of_not {l : List (Nat × α)} {k : Nat} {v : α}
    (h : amem l k = false) : akeys (aset l k v) = akeys l ++ [k] := by
  unfold aset
  rw [if_neg (by simp [h])]
  unfold akeys
  rw [List.map_append]
  rfl

theorem aset_length_of_amem {l : List (Nat × α)} {k : Nat} {v : α}
    (h : amem l k = true) : (aset l k v).length = l.length := by
  unfold aset
  rw [if_pos h, List.length_map]

theorem aset_length_of_not {l : List (Nat × α)} {k : Nat} {v : α}
    (h : amem l k = false) : (aset l k v).length = l.length + 1 := by
  unfold aset
  rw [if_neg (by simp [h]), List.length_append]
  rfl

theorem aerase_length_nodup {l : List (Nat × α)} {k : Nat}
    (hnd : dnodup (akeys l) = true) (h : amem l k = true) :
    (aerase l k).length + 1 = l.length := by
  induction l with
  | nil => cases h
  | cons p t ih =>
    have hband := band_true (show (!smem p.1 (akeys t) && dnodup (akeys t)) = true from hnd)
    have hps : smem p.1 (akeys t) = false := by
      cases hs : smem p.1 (akeys t) with
      | false => rfl
      | true => rw [hs] at hband; exact absurd hband.1 (by decide)
    rw [aerase]
    by_cases hpk : (p.1 == k) = true
    · rw [if_pos hpk]
      have hke : k = p.1 := (nat_eq_of_beq hpk).symm
      have hnt : amem t k = false := by
        cases hm : amem t k with
        | false => rfl
        | true =>
          rw [amem_iff_mem_akeys] at hm
          rw [hke] at hm
          rw [smem_iff_mem.2 hm] at hps
          cases hps
      rw [aerase_of_not_amem hnt, List.length_cons]
    · rw [if_neg hpk, List.length_cons, List.length_cons]
      have hmt : amem t k = true := by
        rcases bor_true (show (p.1 == k || amem t k) = true from h) with h2 | h2
        · rw [h2] at hpk; exact absurd rfl hpk
        · exact h2
      rw [← ih hband.2 hmt]

theorem dnodup_cons_iff {x : Nat} {t : List Nat} :
    dnodup (x :: t) = true ↔ smem x t = false ∧ dnodup t = true := by
  show (!smem x t && dnodup t) = true ↔ _
  rw [Bool.and_eq_true, Bool.not_eq_true']

theorem dnodup_filter {l : List Nat} (p : Nat → Bool)
    (h : dnodup l = true) : dnodup (l.filter p) = true := by
  induction l with
  | nil => exact h
  | cons x t ih =>
    obtain ⟨hx, ht⟩ := dnodup_cons_iff.1 h
    rw [List.filter_cons]
    by_cases hp : p x = true
    · rw [if_pos hp]
      rw [dnodup_cons_iff]
      refine ⟨?_, ih ht⟩
      cases hs : smem x (t.filter p) with
      | false => rfl
      | true =>
        have hmem := List.mem_of_mem_filter (smem_iff_mem.1 hs)
        rw [smem_iff_mem.2 hmem] at hx
        cases hx
    · rw [if_neg hp]
      exact ih ht

theorem smem_append {x : Nat} {a b : List Nat} :
    smem x (a ++ b) = (smem x a || smem x b) := by
  cases ha : smem x a with
  | true =>
    rw [Bool.true_or]
    exact smem_iff_mem.2 (List.mem_append.2 (Or.inl (smem_iff_mem.1 ha)))
  | false =>
    rw [Bool.false_or]
    cases hb : smem x b with
    | true => exact smem_iff_mem.2 (List.mem_append.2 (Or.inr (smem_iff_mem.1 hb)))
    | false =>
      cases hab : smem x (a ++ b) with
      | false => rfl
      | true =>
        rcases List.mem_append.1 (smem_iff_mem.1 hab) with h | h
        · rw [smem_iff_mem.2 h] at ha; cases ha
        · rw [smem_iff_mem.2 h] at hb; cases hb

theorem dnodup_append_single {l : List Nat} {k : Nat}
    (h : dnodup l = true) (hk : smem k l = false) :
    dnodup (l ++ [k]) = true := by
  induction l with
  | nil =>
    show dnodup [k] = true
    rw [dnodup_cons_iff]
    refine ⟨?_, rfl⟩
    rw [smem_eq_decide]
    simp
  | cons x t ih =>
    obtain ⟨hx, ht⟩ := dnodup_cons_iff.1 h
    have hkx : x ≠ k := fun hco => by
      rw [← hco] at hk
      rw [smem_iff_mem.2 (List.mem_cons_self x t)] at hk
      cases hk
    have hkt : smem k t = false := by
      cases hs : smem k t with
      | false => rfl
      | true =>
        rw [smem_iff_mem] at hs
        rw [smem_iff_mem.2 (List.mem_cons_of_mem x hs)] at hk
        cases hk
    rw [List.cons_append, dnodup_cons_iff]
    refine ⟨?_, ih ht hkt⟩
    cases hs : smem x (t ++ [k]) with
    | false => rfl
    | true =>
      rcases List.mem_append.1 (smem_iff_mem.1 hs) with hmem | hmem
      · rw [smem_iff_mem.2 hmem] at hx; cases hx
      · have hxk : x = k := by simpa using hmem
        exact absurd hxk hkx

theorem key_unique {l : List (Nat × α)} (hnd : dnodup (akeys l) = true)
    {p q : Nat × α} (hp : p ∈ l) (hq : q ∈ l) (hk : p.1 = q.1) : p = q := by
  induction l with
  | nil => cases hp
  | cons r t ih =>
    obtain ⟨hr, ht⟩ := dnodup_cons_iff.1 (show dnodup (r.1 :: akeys t) = true from hnd)
    rcases List.mem_cons.1 hp with hp1 | hp1 <;> rcases List.mem_cons.1 hq with hq1 | hq1
    · rw [hp1, hq1]
    · exfalso
      subst hp1
      have hqk : q.1 ∈ akeys t := List.mem_map.2 ⟨q, hq1, rfl⟩
      rw [← hk] at hqk
      rw [smem_iff_mem.2 hqk] at hr
      cases hr
    · exfalso
      subst hq1
      have hpk : p.1 ∈ akeys t := List.mem_map.2 ⟨p, hp1, rfl⟩
      rw [hk] at hpk
      rw [smem_iff_mem.2 hpk] at hr
      cases hr
    · exact ih ht hp1 hq1

theorem pend_entry_mem {s : Sched} {e : EngineId} (h : amem s.pending e = true) :
    (e, pendOf s e) ∈ s.pending := by
  rw [amem_iff_alookup] at h
  cases ha : alookup s.pending e with
  | none => rw [ha] at h; cases h
  | some L =>
    have hm := alookup_mem ha
    unfold pendOf
    rw [ha]
    exact hm

theorem dnodup_count_one {l : List Nat} (hnd : dnodup l = true) {m : Nat}
    (h : smem m l = true) : l.count m = 1 := by
  induction l with
  | nil => cases h
  | cons x t ih =>
    obtain ⟨hx, ht⟩ := dnodup_cons_iff.1 hnd
    rw [List.count_cons]
    by_cases hxm : x = m
    · subst hxm
      rw [if_pos (by simp)]
      rw [List.count_eq_zero.2 (smem_false_iff.1 hx)]
    · rw [if_neg (by simpa using fun hco : x = m => hxm hco)]
      have hmt : smem m t = true := by
        rcases List.mem_cons.1 (smem_iff_mem.1 h) with hc | hc
        · exact absurd hc.symm hxm
        · exact smem_iff_mem.2 hc
      rw [ih ht hmt]

theorem replyIds_append : ∀ {a b : List Ev}, replyIds (a ++ b) = replyIds a ++ replyIds b := by
  intro a
  induction a with
  | nil => intro b; rfl
  | cons ev t ih =>
    intro b
    cases ev with
    | reply m ok =>
      show m :: replyIds (t ++ b) = m :: replyIds t ++ replyIds b
      rw [ih, List.cons_append]
    | dispatch m e =>
      show replyIds (t ++ b) = replyIds t ++ replyIds b
      rw [ih]

theorem unionOK_iff {s : Sched} : unionOK s = true ↔
    ∀ x, x ∈ s.all_done ↔ (x ∈ s.all_completed ∨ x ∈ s.all_failed) := by
  unfold unionOK
  rw [seqv_iff]
  exact ⟨fun h x => (h x).trans mem_sunion, fun h x => (h x).trans mem_sunion.symm⟩

theorem disjOK_iff {s : Sched} : disjOK s = true ↔
    ∀ x, x ∈ s.all_completed → x ∉ s.all_failed := by
  unfold disjOK
  rw [isEmpty_iff_forall]
  constructor
  · intro h x hc hf
    exact h x (mem_sinter.2 ⟨hc, hf⟩)
  · intro h x hm
    obtain ⟨hc, hf⟩ := mem_sinter.1 hm
    exact h x hc hf

theorem depFresh_iff {s : Sched} : depFresh s = true ↔
    ∀ p ∈ s.depending, smem p.1 s.all_done = false := by
  unfold depFresh
  rw [List.all_eq_true]
  exact ⟨fun h p hp => by simpa using h p hp, fun h p hp => by simpa using h p hp⟩

theorem pendFresh_iff {s : Sched} : pendFresh s = true ↔
    ∀ e ∈ s.pending, ∀ q ∈ e.2, smem q.1 s.all_done = false := by
  unfold pendFresh
  rw [List.all_eq_true]
  constructor
  · intro h e he q hq
    have h2 := h e he
    rw [List.all_eq_true] at h2
    simpa using h2 q hq
  · intro h e he
    rw [List.all_eq_true]
    intro q hq
    simpa using h e he q hq

theorem dpDisj_iff {s : Sched} : dpDisj s = true ↔
    ∀ e ∈ s.pending, ∀ q ∈ e.2, amem s.depending q.1 = false := by
  unfold dpDisj
  rw [List.all_eq_true]
  constructor
  · intro h e he q hq
    have h2 := h e he
    rw [List.all_eq_true] at h2
    simpa using h2 q hq
  · intro h e he
    rw [List.all_eq_true]
    intro q hq
    simpa using h e he q hq

theorem dpDisjX_iff {s : Sched} {m : TaskId} : dpDisjX s m = true ↔
    ∀ e ∈ s.pending, ∀ q ∈ e.2, q.1 = m ∨ amem s.depending q.1 = false := by
  unfold dpDisjX
  rw [List.all_eq_true]
  constructor
  · intro h e he q hq
    have h2 := h e he
    rw [List.all_eq_true] at h2
    rcases bor_true (h2 q hq) with h3 | h3
    · exact Or.inl (nat_eq_of_beq h3)
    · exact Or.inr (by simpa using h3)
  · intro h e he
    rw [List.all_eq_true]
    intro q hq
    rcases h e he q hq with h3 | h3
    · rw [h3]
      simp
    · rw [h3]
      simp

theorem ppDisj_iff {P : List (EngineId × List (TaskId × TaskRec))} : ppDisj P = true ↔
    ∀ e1 ∈ P, ∀ e2 ∈ P, e1.1 ≠ e2.1 → ∀ q ∈ e1.2, amem e2.2 q.1 = false := by
  unfold ppDisj
  rw [List.all_eq_true]
  constructor
  · intro h e1 h1 e2 h2 hne q hq
    have h3 := h e1 h1
    rw [List.all_eq_true] at h3
    rcases bor_true (h3 e2 h2) with h4 | h4
    · exact absurd (nat_eq_of_beq h4) hne
    · rw [List.all_eq_true] at h4
      simpa using h4 q hq
  · intro h e1 h1
    rw [List.all_eq_true]
    intro e2 h2
    by_cases hk : e1.1 = e2.1
    · rw [hk]
      simp
    · rw [Bool.or_eq_true]
      refine Or.inr ?_
      rw [List.all_eq_true]
      intro q hq
      simpa using h e1 h1 e2 h2 hk q hq

theorem inPendB_false_iff {s : Sched} {m : TaskId} : inPendB s m = false ↔
    ∀ e ∈ s.pending, amem e.2 m = false := by
  unfold inPendB
  cases ha : s.pending.any (fun e => amem e.2 m) with
  | true =>
    rw [List.any_eq_true] at ha
    obtain ⟨e, he, hm⟩ := ha
    constructor
    · intro h; cases h
    · intro h
      rw [h e he] at hm
      cases hm
  | false =>
    constructor
    · intro _ e he
      cases hm : amem e.2 m with
      | false => rfl
      | true =>
        have : s.pending.any (fun e => amem e.2 m) = true :=
          List.any_eq_true.2 ⟨e, he, hm⟩
        rw [this] at ha
        cases ha
    · intro _
      rfl

theorem loadLen_iff {s : Sched} : loadLen s = true ↔ s.loads.length = s.targets.length := by
  unfold loadLen
  simp

theorem loadsOK_iff {s : Sched} : loadsOK s = true ↔
    ∀ p ∈ s.targets.zip s.loads, p.2 = ((pendOf s p.1).length : Int) := by
  unfold loadsOK
  rw [List.all_eq_true]
  exact ⟨fun h p hp => by simpa using h p hp, fun h p hp => by simpa using h p hp⟩

theorem loadsOK2_iff {s : Sched} {engine : EngineId} : loadsOK2 s engine = true ↔
    ∀ p ∈ s.targets.zip s.loads,
      p.2 = (if p.1 = engine then ((pendOf s p.1).length : Int) - 1
             else ((pendOf s p.1).length : Int)) := by
  unfold loadsOK2
  rw [List.all_eq_true]
  constructor
  · intro h p hp
    have h2 : p.2 = (if (p.1 == engine) = true then ((pendOf s p.1).length : Int) - 1
        else ((pendOf s p.1).length : Int)) := by simpa using h p hp
    by_cases he : p.1 = engine
    · rw [if_pos he]
      rw [if_pos (by simpa using he)] at h2
      exact h2
    · rw [if_neg he]
      rw [if_neg (by simpa using he)] at h2
      exact h2
  · intro h p hp
    have h2 := h p hp
    by_cases he : p.1 = engine
    · rw [if_pos he] at h2
      simp [h2, he]
    · rw [if_neg he] at h2
      simp [h2, beq_false_of_ne he]

theorem mem_eraseIdx_sub {x : α} : ∀ {l : List α} {i : Nat}, x ∈ l.eraseIdx i → x ∈ l := by
  intro l
  induction l with
  | nil =>
    intro i h
    rw [List.eraseIdx_nil] at h
    cases h
  | cons y t ih =>
    intro i h
    cases i with
    | zero => exact List.mem_cons_of_mem _ h
    | succ j =>
      rcases List.mem_cons.1 h with h | h
      · exact h ▸ List.mem_cons_self _ _
      · exact List.mem_cons_of_mem _ (ih h)

theorem dnodup_eraseIdx {l : List Nat} : ∀ {i : Nat}, dnodup l = true →
    dnodup (l.eraseIdx i) = true := by
  induction l with
  | nil => intro i h; exact h
  | cons x t ih =>
    intro i h
    obtain ⟨hx, ht⟩ := dnodup_cons_iff.1 h
    cases i with
    | zero => exact ht
    | succ j =>
      show dnodup (x :: t.eraseIdx j) = true
      rw [dnodup_cons_iff]
      refine ⟨?_, ih ht⟩
      cases hs : smem x (t.eraseIdx j) with
      | false => rfl
      | true =>
        rw [smem_iff_mem.2 (mem_eraseIdx_sub (smem_iff_mem.1 hs))] at hx
        cases hx

theorem dnodup_rotate {l : List Nat} : ∀ {i : Nat}, i < l.length → dnodup l = true →
    dnodup (l.eraseIdx i ++ [l.getD i 0]) = true := by
  induction l with
  | nil =>
    intro i hi
    rw [List.length_nil] at hi
    omega
  | cons x t ih =>
    intro i hi h
    obtain ⟨hx, ht⟩ := dnodup_cons_iff.1 h
    cases i with
    | zero =>
      show dnodup (t ++ [x]) = true
      exact dnodup_append_single ht hx
    | succ j =>
      have hj : j < t.length := by simpa using hi
      show dnodup (x :: (t.eraseIdx j ++ [t.getD j 0])) = true
      rw [dnodup_cons_iff]
      refine ⟨?_, ih hj ht⟩
      cases hs : smem x (t.eraseIdx j ++ [t.getD j 0]) with
      | false => rfl
      | true =>
        rcases List.mem_append.1 (smem_iff_mem.1 hs) with hmem | hmem
        · rw [smem_iff_mem.2 (mem_eraseIdx_sub hmem)] at hx
          cases hx
        · have hxe : x = t.getD j 0 := by simpa using hmem
          have hmem2 : t.getD j 0 ∈ t := by
            rw [List.getD_eq_getElem t 0 hj]
            exact t.getElem_mem hj
          rw [hxe, smem_iff_mem.2 hmem2] at hx
          cases hx

theorem dnodup_getD_inj {l : List Nat} : dnodup l = true →
    ∀ {i j}, i < l.length → j < l.length → l.getD i 0 = l.getD j 0 → i = j := by
  induction l with
  | nil =>
    intro _ i j hi
    rw [List.length_nil] at hi
    omega
  | cons x t ih =>
    intro h i j hi hj he
    obtain ⟨hx, ht⟩ := dnodup_cons_iff.1 h
    cases i with
    | zero =>
      cases j with
      | zero => rfl
      | succ j2 =>
        exfalso
        have hj2 : j2 < t.length := by simpa using hj
        have hmem : t.getD j2 0 ∈ t := by
          rw [List.getD_eq_getElem t 0 hj2]
          exact t.getElem_mem hj2
        have he2 : x = t.getD j2 0 := he
        rw [← he2] at hmem
        rw [smem_iff_mem.2 hmem] at hx
        cases hx
    | succ i2 =>
      cases j with
      | zero =>
        exfalso
        have hi2 : i2 < t.length := by simpa using hi
        have hmem : t.getD i2 0 ∈ t := by
          rw [List.getD_eq_getElem t 0 hi2]
          exact t.getElem_mem hi2
        have he2 : t.getD i2 0 = x := he
        rw [he2] at hmem
        rw [smem_iff_mem.2 hmem] at hx
        cases hx
      | succ j2 =>
        have hi2 : i2 < t.length := by simpa using hi
        have hj2 : j2 < t.length := by simpa using hj
        have := ih ht hi2 hj2 he
        omega

theorem findIdx_go_spec {p : Nat → Bool} : ∀ (l : List Nat) (i j : Nat),
    List.findIdx? p l i = some j →
    i ≤ j ∧ j - i < l.length ∧ p (l.getD (j - i) 0) = true := by
  intro l
  induction l with
  | nil =>
    intro i j h
    rw [List.findIdx?_nil] at h
    cases h
  | cons x t ih =>
    intro i j h
    rw [List.findIdx?_cons] at h
    by_cases hp : p x = true
    · rw [if_pos hp] at h
      injection h with h
      subst h
      refine ⟨Nat.le_refl i, by simp, ?_⟩
      rw [Nat.sub_self]
      exact hp
    · rw [if_neg hp] at h
      obtain ⟨h1, h2, h3⟩ := ih (i + 1) j h
      refine ⟨by omega, by simp; omega, ?_⟩
      have he : j - i = (j - (i + 1)) + 1 := by omega
      rw [he]
      exact h3

theorem indexOf_spec {l : List Nat} {x i : Nat} (h : l.indexOf? x = some i) :
    i < l.length ∧ l.getD i 0 = x := by
  have h2 : List.findIdx? (fun y => y == x) l 0 = some i := h
  obtain ⟨_, hlt, hp⟩ := findIdx_go_spec l 0 i h2
  rw [Nat.sub_zero] at hlt hp
  exact ⟨hlt, nat_eq_of_beq hp⟩

theorem mem_zip_decomp {a : List α} {b : List β} {p : α × β}
    (h : p ∈ a.zip b) : ∃ i, ∃ hia : i < a.length, ∃ hib : i < b.length,
      p.1 = a[i] ∧ p.2 = b[i] := by
  obtain ⟨i, hi, he⟩ := List.mem_iff_getElem.1 h
  have hlen := List.length_zip a b
  rw [hlen] at hi
  have hia : i < a.length := lt_of_lt_of_le hi (min_le_left _ _)
  have hib : i < b.length := lt_of_lt_of_le hi (min_le_right _ _)
  refine ⟨i, hia, hib, ?_, ?_⟩
  · rw [← he, List.getElem_zip]
  · rw [← he, List.getElem_zip]

theorem zip_mem_of_idx {a : List α} {b : List β} {i : Nat}
    (hia : i < a.length) (hib : i < b.length) : (a[i], b[i]) ∈ a.zip b := by
  have hiz : i < (a.zip b).length := by
    rw [List.length_zip]
    exact lt_min hia hib
  have hz : (a.zip b)[i] = (a[i], b[i]) := List.getElem_zip
  rw [← hz]
  exact (a.zip b).getElem_mem hiz

/-! ### Invariant transfer lemmas -/

theorem get_opt_spec {l : List Nat} {i x : Nat} (h : l.get? i = some x) :
    i < l.length ∧ l.getD i 0 = x := by
  obtain ⟨hlt, he⟩ := List.get?_eq_some.1 h
  refine ⟨hlt, ?_⟩
  rw [List.getD_eq_getElem l 0 hlt]
  simpa using he

theorem exists_entry_of_amem {l : List (Nat × α)} {k : Nat}
    (h : amem l k = true) : ∃ v, (k, v) ∈ l := by
  rw [amem_iff_alookup] at h
  cases ha : alookup l k with
  | none => rw [ha] at h; cases h
  | some v => exact ⟨v, alookup_mem ha⟩

theorem amem_aset_cases {l : List (Nat × α)} {k k' : Nat} {v : α}
    (h : amem (aset l k v) k' = true) : amem l k' = true ∨ k' = k := by
  by_cases hm : amem l k = true
  · rw [amem_iff_mem_akeys, akeys_aset_of_amem hm] at h
    exact Or.inl (amem_iff_mem_akeys.2 h)
  · rw [amem_iff_mem_akeys, akeys_aset_of_not (bool_false_of_not hm),
      List.mem_append] at h
    rcases h with h | h
    · exact Or.inl (amem_iff_mem_akeys.2 h)
    · exact Or.inr (by simpa using h)

theorem pendOf_empty_of_not {s : Sched} {e : EngineId}
    (h : amem s.pending e = false) : pendOf s e = [] := by
  unfold pendOf
  cases ha : alookup s.pending e with
  | none => rfl
  | some L =>
    exfalso
    have h2 : amem s.pending e = true := amem_iff_alookup.2 (by simp [ha])
    rw [h2] at h
    cases h

theorem inv_fresh_of_dep {s : Sched} {m : TaskId} (hI : Inv s)
    (h : amem s.depending m = true) : smem m s.all_done = false := by
  obtain ⟨v, hv⟩ := exists_entry_of_amem h
  exact depFresh_iff.1 hI.dF (m, v) hv

theorem inv_notPend_of_dep {s : Sched} {m : TaskId} (hI : Inv s)
    (h : amem s.depending m = true) : inPendB s m = false := by
  rw [inPendB_false_iff]
  intro e he
  cases ha : amem e.2 m with
  | false => rfl
  | true =>
    obtain ⟨v, hv⟩ := exists_entry_of_amem ha
    have := dpDisj_iff.1 hI.dp e he (m, v) hv
    rw [h] at this
    cases this

theorem inv_fresh_of_pend {s : Sched} {engine : EngineId} {m : TaskId} (hI : Inv s)
    (h : amem (pendOf s engine) m = true) : smem m s.all_done = false := by
  have hpe : amem s.pending engine = true := by
    cases hm : amem s.pending engine with
    | true => rfl
    | false =>
      rw [pendOf_empty_of_not hm] at h
      cases h
  obtain ⟨v, hv⟩ := exists_entry_of_amem h
  exact pendFresh_iff.1 hI.pF (engine, pendOf s engine) (pend_entry_mem hpe) (m, v) hv

theorem inv_notDep_of_pend {s : Sched} {engine : EngineId} {m : TaskId} (hI : Inv s)
    (h : amem (pendOf s engine) m = true) : amem s.depending m = false := by
  have hpe : amem s.pending engine = true := by
    cases hm : amem s.pending engine with
    | true => rfl
    | false =>
      rw [pendOf_empty_of_not hm] at h
      cases h
  obtain ⟨v, hv⟩ := exists_entry_of_amem h
  exact dpDisj_iff.1 hI.dp (engine, pendOf s engine) (pend_entry_mem hpe) (m, v) hv

/-- Inv with the pending/depending disjointness weakened at one task (the
transient shape while a freshly dispatched task is still in depending). -/
structure InvX (s : Sched) (m : TaskId) : Prop where
  uOK : unionOK s = true
  dOK : disjOK s = true
  dF : depFresh s = true
  pF : pendFresh s = true
  dpX : dpDisjX s m = true
  pp : ppDisj s.pending = true
  pkn : pendKND s = true
  pnd : pendND s = true
  tnd : targsND s = true
  lLen : loadLen s = true
  lOK : loadsOK s = true
  rnd : repND s = true
  dr : doneRep s = true
  rd : repDone s = true

theorem invX_of_inv {s : Sched} {m : TaskId} (hI : Inv s) : InvX s m := by
  refine ⟨hI.uOK, hI.dOK, hI.dF, hI.pF, ?_, hI.pp, hI.pkn, hI.pnd, hI.tnd,
    hI.lLen, hI.lOK, hI.rnd, hI.dr, hI.rd⟩
  rw [dpDisjX_iff]
  intro e he q hq
  exact Or.inr (dpDisj_iff.1 hI.dp e he q hq)

theorem inv_of_invX_notdep {s : Sched} {m : TaskId} (hX : InvX s m)
    (h : amem s.depending m = false) : Inv s := by
  refine ⟨hX.uOK, hX.dOK, hX.dF, hX.pF, ?_, hX.pp, hX.pkn, hX.pnd, hX.tnd,
    hX.lLen, hX.lOK, hX.rnd, hX.dr, hX.rd⟩
  rw [dpDisj_iff]
  intro e he q hq
  rcases dpDisjX_iff.1 hX.dpX e he q hq with h2 | h2
  · rw [h2]
    exact h
  · exact h2

/-- Popping the dispatched task out of depending restores the full
invariant (the depending-pop step of update_graph after maybe_run ran). -/
theorem inv_restore {s : Sched} {m : TaskId} {g2 : List (TaskId × List TaskId)}
    (hX : InvX s m) :
    Inv { s with depending := aerase s.depending m, graph := g2 } := by
  refine ⟨hX.uOK, hX.dOK, ?_, hX.pF, ?_, hX.pp, hX.pkn, hX.pnd, hX.tnd,
    hX.lLen, hX.lOK, hX.rnd, hX.dr, hX.rd⟩
  · rw [depFresh_iff]
    intro p hp
    exact depFresh_iff.1 hX.dF p (mem_aerase hp).1
  · rw [dpDisj_iff]
    intro e he q hq
    by_cases hqm : q.1 = m
    · rw [hqm]
      exact amem_aerase_self
    · rcases dpDisjX_iff.1 hX.dpX e he q hq with h2 | h2
      · exact absurd h2 hqm
      · cases ha : amem (aerase s.depending m) q.1 with
        | false => rfl
        | true =>
          rw [amem_aerase_sub ha] at h2
          cases h2

/-- The finalization step of fail_unreachable: pop from depending, record the
task as done and failed, reply to the client. -/
theorem inv_fail_mark {s : Sched} {m : TaskId} {g2 : List (TaskId × List TaskId)}
    (hI : Inv s) (hm : amem s.depending m = true) :
    Inv { s with depending := aerase s.depending m, graph := g2, all_done := sinsert m s.all_done, all_failed := sinsert m s.all_failed, out := s.out ++ [Ev.reply m false] } := by
  have hfresh : smem m s.all_done = false := inv_fresh_of_dep hI hm
  have hnp : inPendB s m = false := inv_notPend_of_dep hI hm
  have hu := unionOK_iff.1 hI.uOK
  refine ⟨?_, ?_, ?_, ?_, ?_, hI.pp, hI.pkn, hI.pnd, hI.tnd, hI.lLen, hI.lOK,
    ?_, ?_, ?_⟩
  · rw [unionOK_iff]
    intro x
    show x ∈ sinsert m s.all_done ↔ x ∈ s.all_completed ∨ x ∈ sinsert m s.all_failed
    rw [mem_sinsert, mem_sinsert]
    have hux := hu x
    tauto
  · rw [disjOK_iff]
    intro x hc hf
    have hf2 : x = m ∨ x ∈ s.all_failed := mem_sinsert.1 hf
    rcases hf2 with rfl | hf3
    · rw [smem_iff_mem.2 ((hu x).2 (Or.inl hc))] at hfresh
      cases hfresh
    · exact disjOK_iff.1 hI.dOK x hc hf3
  · rw [depFresh_iff]
    intro p hp
    obtain ⟨hp1, hp2⟩ := mem_aerase hp
    have hold := depFresh_iff.1 hI.dF p hp1
    rw [smem_false_iff]
    intro hmem
    rcases mem_sinsert.1 hmem with h | h
    · exact nat_ne_of_beq_false hp2 h
    · rw [smem_iff_mem.2 h] at hold
      cases hold
  · rw [pendFresh_iff]
    intro e he q hq
    have hold := pendFresh_iff.1 hI.pF e he q hq
    rw [smem_false_iff]
    intro hmem
    rcases mem_sinsert.1 hmem with h | h
    · have h2 := inPendB_false_iff.1 hnp e he
      rw [← h] at h2
      rw [amem_of_mem hq] at h2
      cases h2
    · rw [smem_iff_mem.2 h] at hold
      cases hold
  · rw [dpDisj_iff]
    intro e he q hq
    have hold := dpDisj_iff.1 hI.dp e he q hq
    cases ha : amem (aerase s.depending m) q.1 with
    | false => rfl
    | true =>
      rw [amem_aerase_sub ha] at hold
      cases hold
  · show dnodup (replyIds (s.out ++ [Ev.reply m false])) = true
    rw [replyIds_append]
    refine dnodup_append_single hI.rnd ?_
    rw [smem_false_iff]
    intro hmem
    have h2 : smem m s.all_done = true := by
      simpa using List.all_eq_true.1 hI.rd m hmem
    rw [h2] at hfresh
    cases hfresh
  · unfold doneRep
    rw [List.all_eq_true]
    intro x hx
    have hx2 : x ∈ sinsert m s.all_done := hx
    show smem x (replyIds (s.out ++ [Ev.reply m false])) = true
    rw [replyIds_append]
    rw [show replyIds [Ev.reply m false] = [m] from rfl]
    rcases mem_sinsert.1 hx2 with rfl | hx3
    · exact smem_iff_mem.2 (List.mem_append.2 (Or.inr (List.mem_cons_self _ _)))
    · have hold : smem x (replyIds s.out) = true := by
        simpa using List.all_eq_true.1 hI.dr x hx3
      exact smem_iff_mem.2 (List.mem_append.2 (Or.inl (smem_iff_mem.1 hold)))
  · unfold repDone
    rw [List.all_eq_true]
    intro x hx
    have hx2 : x ∈ replyIds (s.out ++ [Ev.reply m false]) := hx
    rw [replyIds_append] at hx2
    rw [show replyIds [Ev.reply m false] = [m] from rfl] at hx2
    show smem x (sinsert m s.all_done) = true
    rcases List.mem_append.1 hx2 with h | h
    · have hold : smem x s.all_done = true := by
        simpa using List.all_eq_true.1 hI.rd x h
      exact smem_iff_mem.2 (mem_sinsert.2 (Or.inr (smem_iff_mem.1 hold)))
    · have : x = m := by simpa using h
      rw [this]
      exact smem_iff_mem.2 (mem_sinsert.2 (Or.inl rfl))

/-- Parking a fresh task in depending (save_unmet's dict write, the loop's
target re-save, and the pre-fail parking writes). -/
theorem inv_depaset {s : Sched} {m : TaskId} {rec : TaskRec}
    {g2 : List (TaskId × List TaskId)}
    (hI : Inv s) (hfresh : smem m s.all_done = false) (hnp : inPendB s m = false) :
    Inv { s with depending := aset s.depending m rec, graph := g2 } := by
  refine ⟨hI.uOK, hI.dOK, ?_, hI.pF, ?_, hI.pp, hI.pkn, hI.pnd, hI.tnd,
    hI.lLen, hI.lOK, hI.rnd, hI.dr, hI.rd⟩
  · rw [depFresh_iff]
    intro p hp
    rcases mem_aset hp with ⟨hp1, _⟩ | hp1
    · exact depFresh_iff.1 hI.dF p hp1
    · rw [hp1]
      exact hfresh
  · rw [dpDisj_iff]
    intro e he q hq
    cases ha : amem (aset s.depending m rec) q.1 with
    | false => rfl
    | true =>
      rcases amem_aset_cases ha with h2 | h2
      · have := dpDisj_iff.1 hI.dp e he q hq
        rw [h2] at this
        cases this
      · have h3 := inPendB_false_iff.1 hnp e he
        rw [← h2] at h3
        rw [amem_of_mem hq] at h3
        cases h3

theorem pendND_iff {s : Sched} : pendND s = true ↔
    ∀ e ∈ s.pending, dnodup (akeys e.2) = true := by
  unfold pendND
  rw [List.all_eq_true]

theorem doneRep_iff {s : Sched} : doneRep s = true ↔
    ∀ x ∈ s.all_done, smem x (replyIds s.out) = true := by
  unfold doneRep
  rw [List.all_eq_true]

theorem repDone_iff {s : Sched} : repDone s = true ↔
    ∀ x ∈ replyIds s.out, smem x s.all_done = true := by
  unfold repDone
  rw [List.all_eq_true]

theorem zip_eraseIdx_eq :
    ∀ (a : List α) (b : List β) (i : Nat), a.length = b.length →
      (a.eraseIdx i).zip (b.eraseIdx i) = (a.zip b).eraseIdx i := by
  intro a
  induction a with
  | nil => intro b i h; simp
  | cons x xs ih =>
    intro b i h
    cases b with
    | nil => simp at h
    | cons y ys =>
      cases i with
      | zero => simp [List.eraseIdx]; rfl
      | succ j =>
        simp only [List.eraseIdx, List.zip_cons_cons]
        rw [ih ys j (by simpa using h)]
        rfl

theorem addjob_len1 {t : List EngineId} {l : List Int} {i : Nat} (hi : i < t.length) :
    (add_job t l i).1.length = t.length := by
  have hT0 : 0 < t.length := Nat.lt_of_le_of_lt (Nat.zero_le _) hi
  simp only [add_job, List.length_append, List.length_eraseIdx]
  simp [hi, Nat.sub_add_cancel hT0]

theorem addjob_len2 {t : List EngineId} {l : List Int} {i : Nat} (hi : i < l.length) :
    (add_job t l i).2.length = l.length := by
  have hL0 : 0 < l.length := Nat.lt_of_le_of_lt (Nat.zero_le _) hi
  simp only [add_job, List.length_append, List.length_eraseIdx, List.length_set]
  simp [hi, Nat.sub_add_cancel hL0]

theorem addjob_zip {t : List EngineId} {l : List Int} {i : Nat}
    (h1 : i < t.length) (h2 : t.length = l.length) :
    (add_job t l i).1.zip (add_job t l i).2 =
      ((t.zip (l.set i (l.getD i 0 + 1))).eraseIdx i)
        ++ [(t.getD i 0, l.getD i 0 + 1)] := by
  have h1l : i < l.length := h2 ▸ h1
  have hset : (l.set i (l.getD i 0 + 1)).getD i 0 = l.getD i 0 + 1 := by
    rw [List.getD_eq_getElem _ 0 (by simpa using h1l)]
    simp [List.getElem_set_self]
  simp only [add_job]
  rw [List.zip_append (by simp [List.length_eraseIdx, h1, h1l, h2])]
  rw [zip_eraseIdx_eq _ _ _ (by simp [h2])]
  rw [hset]
  rfl

/-- The submission step of maybe_run: add_job plus the pending write.  The
dispatched task stays in depending (submit_task does not touch it), so only
the weakened disjointness InvX holds. -/
theorem inv_submit {s : Sched} {m : TaskId} {rec : TaskRec}
    {indices : Option (List Nat)} {s1 : Sched}
    (hI : Inv s) (hfresh : smem m s.all_done = false) (hnp : inPendB s m = false)
    (hrun : submit_taskF s m rec indices = .ok s1) :
    InvX s1 m ∧ s1.depending = s.depending ∧ s1.all_done = s.all_done ∧
      s1.all_failed = s.all_failed ∧ s1.all_completed = s.all_completed := by
  unfold submit_taskF at hrun
  split at hrun
  · simp at hrun
  · rename_i target heq
    injection hrun with hs1
    obtain ⟨hlt, hgd⟩ := get_opt_spec heq
    have hlen : s.loads.length = s.targets.length := loadLen_iff.1 hI.lLen
    have hltl : submitIdx s indices < s.loads.length := by rw [hlen]; exact hlt
    have hT : s1.targets = (add_job s.targets s.loads (submitIdx s indices)).1 := by
      rw [← hs1]
    have hL : s1.loads = (add_job s.targets s.loads (submitIdx s indices)).2 := by
      rw [← hs1]
    have hP : s1.pending = aset s.pending target
        (aset (pendOf s target) m { rec with after := MET }) := by rw [← hs1]
    have hO : s1.out = s.out ++ [Ev.dispatch m target] := by rw [← hs1]
    have hD : s1.depending = s.depending := by rw [← hs1]
    have hAD : s1.all_done = s.all_done := by rw [← hs1]
    have hAF : s1.all_failed = s.all_failed := by rw [← hs1]
    have hAC : s1.all_completed = s.all_completed := by rw [← hs1]
    have hpmL : amem (pendOf s target) m = false := by
      cases hco : amem (pendOf s target) m with
      | false => rfl
      | true =>
        exfalso
        have hpe : amem s.pending target = true := by
          cases hm2 : amem s.pending target with
          | true => rfl
          | false =>
            rw [pendOf_empty_of_not hm2] at hco
            cases hco
        have h2 := inPendB_false_iff.1 hnp (target, pendOf s target) (pend_entry_mem hpe)
        rw [hco] at h2
        cases h2
    have hVlen : (aset (pendOf s target) m { rec with after := MET }).length
        = (pendOf s target).length + 1 := aset_length_of_not hpmL
    have hpend : ∀ x, pendOf s1 x =
        if x = target then aset (pendOf s target) m { rec with after := MET }
        else pendOf s x := by
      intro x
      unfold pendOf
      rw [hP, alookup_aset]
      by_cases hx : x = target
      · rw [if_pos hx, if_pos hx]
        rfl
      · rw [if_neg hx, if_neg hx]
    have htIdx : s.targets[submitIdx s indices] = target := by
      rw [← List.getD_eq_getElem s.targets 0 hlt]
      exact hgd
    have hIdxLoad : s.loads[submitIdx s indices] = ((pendOf s target).length : Int) := by
      have hpair := zip_mem_of_idx hlt hltl
      have h2 := loadsOK_iff.1 hI.lOK _ hpair
      rw [htIdx] at h2
      exact h2
    refine ⟨⟨?_, ?_, ?_, ?_, ?_, ?_, ?_, ?_, ?_, ?_, ?_, ?_, ?_, ?_⟩, hD, hAD, hAF, hAC⟩
    · unfold unionOK
      rw [hAD, hAC, hAF]
      exact hI.uOK
    · unfold disjOK
      rw [hAC, hAF]
      exact hI.dOK
    · unfold depFresh
      rw [hD, hAD]
      exact hI.dF
    · rw [pendFresh_iff]
      intro e he q hq
      rw [hP] at he
      rw [hAD]
      rcases mem_aset he with ⟨he1, _⟩ | he1
      · exact pendFresh_iff.1 hI.pF e he1 q hq
      · subst he1
        rcases mem_aset hq with ⟨hq1, _⟩ | hq1
        · by_cases hpe : amem s.pending target = true
          · exact pendFresh_iff.1 hI.pF _ (pend_entry_mem hpe) q hq1
          · rw [pendOf_empty_of_not (bool_false_of_not hpe)] at hq1
            cases hq1
        · rw [hq1]
          exact hfresh
    · rw [dpDisjX_iff]
      intro e he q hq
      rw [hP] at he
      rw [hD]
      rcases mem_aset he with ⟨he1, _⟩ | he1
      · exact Or.inr (dpDisj_iff.1 hI.dp e he1 q hq)
      · subst he1
        rcases mem_aset hq with ⟨hq1, _⟩ | hq1
        · by_cases hpe : amem s.pending target = true
          · exact Or.inr (dpDisj_iff.1 hI.dp _ (pend_entry_mem hpe) q hq1)
          · rw [pendOf_empty_of_not (bool_false_of_not hpe)] at hq1
            cases hq1
        · rw [hq1]
          exact Or.inl rfl
    · rw [hP]
      rw [ppDisj_iff]
      intro e1 h1 e2 h2 hne q hq
      rcases mem_aset h1 with ⟨h1a, _⟩ | h1a <;> rcases mem_aset h2 with ⟨h2a, _⟩ | h2a
      · exact ppDisj_iff.1 hI.pp e1 h1a e2 h2a hne q hq
      · subst h2a
        cases ha : amem (aset (pendOf s target) m { rec with after := MET }) q.1 with
        | false => rfl
        | true =>
          exfalso
          rcases amem_aset_cases ha with h3 | h3
          · by_cases hpe : amem s.pending target = true
            · have h4 := ppDisj_iff.1 hI.pp e1 h1a (target, pendOf s target)
                (pend_entry_mem hpe) hne q hq
              rw [h3] at h4
              cases h4
            · rw [pendOf_empty_of_not (bool_false_of_not hpe)] at h3
              cases h3
          · have h4 := inPendB_false_iff.1 hnp e1 h1a
            rw [← h3] at h4
            rw [amem_of_mem hq] at h4
            cases h4
      · subst h1a
        rcases mem_aset hq with ⟨hq1, _⟩ | hq1
        · by_cases hpe : amem s.pending target = true
          · exact ppDisj_iff.1 hI.pp (target, pendOf s target) (pend_entry_mem hpe)
              e2 h2a hne q hq1
          · rw [pendOf_empty_of_not (bool_false_of_not hpe)] at hq1
            cases hq1
        · rw [hq1]
          exact inPendB_false_iff.1 hnp e2 h2a
      · rw [h1a, h2a] at hne
        exact absurd rfl hne
    · unfold pendKND
      rw [hP]
      by_cases hpe : amem s.pending target = true
      · rw [akeys_aset_of_amem hpe]
        exact hI.pkn
      · rw [akeys_aset_of_not (bool_false_of_not hpe)]
        refine dnodup_append_single hI.pkn ?_
        rw [smem_false_iff]
        intro hmem
        rw [← amem_iff_mem_akeys] at hmem
        exact hpe hmem
    · rw [pendND_iff]
      intro e he
      rw [hP] at he
      rcases mem_aset he with ⟨he1, _⟩ | he1
      · exact pendND_iff.1 hI.pnd e he1
      · subst he1
        show dnodup (akeys (aset (pendOf s target) m { rec with after := MET })) = true
        rw [akeys_aset_of_not hpmL]
        refine dnodup_append_single ?_ ?_
        · by_cases hpe : amem s.pending target = true
          · exact pendND_iff.1 hI.pnd (target, pendOf s target) (pend_entry_mem hpe)
          · rw [pendOf_empty_of_not (bool_false_of_not hpe)]
            rfl
        · rw [smem_false_iff]
          intro hmem
          rw [← amem_iff_mem_akeys] at hmem
          rw [hmem] at hpmL
          cases hpmL
    · unfold targsND
      rw [hT]
      show dnodup (s.targets.eraseIdx (submitIdx s indices)
        ++ [s.targets.getD (submitIdx s indices) 0]) = true
      exact dnodup_rotate hlt hI.tnd
    · rw [loadLen_iff, hT, hL, addjob_len1 hlt, addjob_len2 hltl]
      exact hlen
    · rw [loadsOK_iff]
      intro p hp
      rw [hT, hL] at hp
      rw [addjob_zip hlt hlen.symm] at hp
      rcases List.mem_append.1 hp with hmem | hmem
      · have hmem2 := mem_eraseIdx_sub hmem
        obtain ⟨j, hja, hjb, hpe1, hpe2⟩ := mem_zip_decomp hmem2
        have hjb2 : j < s.loads.length := by
          rw [List.length_set] at hjb
          exact hjb
        by_cases hjt : s.targets[j] = target
        · have hje : j = submitIdx s indices := by
            refine dnodup_getD_inj hI.tnd hja hlt ?_
            rw [List.getD_eq_getElem _ 0 hja, List.getD_eq_getElem _ 0 hlt, hjt, htIdx]
          subst hje
          rw [hpe1, hpe2, hjt, hpend, if_pos rfl, hVlen, List.getElem_set_self,
            List.getD_eq_getElem _ 0 hjb2, hIdxLoad]
          push_cast
          ring
        · have hjne : submitIdx s indices ≠ j := by
            intro hco
            subst hco
            exact hjt htIdx
          rw [hpe1, hpe2, hpend, if_neg hjt, List.getElem_set_ne hjne]
          exact loadsOK_iff.1 hI.lOK _ (zip_mem_of_idx hja hjb2)
      · have hpe : p = (s.targets.getD (submitIdx s indices) 0,
            s.loads.getD (submitIdx s indices) 0 + 1) := by simpa using hmem
        rw [hpe]
        show s.loads.getD (submitIdx s indices) 0 + 1
          = ((pendOf s1 (s.targets.getD (submitIdx s indices) 0)).length : Int)
        rw [hgd, hpend, if_pos rfl, hVlen]
        rw [List.getD_eq_getElem _ 0 hltl, hIdxLoad]
        push_cast
        ring
    · unfold repND
      rw [hO, replyIds_append, show replyIds [Ev.dispatch m target] = [] from rfl,
        List.append_nil]
      exact hI.rnd
    · unfold doneRep
      rw [hAD, hO, replyIds_append, show replyIds [Ev.dispatch m target] = [] from rfl,
        List.append_nil]
      exact hI.dr
    · unfold repDone
      rw [hAD, hO, replyIds_append, show replyIds [Ev.dispatch m target] = [] from rfl,
        List.append_nil]
      exact hI.rd

/-- Side conditions per cluster call: a task fed to maybe_run is not yet
finished and not pending anywhere (its record is in the caller's hand). -/
@[reducible] def callOK : Call → Sched → Prop
  | .maybe m _, s => smem m s.all_done = false ∧ inPendB s m = false
  | _, _ => True

/-- The invariant conclusion per cluster call.  maybe_run leaves the
dispatched task in depending (only the weakened InvX holds when it ran), and
when it neither ran nor failed the task it changed nothing but the
blacklist. -/
@[reducible] def execPost : Call → Sched → Sched × Bool × List EngineId → Prop
  | .maybe m _, s, res =>
      (res.2.1 = true → InvX res.1 m ∧ res.1.depending = s.depending) ∧
      (res.2.1 = false → Inv res.1 ∧ (smem m res.1.all_failed = false →
         res.1 = { s with blacklist := res.1.blacklist }))
  | _, _, res => Inv res.1

theorem inv_invisible {s : Sched} {g : List (TaskId × List TaskId)}
    {R : List (TaskId × Int)} {c f : List (EngineId × List TaskId)}
    {D : List (TaskId × EngineId)} {ids : List TaskId}
    {B : List (TaskId × List TaskId)} {hw : Int} (hI : Inv s) :
    Inv { s with graph := g, retries := R, completed := c, failed := f, destinations := D, all_ids := ids, blacklist := B, hwm := hw } :=
  ⟨hI.uOK, hI.dOK, hI.dF, hI.pF, hI.dp, hI.pp, hI.pkn, hI.pnd, hI.tnd,
   hI.lLen, hI.lOK, hI.rnd, hI.dr, hI.rd⟩

/-- Invariant preservation for the body of the maybe branch (state s0 is the
entry state s with at most a blacklist.setdefault applied). -/
theorem maybe_tail_inv {fuel : Nat}
    (ih : ∀ t c res, Inv t → callOK c t → execF fuel t c = .ok res → execPost c t res)
    {s s0 : Sched} {m : TaskId} {rec : TaskRec} {bl : List EngineId}
    {res : Sched × Bool × List EngineId}
    (hI0 : Inv s0)
    (hfresh : smem m s0.all_done = false) (hnp : inPendB s0 m = false)
    (hblo : { s with blacklist := s0.blacklist } = s0)
    (h : (if !rec.follow.ids.isEmpty || !rec.targs.isEmpty || !bl.isEmpty
            || decide (s0.hwm ≠ 0) then
        if (List.filter (canRunB s0 bl rec) (List.range s0.targets.length)).isEmpty then
          match (if rec.follow.all then
                   destsOf (sinter rec.follow.ids
                     (if rec.follow.all then
                        sunion (if rec.follow.success then s0.all_completed else [])
                          (if rec.follow.failure then s0.all_failed else [])
                      else [])) s0.destinations
                 else Except.ok []) with
          | Except.error e => Except.error e
          | Except.ok dests =>
            if rec.follow.all && decide (dests.length > 1) then
              match execF fuel { s0 with depending := aset s0.depending m rec }
                  (Call.failUn m) with
              | Except.error e => Except.error e
              | Except.ok r => Except.ok (r.1, false, rec.targs)
            else if !rec.targs.isEmpty then
              if (sdiff rec.targs bl).isEmpty
                  || (sinter (sdiff rec.targs bl) s0.targets).isEmpty then
                match execF fuel { s0 with depending := aset s0.depending m { rec with targs := sdiff rec.targs bl } } (Call.failUn m) with
                | Except.error e => Except.error e
                | Except.ok r => Except.ok (r.1, false, sdiff rec.targs bl)
              else Except.ok (s0, false, sdiff rec.targs bl)
            else Except.ok (s0, false, rec.targs)
        else
          match submit_taskF s0 m rec
              (some (List.filter (canRunB s0 bl rec) (List.range s0.targets.length))) with
          | Except.error e => Except.error e
          | Except.ok s1 => Except.ok (s1, true, rec.targs)
      else
        match submit_taskF s0 m rec none with
        | Except.error e => Except.error e
        | Except.ok s1 => Except.ok (s1, true, rec.targs)) = Except.ok res) :
    (res.2.1 = true → InvX res.1 m ∧ res.1.depending = s.depending) ∧
    (res.2.1 = false → Inv res.1 ∧ (smem m res.1.all_failed = false →
       res.1 = { s with blacklist := res.1.blacklist })) := by
  have hdep0 : s0.depending = s.depending := by rw [← hblo]
  split at h
  · split at h
    · split at h
      · cases h
      · rename_i dests hdest
        split at h
        · -- follow.all found more than one destination: park and fail
          split at h
          · cases h
          · rename_i r' hrec
            cases h
            have hS1 : Inv { s0 with depending := aset s0.depending m rec } :=
              inv_depaset hI0 hfresh hnp
            have hpost : Inv r'.1 := ih _ (Call.failUn m) _ hS1 trivial hrec
            have hfa : smem m r'.1.all_failed = true :=
              fail_adds_exec amem_aset_self hrec
            exact ⟨fun hco => Bool.noConfusion hco,
              fun _ => ⟨hpost, fun hco => by rw [hfa] at hco; cases hco⟩⟩
        · split at h
          · split at h
            · -- targets dead after the blacklist difference: park and fail
              split at h
              · cases h
              · rename_i r' hrec
                cases h
                have hS1 : Inv { s0 with depending := aset s0.depending m { rec with targs := sdiff rec.targs bl } } :=
                  inv_depaset hI0 hfresh hnp
                have hpost : Inv r'.1 := ih _ (Call.failUn m) _ hS1 trivial hrec
                have hfa : smem m r'.1.all_failed = true :=
                  fail_adds_exec amem_aset_self hrec
                exact ⟨fun hco => Bool.noConfusion hco,
                  fun _ => ⟨hpost, fun hco => by rw [hfa] at hco; cases hco⟩⟩
            · cases h
              exact ⟨fun hco => Bool.noConfusion hco, fun _ => ⟨hI0, fun _ => hblo.symm⟩⟩
          · cases h
            exact ⟨fun hco => Bool.noConfusion hco, fun _ => ⟨hI0, fun _ => hblo.symm⟩⟩
    · split at h
      · cases h
      · rename_i s1 hsub
        cases h
        obtain ⟨hX, hdep, _, _, _⟩ := inv_submit hI0 hfresh hnp hsub
        exact ⟨fun _ => ⟨hX, hdep.trans hdep0⟩, fun hco => Bool.noConfusion hco⟩
  · split at h
    · cases h
    · rename_i s1 hsub
      cases h
      obtain ⟨hX, hdep, _, _, _⟩ := inv_submit hI0 hfresh hnp hsub
      exact ⟨fun _ => ⟨hX, hdep.trans hdep0⟩, fun hco => Bool.noConfusion hco⟩

/-- Invariant preservation across the whole recursive handler cluster. -/
theorem execInv : ∀ fuel s c res, Inv s → callOK c s →
    execF fuel s c = .ok res → execPost c s res := by
  intro fuel
  induction fuel with
  | zero => intro s c res _ _ h; simp [execF] at h
  | succ fuel ih =>
    intro s c res hI hok h
    cases c with
    | failUn m =>
      show Inv res.1
      simp only [execF] at h
      split at h
      · cases h
        exact hI
      · rename_i rec hdep
        have hm : amem s.depending m = true := amem_iff_alookup.2 (by simp [hdep])
        split at h
        · cases h
        · rename_i g2 hscrub
          split at h
          · cases h
          · rename_i r' hrec
            cases h
            have hS2 : Inv { s with depending := aerase s.depending m, graph := g2, all_done := sinsert m s.all_done, all_failed := sinsert m s.all_failed, out := s.out ++ [Ev.reply m false] } :=
              inv_fail_mark hI hm
            have hfin : Inv r'.1 := ih _ (Call.update (some m) false) r' hS2 trivial hrec
            exact hfin
    | update d succ =>
      show Inv res.1
      cases d with
      | none =>
        have hstep : execF (fuel + 1) s (.update none succ) =
            (match execF fuel s (.loop (akeys s.depending)) with
              | .error e => .error e
              | .ok r => .ok (r.1, false, ([] : List EngineId))) := rfl
        rw [hstep] at h
        split at h
        · cases h
        · rename_i r' hrec
          cases h
          have hfin : Inv r'.1 := ih _ (Call.loop _) r' hI trivial hrec
          exact hfin
      | some dep =>
        simp only [execF] at h
        split at h
        · cases h
        · rename_i r' hrec
          cases h
          have hfin : Inv r'.1 := ih _ (Call.loop _) r' (inv_invisible hI) trivial hrec
          exact hfin
    | loop jobs =>
      show Inv res.1
      cases jobs with
      | nil =>
        simp only [execF] at h
        cases h
        exact hI
      | cons m rest =>
        simp only [execF] at h
        split at h
        · cases h
        · rename_i rec hdep
          have hm : amem s.depending m = true := amem_iff_alookup.2 (by simp [hdep])
          split at h
          · split at h
            · cases h
            · rename_i r' hrec
              have hInv1 : Inv r'.1 := ih _ (Call.failUn m) r' hI trivial hrec
              exact ih _ (Call.loop _) _ hInv1 trivial h
          · split at h
            · split at h
              · cases h
              · rename_i s1 x hmay
                split at h
                · cases h
                · rename_i g2 hscrub
                  have hpost := ih _ (Call.maybe m { rec with after := MET }) _ hI
                    ⟨inv_fresh_of_dep hI hm, inv_notPend_of_dep hI hm⟩ hmay
                  obtain ⟨hX, _⟩ := hpost.1 rfl
                  have hS2 : Inv { s1 with depending := aerase s1.depending m, graph := g2 } :=
                    inv_restore hX
                  exact ih _ (Call.loop _) _ hS2 trivial h
              · rename_i s1 t2 hmay
                have hpost := ih _ (Call.maybe m { rec with after := MET }) _ hI
                  ⟨inv_fresh_of_dep hI hm, inv_notPend_of_dep hI hm⟩ hmay
                have hInv1 : Inv s1 := (hpost.2 rfl).1
                split at h
                · rename_i r2 heq2
                  have hm1 : amem s1.depending m = true :=
                    amem_iff_alookup.2 (by simp [heq2])
                  have hS2 : Inv { s1 with depending := aset s1.depending m { r2 with targs := t2 }, graph := s1.graph } :=
                    inv_depaset hInv1 (inv_fresh_of_dep hInv1 hm1)
                      (inv_notPend_of_dep hInv1 hm1)
                  exact ih _ (Call.loop _) _ hS2 trivial h
                · exact ih _ (Call.loop _) _ hInv1 trivial h
            · exact ih _ (Call.loop _) _ hI trivial h
    | maybe m rec =>
      obtain ⟨hfresh, hnp⟩ := hok
      simp only [execF] at h
      by_cases hbm : amem s.blacklist m = true
      · rw [if_pos hbm] at h
        exact maybe_tail_inv ih hI hfresh hnp rfl h
      · rw [if_neg hbm] at h
        have hI0 : Inv { s with blacklist := s.blacklist ++ [(m, [])] } := inv_invisible hI
        exact maybe_tail_inv ih hI0 hfresh hnp rfl h

/-- The invariant as it stands right after dispatch_result's finish_job:
identical to Inv except that the replying engine's load has already been
decremented while its pending dict still holds the task. -/
structure InvD (s : Sched) (engine : EngineId) : Prop where
  uOK : unionOK s = true
  dOK : disjOK s = true
  dF : depFresh s = true
  pF : pendFresh s = true
  dp : dpDisj s = true
  pp : ppDisj s.pending = true
  pkn : pendKND s = true
  pnd : pendND s = true
  tnd : targsND s = true
  lLen : loadLen s = true
  lOK2 : loadsOK2 s engine = true
  rnd : repND s = true
  dr : doneRep s = true
  rd : repDone s = true

/-- finish_job at the replying engine's index (or no change when it has
unregistered) turns Inv into InvD; retries are invisible. -/
theorem invD_of_dec {s : Sched} {engine : EngineId} {R : List (TaskId × Int)}
    (hI : Inv s) : InvD { decAt s engine with retries := R } engine := by
  unfold decAt
  cases hidx : s.targets.indexOf? engine with
  | none =>
    have hno := List.indexOf?_eq_none_iff.1 hidx
    refine ⟨hI.uOK, hI.dOK, hI.dF, hI.pF, hI.dp, hI.pp, hI.pkn, hI.pnd, hI.tnd,
      hI.lLen, ?_, hI.rnd, hI.dr, hI.rd⟩
    rw [loadsOK2_iff]
    intro p hp
    obtain ⟨j, hja, hjb, hpe1, hpe2⟩ := mem_zip_decomp hp
    have hne : p.1 ≠ engine := by
      intro hco
      have hmem : p.1 ∈ s.targets := by
        rw [hpe1]
        exact s.targets.getElem_mem hja
      have := hno p.1 hmem
      rw [hco] at this
      simp at this
    rw [if_neg hne]
    exact loadsOK_iff.1 hI.lOK p hp
  | some idx =>
    obtain ⟨hlt, hgd⟩ := indexOf_spec hidx
    have hlen : s.loads.length = s.targets.length := loadLen_iff.1 hI.lLen
    have hltl : idx < s.loads.length := by rw [hlen]; exact hlt
    refine ⟨hI.uOK, hI.dOK, hI.dF, hI.pF, hI.dp, hI.pp, hI.pkn, hI.pnd, hI.tnd,
      ?_, ?_, hI.rnd, hI.dr, hI.rd⟩
    · rw [loadLen_iff]
      show (finish_job s.loads idx).length = s.targets.length
      rw [finish_job, List.length_set]
      exact hlen
    · rw [loadsOK2_iff]
      intro p hp
      have hp2 : p ∈ s.targets.zip (s.loads.set idx (s.loads.getD idx 0 - 1)) := hp
      obtain ⟨j, hja, hjb, hpe1, hpe2⟩ := mem_zip_decomp hp2
      have hjb2 : j < s.loads.length := by
        rw [List.length_set] at hjb
        exact hjb
      have hgd2 : s.targets[idx] = engine := by
        rw [← List.getD_eq_getElem s.targets 0 hlt]
        exact hgd
      by_cases hjt : s.targets[j] = engine
      · have hje : j = idx := by
          refine dnodup_getD_inj hI.tnd hja hlt ?_
          rw [List.getD_eq_getElem _ 0 hja, List.getD_eq_getElem _ 0 hlt, hjt, hgd2]
        subst hje
        rw [hpe1, hpe2, hjt, if_pos rfl, List.getElem_set_self,
          List.getD_eq_getElem _ 0 hjb2]
        have hold := loadsOK_iff.1 hI.lOK _ (zip_mem_of_idx hja hjb2)
        have hold2 : s.loads[j] = ((pendOf s engine).length : Int) := by
          have h2 : s.loads[j] = ((pendOf s (s.targets[j])).length : Int) := hold
          rw [hjt] at h2
          exact h2
        rw [hold2]
        rfl
      · have hjne : idx ≠ j := by
          intro hco
          subst hco
          rw [← List.getD_eq_getElem s.targets 0 hja] at hjt
          exact hjt hgd
        rw [hpe1, hpe2, if_neg hjt, List.getElem_set_ne hjne]
        exact loadsOK_iff.1 hI.lOK _ (zip_mem_of_idx hja hjb2)

/-- Popping the replying task from pending[engine] restores the full
invariant from InvD; the blacklist write is invisible. -/
theorem inv_pop_dec {t : Sched} {engine : EngineId} {m : TaskId}
    {B : List (TaskId × List TaskId)}
    (hD : InvD t engine) (hm : amem (pendOf t engine) m = true) :
    Inv { t with blacklist := B, pending := aset t.pending engine (aerase (pendOf t engine) m) } := by
  have hpe : amem t.pending engine = true := by
    cases hm2 : amem t.pending engine with
    | true => rfl
    | false =>
      rw [pendOf_empty_of_not hm2] at hm
      cases hm
  have hEntry := pend_entry_mem hpe
  refine ⟨hD.uOK, hD.dOK, hD.dF, ?_, ?_, ?_, ?_, ?_, hD.tnd, hD.lLen, ?_,
    hD.rnd, hD.dr, hD.rd⟩
  · rw [pendFresh_iff]
    intro e he q hq
    rcases mem_aset he with ⟨he1, _⟩ | he1
    · exact pendFresh_iff.1 hD.pF e he1 q hq
    · subst he1
      exact pendFresh_iff.1 hD.pF _ hEntry q (mem_aerase hq).1
  · rw [dpDisj_iff]
    intro e he q hq
    rcases mem_aset he with ⟨he1, _⟩ | he1
    · exact dpDisj_iff.1 hD.dp e he1 q hq
    · subst he1
      exact dpDisj_iff.1 hD.dp _ hEntry q (mem_aerase hq).1
  · rw [ppDisj_iff]
    intro e1 h1 e2 h2 hne q hq
    rcases mem_aset h1 with ⟨h1a, _⟩ | h1a <;> rcases mem_aset h2 with ⟨h2a, _⟩ | h2a
    · exact ppDisj_iff.1 hD.pp e1 h1a e2 h2a hne q hq
    · subst h2a
      cases ha : amem (aerase (pendOf t engine) m) q.1 with
      | false => rfl
      | true =>
        exfalso
        have h3 := amem_aerase_sub ha
        have h4 := ppDisj_iff.1 hD.pp e1 h1a _ hEntry hne q hq
        rw [h3] at h4
        cases h4
    · subst h1a
      exact ppDisj_iff.1 hD.pp _ hEntry e2 h2a hne q (mem_aerase hq).1
    · rw [h1a, h2a] at hne
      exact absurd rfl hne
  · unfold pendKND
    show dnodup (akeys (aset t.pending engine (aerase (pendOf t engine) m))) = true
    rw [akeys_aset_of_amem hpe]
    exact hD.pkn
  · rw [pendND_iff]
    intro e he
    rcases mem_aset he with ⟨he1, _⟩ | he1
    · exact pendND_iff.1 hD.pnd e he1
    · subst he1
      show dnodup (akeys (aerase (pendOf t engine) m)) = true
      rw [akeys_aerase]
      exact dnodup_filter _ (pendND_iff.1 hD.pnd _ hEntry)
  · rw [loadsOK_iff]
    intro p hp
    have hnd : dnodup (akeys (pendOf t engine)) = true := pendND_iff.1 hD.pnd _ hEntry
    have hlen1 : (aerase (pendOf t engine) m).length + 1 = (pendOf t engine).length :=
      aerase_length_nodup hnd hm
    have hpend : ∀ x, pendOf { t with blacklist := B, pending := aset t.pending engine (aerase (pendOf t engine) m) } x = if x = engine then aerase (pendOf t engine) m else pendOf t x := by
      intro x
      unfold pendOf
      show (alookup (aset t.pending engine (aerase (pendOf t engine) m)) x).getD [] = _
      rw [alookup_aset]
      by_cases hx : x = engine
      · rw [if_pos hx, if_pos hx]
        rfl
      · rw [if_neg hx, if_neg hx]
    have hold : p.2 = (if p.1 = engine then ((pendOf t p.1).length : Int) - 1
        else ((pendOf t p.1).length : Int)) := loadsOK2_iff.1 hD.lOK2 p hp
    rw [hpend]
    by_cases hx : p.1 = engine
    · rw [if_pos hx]
      rw [if_pos hx] at hold
      rw [hx] at hold
      rw [hold]
      omega
    · rw [if_neg hx]
      rw [if_neg hx] at hold
      exact hold

/-- fail_unreachable preserves the invariant. -/
theorem inv_failF {fuel : Nat} {s : Sched} {m : TaskId} {s' : Sched}
    (hI : Inv s) (h : fail_unreachableF fuel s m = .ok s') : Inv s' := by
  unfold fail_unreachableF at h
  cases hex : execF fuel s (Call.failUn m) with
  | error e => rw [hex] at h; cases h
  | ok r =>
    rw [hex] at h
    simp only [Except.map] at h
    cases h
    have hfin : Inv r.1 := execInv fuel s (Call.failUn m) r hI trivial hex
    exact hfin

/-- update_graph preserves the invariant. -/
theorem inv_updF {fuel : Nat} {s : Sched} {d : Option TaskId} {b : Bool} {s' : Sched}
    (hI : Inv s) (h : update_graphF fuel s d b = .ok s') : Inv s' := by
  unfold update_graphF at h
  cases hex : execF fuel s (Call.update d b) with
  | error e => rw [hex] at h; cases h
  | ok r =>
    rw [hex] at h
    simp only [Except.map] at h
    cases h
    have hfin : Inv r.1 := execInv fuel s (Call.update d b) r hI trivial hex
    exact hfin

/-- The finalization step of handle_result: relay the reply, record the task
as done and completed/failed; the task has just been popped everywhere. -/
theorem inv_done_mark {u : Sched} {m : TaskId} {ok : Bool}
    {C F : List (EngineId × List TaskId)} {D : List (TaskId × EngineId)}
    {B : List (TaskId × List TaskId)}
    (hI : Inv u) (hfresh : smem m u.all_done = false) (hnp : inPendB u m = false)
    (hndep : amem u.depending m = false) :
    Inv { u with out := u.out ++ [Ev.reply m ok], completed := C, failed := F, destinations := D, blacklist := B, all_completed := (if ok then sinsert m u.all_completed else u.all_completed), all_failed := (if ok then u.all_failed else sinsert m u.all_failed), all_done := sinsert m u.all_done } := by
  have hu := unionOK_iff.1 hI.uOK
  have hdo := disjOK_iff.1 hI.dOK
  have hmaf : m ∉ u.all_failed := fun hco => by
    rw [smem_iff_mem.2 ((hu m).2 (Or.inr hco))] at hfresh
    cases hfresh
  have hmac : m ∉ u.all_completed := fun hco => by
    rw [smem_iff_mem.2 ((hu m).2 (Or.inl hco))] at hfresh
    cases hfresh
  refine ⟨?_, ?_, ?_, ?_, hI.dp, hI.pp, hI.pkn, hI.pnd, hI.tnd, hI.lLen, hI.lOK,
    ?_, ?_, ?_⟩
  · rw [unionOK_iff]
    intro x
    show x ∈ sinsert m u.all_done ↔
      x ∈ (if ok then sinsert m u.all_completed else u.all_completed) ∨
      x ∈ (if ok then u.all_failed else sinsert m u.all_failed)
    have hux := hu x
    cases ok with
    | true =>
      rw [if_pos rfl, if_pos rfl, mem_sinsert, mem_sinsert]
      tauto
    | false =>
      rw [if_neg (by simp), if_neg (by simp), mem_sinsert, mem_sinsert]
      tauto
  · rw [disjOK_iff]
    intro x hc hf
    cases ok with
    | true =>
      have hc2 : x ∈ sinsert m u.all_completed := hc
      have hf2 : x ∈ u.all_failed := hf
      rcases mem_sinsert.1 hc2 with rfl | hc3
      · exact hmaf hf2
      · exact hdo x hc3 hf2
    | false =>
      have hc2 : x ∈ u.all_completed := hc
      have hf2 : x ∈ sinsert m u.all_failed := hf
      rcases mem_sinsert.1 hf2 with h | hf3
      · rw [h] at hc2
        exact hmac hc2
      · exact hdo x hc2 hf3
  · rw [depFresh_iff]
    intro p hp
    rw [smem_false_iff]
    intro hmem
    rcases mem_sinsert.1 hmem with h | h
    · exact amem_false_forall hndep p hp h
    · have hold := depFresh_iff.1 hI.dF p hp
      rw [smem_iff_mem.2 h] at hold
      cases hold
  · rw [pendFresh_iff]
    intro e he q hq
    rw [smem_false_iff]
    intro hmem
    rcases mem_sinsert.1 hmem with h | h
    · have h2 := inPendB_false_iff.1 hnp e he
      rw [← h] at h2
      rw [amem_of_mem hq] at h2
      cases h2
    · have hold := pendFresh_iff.1 hI.pF e he q hq
      rw [smem_iff_mem.2 h] at hold
      cases hold
  · show dnodup (replyIds (u.out ++ [Ev.reply m ok])) = true
    rw [replyIds_append]
    refine dnodup_append_single hI.rnd ?_
    rw [smem_false_iff]
    intro hmem
    have h2 : smem m u.all_done = true := by
      simpa using List.all_eq_true.1 hI.rd m hmem
    rw [h2] at hfresh
    cases hfresh
  · rw [doneRep_iff]
    intro x hx
    have hx2 : x ∈ sinsert m u.all_done := hx
    show smem x (replyIds (u.out ++ [Ev.reply m ok])) = true
    rw [replyIds_append]
    rw [show replyIds [Ev.reply m ok] = [m] from rfl]
    rcases mem_sinsert.1 hx2 with rfl | hx3
    · exact smem_iff_mem.2 (List.mem_append.2 (Or.inr (List.mem_cons_self _ _)))
    · have hold : smem x (replyIds u.out) = true := by
        simpa using List.all_eq_true.1 hI.dr x hx3
      exact smem_iff_mem.2 (List.mem_append.2 (Or.inl (smem_iff_mem.1 hold)))
  · rw [repDone_iff]
    intro x hx
    have hx2 : x ∈ replyIds (u.out ++ [Ev.reply m ok]) := hx
    rw [replyIds_append] at hx2
    rw [show replyIds [Ev.reply m ok] = [m] from rfl] at hx2
    show smem x (sinsert m u.all_done) = true
    rcases List.mem_append.1 hx2 with h | h
    · have hold : smem x u.all_done = true := by
        simpa using List.all_eq_true.1 hI.rd x h
      exact smem_iff_mem.2 (mem_sinsert.2 (Or.inr (smem_iff_mem.1 hold)))
    · have hxm : x = m := by simpa using h
      rw [hxm]
      exact smem_iff_mem.2 (mem_sinsert.2 (Or.inl rfl))

/-- handle_unmet_dependency preserves the invariant from the post-finish_job
state. -/
theorem inv_hunmet {fuel : Nat} {t : Sched} {engine : EngineId} {m : TaskId}
    {s' : Sched} (hD : InvD t engine)
    (hrun : handle_unmetF fuel t engine m = .ok s') : Inv s' := by
  simp only [handle_unmetF] at hrun
  split at hrun
  · cases hrun
  · rename_i rec hrecL
    have hrec2 : alookup (pendOf t engine) m = some rec := hrecL
    have hm : amem (pendOf t engine) m = true := amem_iff_alookup.2 (by simp [hrec2])
    have hpe : amem t.pending engine = true := by
      cases hm2 : amem t.pending engine with
      | true => rfl
      | false =>
        rw [pendOf_empty_of_not hm2] at hm
        cases hm
    have hEntry := pend_entry_mem hpe
    obtain ⟨v, hv⟩ := exists_entry_of_amem hm
    have hndep : amem t.depending m = false :=
      dpDisj_iff.1 hD.dp _ hEntry (m, v) hv
    have hfresh : smem m t.all_done = false :=
      pendFresh_iff.1 hD.pF _ hEntry (m, v) hv
    have hI1 : Inv { t with blacklist := aset t.blacklist m (sinsert engine (blD t m)), pending := aset t.pending engine (aerase (pendOf t engine) m) } :=
      inv_pop_dec hD hm
    have hnp1 : inPendB { t with blacklist := aset t.blacklist m (sinsert engine (blD t m)), pending := aset t.pending engine (aerase (pendOf t engine) m) } m = false := by
      rw [inPendB_false_iff]
      intro e he
      have he2 : e ∈ aset t.pending engine (aerase (pendOf t engine) m) := he
      rcases mem_aset he2 with ⟨he1, he3⟩ | he1
      · cases ha : amem e.2 m with
        | false => rfl
        | true =>
          exfalso
          obtain ⟨w, hw⟩ := exists_entry_of_amem ha
          have h4 := ppDisj_iff.1 hD.pp e he1 _ hEntry (nat_ne_of_beq_false he3) (m, w) hw
          rw [h4] at hm
          cases hm
      · rw [he1]
        exact amem_aerase_self
    split at hrun
    · cases hrun
    · rename_i s2 hafter
      have hI2 : Inv s2 := by
        split at hafter
        · refine inv_failF ?_ hafter
          exact inv_depaset hI1 hfresh hnp1
        · split at hafter
          · cases hafter
          · rename_i sa x hmay
            injection hafter with hs2
            subst hs2
            have hpost := execInv fuel _ (Call.maybe m rec) (sa, true, x) hI1
              ⟨hfresh, hnp1⟩ hmay
            obtain ⟨hX, hdepeq⟩ := hpost.1 rfl
            have hdepeq2 : sa.depending = t.depending := hdepeq
            refine inv_of_invX_notdep hX ?_
            show amem sa.depending m = false
            rw [hdepeq2]
            exact hndep
          · rename_i sa t2 hmay
            have hpost := execInv fuel _ (Call.maybe m rec) (sa, false, t2) hI1
              ⟨hfresh, hnp1⟩ hmay
            have hIa : Inv sa := (hpost.2 rfl).1
            split at hafter
            · cases hafter
              exact hIa
            · rename_i hsf
              cases hafter
              have hclean : sa = { t with blacklist := sa.blacklist, pending := aset t.pending engine (aerase (pendOf t engine) m) } :=
                (hpost.2 rfl).2 (bool_false_of_not hsf)
              have had := congrArg Sched.all_done hclean
              have hpeq := congrArg Sched.pending hclean
              refine inv_depaset hIa ?_ ?_
              · show smem m sa.all_done = false
                rw [had]
                exact hfresh
              · show inPendB sa m = false
                unfold inPendB
                rw [hpeq]
                exact hnp1
      split at hrun
      · split at hrun
        · cases hrun
          exact hI2
        · split at hrun
          · exact inv_updF hI2 hrun
          · cases hrun
            exact hI2
      · cases hrun
        exact hI2

/-- handle_result preserves the invariant from the post-finish_job state. -/
theorem inv_hresult {fuel : Nat} {t : Sched} {engine : EngineId} {m : TaskId}
    {success : Bool} {s' : Sched} (hD : InvD t engine)
    (hrun : handle_resultF fuel t engine m success = .ok s') : Inv s' := by
  simp only [handle_resultF] at hrun
  split at hrun
  · cases hrun
  · rename_i w hw
    have hrec2 : alookup (pendOf t engine) m = some w := hw
    have hm : amem (pendOf t engine) m = true := amem_iff_alookup.2 (by simp [hrec2])
    have hpe : amem t.pending engine = true := by
      cases hm2 : amem t.pending engine with
      | true => rfl
      | false =>
        rw [pendOf_empty_of_not hm2] at hm
        cases hm
    have hEntry := pend_entry_mem hpe
    obtain ⟨v, hv⟩ := exists_entry_of_amem hm
    have hndep : amem t.depending m = false :=
      dpDisj_iff.1 hD.dp _ hEntry (m, v) hv
    have hfresh : smem m t.all_done = false :=
      pendFresh_iff.1 hD.pF _ hEntry (m, v) hv
    have hu : Inv { t with blacklist := aerase t.blacklist m, pending := aset t.pending engine (aerase (pendOf t engine) m) } :=
      inv_pop_dec hD hm
    have hnp1 : inPendB { t with blacklist := aerase t.blacklist m, pending := aset t.pending engine (aerase (pendOf t engine) m) } m = false := by
      rw [inPendB_false_iff]
      intro e he
      have he2 : e ∈ aset t.pending engine (aerase (pendOf t engine) m) := he
      rcases mem_aset he2 with ⟨he1, he3⟩ | he1
      · cases ha : amem e.2 m with
        | false => rfl
        | true =>
          exfalso
          obtain ⟨w2, hw3⟩ := exists_entry_of_amem ha
          have h4 := ppDisj_iff.1 hD.pp e he1 _ hEntry (nat_ne_of_beq_false he3) (m, w2) hw3
          rw [h4] at hm
          cases hm
      · rw [he1]
        exact amem_aerase_self
    cases success with
    | true =>
      refine inv_updF ?_ hrun
      exact @inv_done_mark _ m true _ _ _ _ hu hfresh hnp1 hndep
    | false =>
      refine inv_updF ?_ hrun
      exact @inv_done_mark _ m false _ _ _ _ hu hfresh hnp1 hndep

/-- dispatch_result preserves the invariant. -/
theorem inv_dispatch {fuel : Nat} {s : Sched} {engine : EngineId} {m : TaskId}
    {ok dm : Bool} {s' : Sched}
    (hI : Inv s) (hrun : dispatch_resultF fuel s engine m ok dm = .ok s') : Inv s' := by
  simp only [dispatch_resultF] at hrun
  split at hrun
  · split at hrun
    · cases hrun
    · rename_i r hr
      split at hrun
      · exact inv_hunmet (invD_of_dec hI) hrun
      · exact inv_hresult (invD_of_dec hI) hrun
  · exact inv_hunmet (invD_of_dec hI) hrun

/-- dispatch_submission of a fresh msg_id preserves the invariant. -/
theorem inv_submission {fuel : Nat} {s : Sched} {m : TaskId}
    {targs : List EngineId} {a f : Dep} {r : Int} {timeout : Option Int} {s' : Sched}
    (hI : Inv s) (hfresh : smem m s.all_done = false) (hnp : inPendB s m = false)
    (hndep : amem s.depending m = false)
    (hrun : dispatch_submissionF fuel s m targs a f r timeout = .ok s') : Inv s' := by
  simp only [dispatch_submissionF] at hrun
  have hI0 : Inv (submState s m r) := inv_invisible hI
  split at hrun
  · exact inv_failF (inv_depaset hI0 hfresh hnp) hrun
  · split at hrun
    · exact inv_failF (inv_depaset hI0 hfresh hnp) hrun
    · split at hrun
      · exact inv_failF (inv_depaset hI0 hfresh hnp) hrun
      · split at hrun
        · exact inv_failF (inv_depaset hI0 hfresh hnp) hrun
        · split at hrun
          · split at hrun
            · cases hrun
            · rename_i s1 x hmay
              injection hrun with hs2
              subst hs2
              have hpost := execInv fuel _ (Call.maybe m _) (s1, true, x) hI0
                ⟨hfresh, hnp⟩ hmay
              obtain ⟨hX, hdepeq⟩ := hpost.1 rfl
              have hdepeq2 : s1.depending = s.depending := hdepeq
              refine inv_of_invX_notdep hX ?_
              show amem s1.depending m = false
              rw [hdepeq2]
              exact hndep
            · rename_i s1 t2 hmay
              have hpost := execInv fuel _ (Call.maybe m _) (s1, false, t2) hI0
                ⟨hfresh, hnp⟩ hmay
              have hIa : Inv s1 := (hpost.2 rfl).1
              split at hrun
              · cases hrun
                exact hIa
              · rename_i hsf
                cases hrun
                have hclean : s1 = { s with blacklist := s1.blacklist, all_ids := sinsert m s.all_ids, retries := aset s.retries m r } :=
                  (hpost.2 rfl).2 (bool_false_of_not hsf)
                have had := congrArg Sched.all_done hclean
                have hpeq := congrArg Sched.pending hclean
                refine inv_depaset hIa ?_ ?_
                · show smem m s1.all_done = false
                  rw [had]
                  exact hfresh
                · show inPendB s1 m = false
                  unfold inPendB
                  rw [hpeq]
                  exact hnp
          · cases hrun
            exact inv_depaset hI0 hfresh hnp

/-- The engine-insertion state of _register_engine keeps the invariant when
the uid is new. -/
theorem inv_reg_state {s : Sched} {uid : EngineId}
    (hI : Inv s) (hfr : smem uid s.targets = false) :
    Inv { s with targets := uid :: s.targets, loads := 0 :: s.loads, completed := aset s.completed uid [], failed := aset s.failed uid [], pending := aset s.pending uid [] } := by
  refine ⟨hI.uOK, hI.dOK, hI.dF, ?_, ?_, ?_, ?_, ?_, ?_, ?_, ?_, hI.rnd, hI.dr, hI.rd⟩
  · rw [pendFresh_iff]
    intro e he q hq
    rcases mem_aset he with ⟨he1, _⟩ | he1
    · exact pendFresh_iff.1 hI.pF e he1 q hq
    · rw [he1] at hq
      cases hq
  · rw [dpDisj_iff]
    intro e he q hq
    rcases mem_aset he with ⟨he1, _⟩ | he1
    · exact dpDisj_iff.1 hI.dp e he1 q hq
    · rw [he1] at hq
      cases hq
  · rw [ppDisj_iff]
    intro e1 h1 e2 h2 hne q hq
    rcases mem_aset h1 with ⟨h1a, _⟩ | h1a
    · rcases mem_aset h2 with ⟨h2a, _⟩ | h2a
      · exact ppDisj_iff.1 hI.pp e1 h1a e2 h2a hne q hq
      · rw [h2a]
        rfl
    · rw [h1a] at hq
      cases hq
  · unfold pendKND
    show dnodup (akeys (aset s.pending uid [])) = true
    by_cases hpe : amem s.pending uid = true
    · rw [akeys_aset_of_amem hpe]
      exact hI.pkn
    · rw [akeys_aset_of_not (bool_false_of_not hpe)]
      refine dnodup_append_single hI.pkn ?_
      rw [smem_false_iff]
      intro hmem
      rw [← amem_iff_mem_akeys] at hmem
      exact hpe hmem
  · rw [pendND_iff]
    intro e he
    rcases mem_aset he with ⟨he1, _⟩ | he1
    · exact pendND_iff.1 hI.pnd e he1
    · rw [he1]
      rfl
  · unfold targsND
    show dnodup (uid :: s.targets) = true
    rw [dnodup_cons_iff]
    exact ⟨hfr, hI.tnd⟩
  · rw [loadLen_iff]
    show (0 :: s.loads).length = (uid :: s.targets).length
    rw [List.length_cons, List.length_cons, loadLen_iff.1 hI.lLen]
  · rw [loadsOK_iff]
    intro p hp
    have hp2 : p ∈ (uid, (0 : Int)) :: s.targets.zip s.loads := hp
    have hpend : ∀ x, pendOf { s with targets := uid :: s.targets, loads := 0 :: s.loads, completed := aset s.completed uid [], failed := aset s.failed uid [], pending := aset s.pending uid [] } x = if x = uid then [] else pendOf s x := by
      intro x
      unfold pendOf
      show (alookup (aset s.pending uid []) x).getD [] = _
      rw [alookup_aset]
      by_cases hx : x = uid
      · rw [if_pos hx, if_pos hx]
        rfl
      · rw [if_neg hx, if_neg hx]
    rcases List.mem_cons.1 hp2 with hp3 | hp3
    · rw [hp3, hpend, if_pos rfl]
      rfl
    · obtain ⟨j, hja, hjb, hpe1, hpe2⟩ := mem_zip_decomp hp3
      have hx : p.1 ≠ uid := by
        intro hco
        have hmem : p.1 ∈ s.targets := by
          rw [hpe1]
          exact s.targets.getElem_mem hja
        rw [hco] at hmem
        rw [smem_iff_mem.2 hmem] at hfr
        cases hfr
      rw [hpend, if_neg hx]
      exact loadsOK_iff.1 hI.lOK p hp3

/-- _register_engine preserves the invariant when the uid is new. -/
theorem inv_register {fuel : Nat} {s : Sched} {uid : EngineId} {s' : Sched}
    (hI : Inv s) (hfr : smem uid s.targets = false)
    (hrun : register_engineF fuel s uid = .ok s') : Inv s' :=
  inv_updF (inv_reg_state hI hfr) hrun

/-- _unregister_engine preserves the invariant. -/
theorem inv_unregister {s : Sched} {uid : EngineId} {s' : Sched}
    (hI : Inv s) (hrun : unregister_engineF s uid = .ok s') : Inv s' := by
  simp only [unregister_engineF] at hrun
  split at hrun
  · cases hrun
  · rename_i idx hidx
    obtain ⟨hlt, hgd⟩ := indexOf_spec hidx
    have hlen : s.loads.length = s.targets.length := loadLen_iff.1 hI.lLen
    have hltl : idx < s.loads.length := by rw [hlen]; exact hlt
    have hS1 : Inv { s with targets := s.targets.eraseIdx idx, loads := s.loads.eraseIdx idx } := by
      refine ⟨hI.uOK, hI.dOK, hI.dF, hI.pF, hI.dp, hI.pp, hI.pkn, hI.pnd, ?_, ?_, ?_,
        hI.rnd, hI.dr, hI.rd⟩
      · unfold targsND
        show dnodup (s.targets.eraseIdx idx) = true
        exact dnodup_eraseIdx hI.tnd
      · rw [loadLen_iff]
        show (s.loads.eraseIdx idx).length = (s.targets.eraseIdx idx).length
        rw [List.length_eraseIdx, List.length_eraseIdx]
        rw [if_pos hlt, if_pos hltl, hlen]
      · rw [loadsOK_iff]
        intro p hp
        have hp2 : p ∈ (s.targets.zip s.loads).eraseIdx idx := by
          rw [← zip_eraseIdx_eq _ _ _ hlen.symm]
          exact hp
        exact loadsOK_iff.1 hI.lOK p (mem_eraseIdx_sub hp2)
    split at hrun
    · cases hrun
      exact inv_invisible hS1
    · cases hrun
      exact hS1

/-- The per-task loop of handle_stranded_tasks preserves the invariant. -/
theorem inv_strandLoop {fuel : Nat} {engine : EngineId} :
    ∀ (ms : List TaskId) (s s' : Sched), Inv s →
    strandLoop fuel engine ms s = .ok s' → Inv s' := by
  intro ms
  induction ms with
  | nil =>
    intro s s' hI h
    cases h
    exact hI
  | cons m rest ih =>
    intro s s' hI h
    simp only [strandLoop] at h
    split at h
    · split at h
      · cases h
      · rename_i s1 hd
        exact ih s1 s' (inv_dispatch hI hd) h
    · exact ih s s' hI h

/-- handle_stranded_tasks preserves the invariant. -/
theorem inv_stranded {fuel : Nat} {s : Sched} {engine : EngineId} {s' : Sched}
    (hI : Inv s) (hrun : handle_strandedF fuel s engine = .ok s') : Inv s' := by
  simp only [handle_strandedF] at hrun
  split at hrun
  · cases hrun
  · rename_i s1 hloop
    cases hrun
    exact inv_invisible (inv_strandLoop _ s s1 hI hloop)

/-- The per-task loop of audit_timeouts preserves the invariant. -/
theorem inv_auditLoop {fuel : Nat} {now : Int} :
    ∀ (ms : List TaskId) (s s' : Sched), Inv s →
    auditLoop fuel now ms s = .ok s' → Inv s' := by
  intro ms
  induction ms with
  | nil =>
    intro s s' hI h
    cases h
    exact hI
  | cons m rest ih =>
    intro s s' hI h
    simp only [auditLoop] at h
    split at h
    · exact ih s s' hI h
    · rename_i rec hrec
      split at h
      · rename_i tmo htm
        split at h
        · split at h
          · cases h
          · rename_i s1 hfail
            exact ih s1 s' (inv_failF hI hfail) h
        · exact ih s s' hI h
      · exact ih s s' hI h

/-- audit_timeouts preserves the invariant. -/
theorem inv_audit {fuel : Nat} {s : Sched} {now : Int} {s' : Sched}
    (hI : Inv s) (hrun : audit_timeoutsF fuel s now = .ok s') : Inv s' :=
  inv_auditLoop _ s s' hI hrun

/-- Every handler preserves the invariant under its freshness condition. -/
theorem inv_applyOp {fuel : Nat} {op : Op} {s s' : Sched}
    (hI : Inv s) (hok : opOKB op s = true)
    (hrun : applyOp fuel op s = .ok s') : Inv s' := by
  cases op with
  | submission m targs a f r timeout =>
    have h1 := band_true (show ((!smem m s.all_done && !inPendB s m) && !amem s.depending m) = true from hok)
    have h2 := band_true h1.1
    exact inv_submission hI (bnot_true h2.1) (bnot_true h2.2) (bnot_true h1.2) hrun
  | result e m ok dm => exact inv_dispatch hI hrun
  | register u =>
    exact inv_register hI (bnot_true (show (!smem u s.targets) = true from hok)) hrun
  | unregister u => exact inv_unregister hI hrun
  | stranded e => exact inv_stranded hI hrun
  | audit now => exact inv_audit hI hrun

/-- The invariant holds after any fresh run of handler invocations. -/
theorem inv_runOps {fuel : Nat} :
    ∀ (ops : List Op) (s s' : Sched), Inv s → runOKB fuel ops s = true →
    runOps fuel ops s = .ok s' → Inv s' := by
  intro ops
  induction ops with
  | nil =>
    intro s s' hI _ h
    cases h
    exact hI
  | cons op rest ih =>
    intro s s' hI hok h
    simp only [runOps] at h
    have hok2 := band_true (show (opOKB op s && _) = true from hok)
    split at h
    · cases h
    · rename_i s1 happ
      have hrest : runOKB fuel rest s1 = true := by
        have h3 := hok2.2
        rw [happ] at h3
        exact h3
      exact ih s1 s' (inv_applyOp hI hok2.1 happ) hrest h

theorem inv_of_invB {s : Sched} (h : invB s = true) : Inv s := by
  unfold invB at h
  simp only [Bool.and_eq_true] at h
  obtain ⟨⟨⟨⟨⟨⟨⟨⟨⟨⟨⟨⟨⟨h1, h2⟩, h3⟩, h4⟩, h5⟩, h6⟩, h7⟩, h8⟩, h9⟩, h10⟩, h11⟩, h12⟩, h13⟩, h14⟩ := h
  exact ⟨h1, h2, h3, h4, h5, h6, h7, h8, h9, h10, h11, h12, h13, h14⟩

/-- C3 (corrected): at quiescent points loads[i] equals the number of tasks
in pending[targets[i]], and every handler restores the relation PROVIDED
submitted msg_ids are fresh (not finished, pending or parked) and registered
uids are new; re-submitting an in-flight msg_id breaks it (see the
counterexample). -/
theorem claim_C3 {fuel : Nat} {op : Op} {s s' : Sched}
    (hI : Inv s) (hok : opOKB op s = true)
    (hrun : applyOp fuel op s = .ok s') :
    s'.loads.length = s'.targets.length ∧
    ∀ i, i < s'.targets.length →
      s'.loads.getD i 0 = ((pendOf s' (s'.targets.getD i 0)).length : Int) := by
  have h := inv_applyOp hI hok hrun
  have hlen := loadLen_iff.1 h.lLen
  refine ⟨hlen, fun i hi => ?_⟩
  have hil : i < s'.loads.length := by rw [hlen]; exact hi
  have hmem := zip_mem_of_idx hi hil
  have h2 := loadsOK_iff.1 h.lOK _ hmem
  rw [List.getD_eq_getElem _ 0 hi, List.getD_eq_getElem _ 0 hil]
  exact h2

/-- State for the C3 witness: one idle engine. -/
def c3WState : Sched :=
  { graph := [], retries := [], depending := [],
    pending := [(1, [])],
    completed := [(1, [])], failed := [(1, [])], destinations := [],
    targets := [1], loads := [0],
    all_completed := [], all_failed := [], all_done := [], all_ids := [],
    blacklist := [], hwm := 0, out := [] }

/-- Operation for the C3 witness: submit the fresh task 5 with no
dependencies. -/
def c3WOp : Op := .submission 5 [] ⟨[], true, true, false⟩ ⟨[], true, true, false⟩ 0 none

/-- The state after the C3 witness submission. -/
def c3WAfter : Sched :=
  match applyOp 10 c3WOp c3WState with
  | .ok s => s
  | .error _ => c3WState

/-- Witness for claim_C3: submitting a fresh runnable task dispatches it and
leaves loads[0] = 1 = the number of tasks pending on engine 1. -/
theorem claim_C3_witness :
    invB c3WState = true ∧ opOKB c3WOp c3WState = true ∧
    applyOp 10 c3WOp c3WState = .ok c3WAfter ∧
    (c3WAfter.loads.length = c3WAfter.targets.length ∧
     ∀ i, i < c3WAfter.targets.length →
       c3WAfter.loads.getD i 0 = ((pendOf c3WAfter (c3WAfter.targets.getD i 0)).length : Int)) :=
  ⟨by decide, by decide, by decide,
   @claim_C3 10 c3WOp c3WState c3WAfter (inv_of_invB (by decide)) (by decide) (by decide)⟩

/-- C4 (corrected): all_done = all_completed union all_failed and the two
sides are disjoint in every state reachable by handlers whose submissions
are fresh; re-submission of an already-finished msg_id can break the
disjointness half (see the counterexample). -/
theorem claim_C4 {fuel : Nat} {op : Op} {s s' : Sched}
    (hI : Inv s) (hok : opOKB op s = true)
    (hrun : applyOp fuel op s = .ok s') :
    (∀ x, x ∈ s'.all_done ↔ (x ∈ s'.all_completed ∨ x ∈ s'.all_failed)) ∧
    (∀ x, x ∈ s'.all_completed → x ∉ s'.all_failed) := by
  have h := inv_applyOp hI hok hrun
  exact ⟨unionOK_iff.1 h.uOK, disjOK_iff.1 h.dOK⟩

/-- State for the C4 witness: task 3 pending on engine 1. -/
def c4WState : Sched :=
  { graph := [], retries := [(3, 0)], depending := [],
    pending := [(1, [(3, plainRec)])],
    completed := [(1, [])], failed := [(1, [])], destinations := [],
    targets := [1], loads := [1],
    all_completed := [], all_failed := [], all_done := [], all_ids := [3],
    blacklist := [], hwm := 0, out := [] }

/-- Operation for the C4 witness: engine 1 reports task 3 done. -/
def c4WOp : Op := .result 1 3 true true

/-- The state after the C4 witness finalization. -/
def c4WAfter : Sched :=
  match applyOp 10 c4WOp c4WState with
  | .ok s => s
  | .error _ => c4WState

/-- Witness for claim_C4: finalizing task 3 keeps all_done the union of the
two outcome sets with the sides disjoint. -/
theorem claim_C4_witness :
    invB c4WState = true ∧ opOKB c4WOp c4WState = true ∧
    applyOp 10 c4WOp c4WState = .ok c4WAfter ∧
    ((∀ x, x ∈ c4WAfter.all_done ↔ (x ∈ c4WAfter.all_completed ∨ x ∈ c4WAfter.all_failed)) ∧
     (∀ x, x ∈ c4WAfter.all_completed → x ∉ c4WAfter.all_failed)) :=
  ⟨by decide, by decide, by decide,
   @claim_C4 10 c4WOp c4WState c4WAfter (inv_of_invB (by decide)) (by decide) (by decide)⟩

/-- C5: along any fresh run of handler invocations from an invariant state,
every task recorded as failed has exactly one reply in the output trace; and
fail_unreachable called on a msg_id no longer in depending emits nothing. -/
theorem claim_C5 {fuel : Nat} {ops : List Op} {s s' : Sched}
    (hI : Inv s) (hok : runOKB fuel ops s = true)
    (hrun : runOps fuel ops s = .ok s') :
    (∀ m, smem m s'.all_failed = true → countReply m s'.out = 1) ∧
    (∀ (f2 : Nat) (t : Sched) (m : TaskId) (r : Sched × Bool × List EngineId),
      amem t.depending m = false → execF f2 t (.failUn m) = .ok r →
      r.1.out = t.out) := by
  have h := inv_runOps ops s s' hI hok hrun
  constructor
  · intro m hmf
    have hum := unionOK_iff.1 h.uOK m
    have hdone : smem m s'.all_done = true :=
      smem_iff_mem.2 (hum.2 (Or.inr (smem_iff_mem.1 hmf)))
    have hidm : smem m (replyIds s'.out) = true := by
      simpa using List.all_eq_true.1 h.dr m (smem_iff_mem.1 hdone)
    exact dnodup_count_one h.rnd hidm
  · intro f2 t m r hnd hex
    cases f2 with
    | zero => simp [execF] at hex
    | succ f3 =>
      simp only [execF] at hex
      split at hex
      · cases hex
        rfl
      · rename_i rec hdep
        have hmem : amem t.depending m = true := amem_iff_alookup.2 (by simp [hdep])
        rw [hmem] at hnd
        cases hnd

/-- State for the C5 witness: task 7 parked in depending with an expired
timeout. -/
def c5WState : Sched :=
  { graph := [], retries := [], depending := [(7, ⟨[], MET, followDflt, some 5⟩)],
    pending := [(1, [])],
    completed := [(1, [])], failed := [(1, [])], destinations := [],
    targets := [1], loads := [0],
    all_completed := [], all_failed := [], all_done := [], all_ids := [7],
    blacklist := [], hwm := 0, out := [] }

/-- The state after the C5 witness audit. -/
def c5WAfter : Sched :=
  match runOps 10 [Op.audit 100] c5WState with
  | .ok s => s
  | .error _ => c5WState

/-- Witness for claim_C5: the audit fails task 7 as TaskTimeout and the trace
then holds exactly one reply for it. -/
theorem claim_C5_witness :
    invB c5WState = true ∧ runOKB 10 [Op.audit 100] c5WState = true ∧
    runOps 10 [Op.audit 100] c5WState = .ok c5WAfter ∧
    ((∀ m, smem m c5WAfter.all_failed = true → countReply m c5WAfter.out = 1) ∧
     (∀ (f2 : Nat) (t : Sched) (m : TaskId) (r : Sched × Bool × List EngineId),
       amem t.depending m = false → execF f2 t (.failUn m) = .ok r →
       r.1.out = t.out)) :=
  ⟨by decide, by decide, by decide,
   @claim_C5 10 [Op.audit 100] c5WState c5WAfter (inv_of_invB (by decide)) (by decide) (by decide)⟩

theorem foldlMin_le {t : List Int} : ∀ a x, x ∈ a :: t → t.foldl min a ≤ x := by
  induction t with
  | nil =>
    intro a x hx
    rcases List.mem_cons.1 hx with h | h
    · rw [h]; exact le_rfl
    · simp at h
  | cons b t ih =>
    intro a x hx
    rw [List.foldl_cons]
    rcases List.mem_cons.1 hx with h | hx2
    · rw [h]; exact (ih (min a b) (min a b) (List.mem_cons_self _ _)).trans (min_le_left _ _)
    · rcases List.mem_cons.1 hx2 with h | hx3
      · rw [h]; exact (ih (min a b) (min a b) (List.mem_cons_self _ _)).trans (min_le_right _ _)
      · exact ih (min a b) x (List.mem_cons_of_mem _ hx3)

theorem listMin_le {l : List Int} : ∀ x ∈ l, listMin l ≤ x := by
  cases l with
  | nil => simp
  | cons a t => intro x hx; exact foldlMin_le a x hx

theorem foldlMin_mem {t : List Int} : ∀ a, t.foldl min a ∈ a :: t := by
  induction t with
  | nil => intro a; simp
  | cons b t ih =>
    intro a
    rw [List.foldl_cons]
    rcases List.mem_cons.1 (ih (min a b)) with h | h
    · rcases min_choice a b with h2 | h2 <;> rw [h, h2] <;> simp
    · simp [h]

theorem listMin_mem {l : List Int} (h : l ≠ []) : listMin l ∈ l := by
  cases l with
  | nil => exact absurd rfl h
  | cons a t => exact foldlMin_mem a

/-- Claim C8: for a non-empty load vector, leastload returns the index of the
first occurrence of the minimum load: the returned index is in range, holds
the minimum, and every strictly earlier index holds a strictly larger load. -/
theorem claim_C8 (l : List Int) (h : l ≠ []) :
    leastload l < l.length ∧
    l.getD (leastload l) 0 = listMin l ∧
    ∀ j, j < leastload l → listMin l < l.getD j 0 := by
  have hex : ∃ x ∈ l, (x == listMin l) = true := ⟨listMin l, listMin_mem h, by simp⟩
  have hlt : l.findIdx (fun x => x == listMin l) < l.length :=
    List.findIdx_lt_length_of_exists hex
  refine ⟨hlt, ?_, ?_⟩
  · have hp := @List.findIdx_getElem _ (fun x => x == listMin l) l hlt
    have : l[l.findIdx (fun x => x == listMin l)] = listMin l := by
      simpa using hp
    rw [leastload, List.getD_eq_getElem l 0 hlt, this]
  · intro j hj
    have hjl : j < l.length := lt_trans hj hlt
    have hne := List.not_of_lt_findIdx (p := fun x => x == listMin l) hj
    have hne2 : l[j] ≠ listMin l := by simpa using hne
    have hle : listMin l ≤ l[j] := listMin_le _ (l.getElem_mem hjl)
    rw [List.getD_eq_getElem l 0 hjl]
    exact lt_of_le_of_ne hle (fun hco => hne2 hco.symm)

/-- Witness for C8 at a concrete load vector. -/
theorem claim_C8_witness :
    ([3, 1, 1, 2] : List Int) ≠ [] ∧
    (leastload [3, 1, 1, 2] < ([3, 1, 1, 2] : List Int).length ∧
     ([3, 1, 1, 2] : List Int).getD (leastload [3, 1, 1, 2]) 0 = listMin [3, 1, 1, 2] ∧
     ∀ j, j < leastload [3, 1, 1, 2] → listMin [3, 1, 1, 2] < ([3, 1, 1, 2] : List Int).getD j 0) :=
  ⟨by decide, claim_C8 [3, 1, 1, 2] (by decide)⟩

/-- Claim C9: add_job increments loads at idx, then moves position idx of both
parallel lists to the tail: lengths are preserved, the zip pairing after the
move is the zip of targets with the bumped loads, with position idx moved to
the back, and the moved engine ends last; finish_job decrements loads at idx
and leaves everything else (including order) untouched. -/
theorem claim_C9 (targets : List EngineId) (loads : List Int) (idx : Nat)
    (h1 : idx < targets.length) (h2 : targets.length = loads.length) :
    (add_job targets loads idx).1.length = targets.length ∧
    (add_job targets loads idx).2.length = loads.length ∧
    ((add_job targets loads idx).1.zip (add_job targets loads idx).2 =
      ((targets.zip (loads.set idx (loads.getD idx 0 + 1))).eraseIdx idx)
        ++ [(targets.getD idx 0, loads.getD idx 0 + 1)]) ∧
    (add_job targets loads idx).1.getLast? = some (targets.getD idx 0) ∧
    (finish_job loads idx).length = loads.length ∧
    (finish_job loads idx).getD idx 0 = loads.getD idx 0 - 1 ∧
    ∀ j, j ≠ idx → (finish_job loads idx).getD j 0 = loads.getD j 0 := by
  have h1l : idx < loads.length := h2 ▸ h1
  have hT0 : 0 < targets.length := Nat.lt_of_le_of_lt (Nat.zero_le _) h1
  have hL0 : 0 < loads.length := Nat.lt_of_le_of_lt (Nat.zero_le _) h1l
  have hset : (loads.set idx (loads.getD idx 0 + 1)).getD idx 0 = loads.getD idx 0 + 1 := by
    rw [List.getD_eq_getElem _ 0 (by simpa using h1l)]
    simp [List.getElem_set_self]
  refine ⟨?_, ?_, ?_, ?_, ?_, ?_, ?_⟩
  · simp only [add_job, List.length_append, List.length_eraseIdx]
    simp [h1, Nat.sub_add_cancel hT0]
  · simp only [add_job, List.length_append, List.length_eraseIdx, List.length_set]
    simp [h1l, Nat.sub_add_cancel hL0]
  · simp only [add_job]
    rw [List.zip_append (by simp [List.length_eraseIdx, h1, h1l, h2])]
    rw [zip_eraseIdx_eq _ _ _ (by simp [h2])]
    rw [hset]
    rfl
  · simp only [add_job]
    rw [List.getLast?_concat]
  · simp [finish_job]
  · rw [finish_job, List.getD_eq_getElem _ 0 (by simpa using h1l)]
    simp [List.getElem_set_self]
  · intro j hj
    by_cases hjl : j < loads.length
    · rw [finish_job, List.getD_eq_getElem _ 0 (by simpa using hjl),
        List.getD_eq_getElem _ 0 hjl]
      simp [List.getElem_set_ne (Ne.symm hj)]
    · rw [finish_job]
      rw [List.getD_eq_default _ 0 (by simpa using Nat.le_of_not_lt hjl),
        List.getD_eq_default _ 0 (Nat.le_of_not_lt hjl)]

/-- Witness for C9 at a concrete registry. -/
theorem claim_C9_witness :
    (1 < ([10, 20, 30] : List EngineId).length ∧
      ([10, 20, 30] : List EngineId).length = ([5, 7, 9] : List Int).length) ∧
    ((add_job [10, 20, 30] [5, 7, 9] 1).1.length = ([10, 20, 30] : List EngineId).length ∧
     (add_job [10, 20, 30] [5, 7, 9] 1).2.length = ([5, 7, 9] : List Int).length ∧
     ((add_job [10, 20, 30] [5, 7, 9] 1).1.zip (add_job [10, 20, 30] [5, 7, 9] 1).2 =
       ((([10, 20, 30] : List EngineId).zip (([5, 7, 9] : List Int).set 1
           (([5, 7, 9] : List Int).getD 1 0 + 1))).eraseIdx 1)
         ++ [(([10, 20, 30] : List EngineId).getD 1 0, ([5, 7, 9] : List Int).getD 1 0 + 1)]) ∧
     (add_job [10, 20, 30] [5, 7, 9] 1).1.getLast? = some (([10, 20, 30] : List EngineId).getD 1 0) ∧
     (finish_job [5, 7, 9] 1).length = ([5, 7, 9] : List Int).length ∧
     (finish_job [5, 7, 9] 1).getD 1 0 = ([5, 7, 9] : List Int).getD 1 0 - 1 ∧
     ∀ j, j ≠ 1 → (finish_job [5, 7, 9] 1).getD j 0 = ([5, 7, 9] : List Int).getD j 0) :=
  ⟨⟨by decide, by decide⟩, claim_C9 [10, 20, 30] [5, 7, 9] 1 (by decide) (by decide)⟩

end Scheduler
